import Mathlib

/-!
PatchUtils: the patch section parser and the finalizer.

A shallow embedding of `src/libs/patch/patch.c`, `src/libs/util/util.c` and the
entry model and finalizer of `src/apps/update_patch.c`.

Modelling conventions.

* A byte is a natural number; a buffer of `length` bytes is a `List Byte`, and the
  NUL terminator the C code keeps after it is implicit. `cstr` gives the C string
  view of a buffer (the bytes before the first NUL).
* The heap is unbounded: `strdup` and `realloc` succeed and the `size_t` sums of
  `utils_append_bytes` stay below `SIZE_MAX`, so the capacity bookkeeping of
  `grow_buffer` is not represented and the allocation-failure exits are absent.
* A `FILE` open for reading is the bytes that can still be read from it together
  with the reason why reading ends (end of stream or a read error).
* Callbacks are state passing: `cb section userdata` gives the returned flag and
  the new `userdata`.
* A `char *` path is held as the content of the C string, so `strcmp(a, b) == 0` is
  equality of the lists; an array with its `count` is the list of its first `count`
  elements.
* The dialogs of the terminal and the status listing of the repository are given by
  their answers: a handler takes what `ui_multiselect` or `gitutils_collect_status`
  answers as an argument.
* The finalizer runs against an outside world (`world`) that holds the target file,
  the staging file and the log of the calls made, and an `Env` that fixes what each
  fallible call answers. While the staging stream is open the staging bytes of the
  world are the bytes the stream has taken from `fwrite` and from the inspector.
* The C code ignores the result of `fflush`. `write_final_patch_buffered` takes the
  answer of `fflush` as a parameter: the bytes that reach the staging file.
  `write_final_patch` is that function for runs in which the flush succeeds, so that
  every byte the stream has taken is in the staging file when it is closed
  (`write_final_patch_buffered_flushed`).
-/

namespace PatchUtils

/-! ## Bytes and C strings -/

abbrev Byte := Nat

/-- The bytes of an ASCII string literal. -/
def bytes (s : String) : List Byte := s.toList.map Char.toNat

/-- The C string stored in a buffer: its bytes before the first NUL. -/
def cstr : List Byte → List Byte
  | [] => []
  | c :: cs => if c = 0 then [] else c :: cstr cs

/-- The test `isspace((unsigned char)c) != 0` in the C locale. -/
def isspace (c : Byte) : Bool := c == 32 || (9 ≤ c && c ≤ 13)

/-- The test `strncmp(a, b, n) == 0`. -/
def strncmp_eq (a b : List Byte) (n : Nat) : Bool :=
  (cstr a).take n == (cstr b).take n

/-! ## util.c -/

/-- The function `utils_append_bytes` on a buffer of `length` bytes: the `count`
bytes of `data` are copied behind the bytes already there. -/
def utils_append_bytes (buffer data : List Byte) : List Byte := buffer ++ data

/-- The loop `while (*input && isspace(*input)) ++input`. -/
def skip_spaces : List Byte → List Byte
  | [] => []
  | c :: cs => if isspace c then skip_spaces cs else c :: cs

/-- The loop `while (*input && !isspace(*input)) ++input`. -/
def skip_token : List Byte → List Byte
  | [] => []
  | c :: cs => if isspace c then c :: cs else skip_token cs

/-- The copy loop of `utils_parse_token` for a token that opens with a double
quote: `buf` is `buffer[0..idx)`, the result is the buffer and the cursor. -/
def parse_quoted (buffer_size : Nat) : List Byte → List Byte → List Byte × List Byte
  | [], buf => (buf, [])
  | c :: cs, buf =>
    if c = 34 ∨ ¬ (buf.length + 1 < buffer_size) then (buf, c :: cs)
    else if c = 92 then
      match cs with
      | d :: ds => parse_quoted buffer_size ds (buf ++ [d])
      | [] => (buf ++ [c], [])
    else parse_quoted buffer_size cs (buf ++ [c])

/-- The copy loop of `utils_parse_token` for a bare token. -/
def parse_bare (buffer_size : Nat) : List Byte → List Byte → List Byte × List Byte
  | [], buf => (buf, [])
  | c :: cs, buf =>
    if isspace c ∨ ¬ (buf.length + 1 < buffer_size) then (buf, c :: cs)
    else parse_bare buffer_size cs (buf ++ [c])

/-- The function `utils_parse_token(input, buffer, buffer_size)` on a non-null C
string `input`: the returned cursor and the C string left in `buffer`. With
`buffer_size = 0` the C code leaves the caller's buffer alone; the token is then
given as empty. -/
def utils_parse_token (input : List Byte) (buffer_size : Nat) : List Byte × List Byte :=
  if buffer_size = 0 then (input, [])
  else
    let input := skip_spaces input
    let r : List Byte × List Byte :=
      match input with
      | [] => ([], [])
      | c :: cs =>
        if c = 34 then
          let q := parse_quoted buffer_size cs []
          (q.1, match q.2 with
                | [] => []
                | d :: ds => if d = 34 then ds else d :: ds)
        else parse_bare buffer_size (c :: cs) []
    (skip_token r.2, r.1)

/-! ## patch.c -/

/-- The struct `patch_section`: `path` is `none` for a null pointer, `data` holds
the `length` bytes of the section. -/
structure patch_section where
  path : Option (List Byte)
  data : List Byte
  deriving DecidableEq, Repr

/-- The zeroed section `{0}`. -/
def patch_section.zero : patch_section := ⟨none, []⟩

/-- The function `patch_section_init`: zero the section, then duplicate `path`. -/
def patch_section_init (path : List Byte) : patch_section := ⟨some path, []⟩

/-- The function `patch_section_reset`. -/
def patch_section_reset (_section : patch_section) : patch_section := patch_section.zero

/-- The function `patch_section_append`. -/
def patch_section_append (section_ : patch_section) (data : List Byte) : patch_section :=
  { section_ with data := utils_append_bytes section_.data data }

/-- A stream open for reading: the bytes still to be read, and whether reading
ends with a read error instead of the end of the stream. -/
structure FILE where
  content : List Byte
  read_error : Bool
  deriving DecidableEq, Repr

/-- The first line of a non-empty input, with its terminator when it has one, and
the bytes after it. -/
def read_line : List Byte → List Byte × List Byte
  | [] => ([], [])
  | c :: cs =>
    if c = 10 then ([c], cs)
    else ((c :: (read_line cs).1), (read_line cs).2)

/-- One call of `getline`: `none` is the result `-1`, which the call gives both at
the end of the stream and on a read error; otherwise the line and the stream
after it. -/
def getline (input : FILE) : Option (List Byte × FILE) :=
  match input.content with
  | [] => none
  | c :: cs => some ((read_line (c :: cs)).1, { input with content := (read_line (c :: cs)).2 })

/-- The lines that successive calls of `getline` give until it gives `-1`. -/
def getlines : List Byte → List (List Byte)
  | [] => []
  | c :: cs =>
    if c = 10 then [c] :: getlines cs
    else
      match getlines cs with
      | [] => [[c]]
      | l :: ls => (c :: l) :: ls

/-- The marker `diff --git`. -/
def diff_git : List Byte := bytes "diff --git"

/-- The path that `patch_parse` gives to the section opened by a boundary line. -/
def section_target (line : List Byte) : List Byte :=
  let old := utils_parse_token (cstr (line.drop 10)) 512
  let new := utils_parse_token old.1 512
  let target := if new.2 ≠ [] then new.2 else old.2
  if strncmp_eq target (bytes "a/") 2 || strncmp_eq target (bytes "b/") 2 then target.drop 2
  else target

/-- The `while` loop of `patch_parse` over the lines `getline` gives: the result is
`ok`, `current` and the callback's `userdata` when the loop is left. -/
def patch_parse_loop {σ : Type} (cb : patch_section → σ → Bool × σ) :
    List (List Byte) → patch_section → σ → Bool × patch_section × σ
  | [], current, userdata => (true, current, userdata)
  | line :: rest, current, userdata =>
    if strncmp_eq line diff_git 10 then
      if current.path.isSome then
        if (cb current userdata).1 then
          patch_parse_loop cb rest
            (patch_section_append (patch_section_init (section_target line)) line)
            (cb current userdata).2
        else (false, current, (cb current userdata).2)
      else
        patch_parse_loop cb rest
          (patch_section_append (patch_section_init (section_target line)) line) userdata
    else if current.path.isSome then
      patch_parse_loop cb rest (patch_section_append current line) userdata
    else patch_parse_loop cb rest current userdata

/-- The function `patch_parse(input, cb, userdata)`: the returned flag and the
final `userdata`. -/
def patch_parse {σ : Type} (input : FILE) (cb : patch_section → σ → Bool × σ)
    (userdata : σ) : Bool × σ :=
  let r := patch_parse_loop cb (getlines input.content) patch_section.zero userdata
  if r.1 && r.2.1.path.isSome then cb r.2.1 r.2.2
  else (r.1, r.2.2)

/-- A callback together with the record of its calls: every section delivered,
with the `userdata` the callback was called on. -/
def traced {σ : Type} (cb : patch_section → σ → Bool × σ) :
    patch_section → σ × List (patch_section × σ) → Bool × (σ × List (patch_section × σ)) :=
  fun s u => ((cb s u.1).1, ((cb s u.1).2, u.2 ++ [(s, u.1)]))

/-- The contents of the sections delivered, concatenated in delivery order. -/
def delivered_bytes {σ : Type} (calls : List (patch_section × σ)) : List Byte :=
  (calls.map (fun c => c.1.data)).flatten

/-- The array of `patch_sections`: `sections[0..count)`. -/
abbrev patch_sections := List patch_section

/-- The function `collect_sections_callback`: a copy of the delivered section (its
path, which `patch_parse` never leaves null, and its `length` bytes) becomes the
new last element of the array. -/
def collect_sections_callback (section_ : patch_section) (dest : patch_sections) :
    Bool × patch_sections :=
  (true, dest ++ [patch_section_append (patch_section_init (section_.path.getD []))
    section_.data])

/-! ## git.h, ui.h and the file system, as far as the finalizer uses them -/

/-- The libgit2 code `GIT_ENOTFOUND` (`git2/errors.h`). -/
def GIT_ENOTFOUND : Int := -3

/-- What one call `gitutils_write_diff_for_path(repo, path, output, &has_changes)`
does: the returned code, the flag it stores and the bytes it writes to `output`. -/
structure diff_result where
  rc : Int
  has_changes : Bool
  output : List Byte
  deriving DecidableEq, Repr

/-- The texts `write_final_patch` passes to `ui_show_message`, one constructor per
call site, in source order. -/
inductive ui_message where
  | no_files_selected
  | path_too_long
  | temp_create_failed
  | temp_open_failed
  | diff_failed (path : List Byte)
  | no_current_changes (path : List Byte)
  | write_failed
  | close_failed
  | no_content_generated
  | replace_failed
  | skipped_updates (n : Nat)
  | updated
  deriving DecidableEq, Repr

/-- The calls that reach outside the process during `write_final_patch`. -/
inductive event where
  | mkstemp (template : List Byte)
  | fdopen
  | close
  | write_diff (path : List Byte)
  | fwrite (data : List Byte)
  | fflush
  | fclose
  | unlink
  | rename
  deriving DecidableEq, Repr

/-- The part of the outside world `write_final_patch` acts on: the content of the
file at `patch_path`, the content of the staging file while it exists, and the
calls made so far. -/
structure world where
  target : List Byte
  staging : Option (List Byte)
  log : List event
  deriving DecidableEq, Repr

/-- What the outside world answers: the value of `PATH_MAX`, whether `mkstemp`
creates the file for a template, whether `fdopen` gives a stream, the result of
`gitutils_write_diff_for_path` for a path, how many bytes `fwrite` accepts given
the bytes staged so far and the bytes offered, whether the last `fclose` gives 0
and whether `rename` succeeds. -/
structure Env where
  PATH_MAX : Nat
  mkstemp : List Byte → Bool
  fdopen : Bool
  write_diff : List Byte → diff_result
  fwrite : List Byte → List Byte → Nat
  fclose : Bool
  rename : Bool

/-- Record a call. -/
def world.call (w : world) (e : event) : world := { w with log := w.log ++ [e] }

/-- Bytes arrive in the staging file. -/
def world.stage (w : world) (data : List Byte) : world :=
  { w with staging := w.staging.map (fun staged => staged ++ data) }

/-- The call `unlink(temp_template)`. -/
def world.unlink (w : world) : world :=
  { w with staging := none, log := w.log ++ [event.unlink] }

/-- A successful `rename(temp_template, patch_path)`. -/
def world.renamed (w : world) : world :=
  { w with target := w.staging.getD [], staging := none }

/-- The index of the last `c` in a C string: `strrchr(s, c) - s`. -/
def strrchr (s : List Byte) (c : Byte) : Option Nat :=
  match (s.reverse.indexOf? c) with
  | some i => some (s.length - 1 - i)
  | none => none

/-- The function `utils_format_message` on a buffer of `size` bytes, given the text
the format expands to: the C string left in the buffer. -/
def utils_format_message (size : Nat) (text : List Byte) : List Byte :=
  if text.length ≥ size ∧ size > 3 then text.take (size - 4) ++ bytes "..."
  else text.take (size - 1)

/-- The staging template `write_final_patch` builds from `patch_path`, or `none`
when it gives up with "Patch path is too long." -/
def temp_template (PATH_MAX : Nat) (patch_path : List Byte) : Option (List Byte) :=
  match strrchr (cstr patch_path) 47 with
  | some dir_len =>
    if dir_len ≥ PATH_MAX then none
    else some (utils_format_message PATH_MAX
      ((cstr patch_path).take dir_len ++ bytes "/.patchutilsXXXXXX"))
  | none => some (utils_format_message PATH_MAX (bytes "." ++ bytes "/.patchutilsXXXXXX"))

/-! ## update_patch.c -/

/-- The struct `patch_entry`. The `section` pointer refers to an element of the
parsed section array, which no operation of the session changes; it is given by
the section it points to, `none` for a null pointer. -/
structure patch_entry where
  section_ : Option patch_section
  path : List Byte
  owns_path : Bool
  mark_for_update : Bool
  is_original : Bool
  deriving DecidableEq, Repr

/-- How the entry loop of `write_final_patch` ends: with one of its `return -1`
exits, or by running to its end with the two counters. -/
inductive loop_result where
  | failed (msg : ui_message) (w : world)
  | finished (written_sections skipped_updates : Nat) (w : world)
  deriving DecidableEq, Repr

/-- The `for` loop of `write_final_patch` over the entries from index `i` on. -/
def write_entries (env : Env) :
    List patch_entry → Nat → Nat → world → loop_result
  | [], written_sections, skipped_updates, w =>
    loop_result.finished written_sections skipped_updates w
  | entry :: rest, written_sections, skipped_updates, w =>
    if !entry.is_original || entry.mark_for_update then
      let r := env.write_diff entry.path
      let w1 := (w.call (event.write_diff entry.path)).stage r.output
      if r.rc < 0 ∧ r.rc ≠ GIT_ENOTFOUND then
        loop_result.failed (ui_message.diff_failed entry.path) (w1.call event.fclose).unlink
      else if r.has_changes then
        write_entries env rest (written_sections + 1) skipped_updates w1
      else if !entry.is_original then
        loop_result.failed (ui_message.no_current_changes entry.path)
          (w1.call event.fclose).unlink
      else if entry.mark_for_update then
        write_entries env rest written_sections (skipped_updates + 1) w1
      else write_entries env rest written_sections skipped_updates w1
    else
      match entry.section_ with
      | some s =>
        if s.data.length > 0 then
          let written := min (env.fwrite (w.staging.getD []) s.data) s.data.length
          let w1 := (w.call (event.fwrite s.data)).stage (s.data.take written)
          if written ≠ s.data.length then
            loop_result.failed ui_message.write_failed (w1.call event.fclose).unlink
          else write_entries env rest (written_sections + 1) skipped_updates w1
        else write_entries env rest written_sections skipped_updates w
      | none => write_entries env rest written_sections skipped_updates w

/-- What `write_final_patch` gives back: the returned code, the message shown and
the outside world after the call. -/
structure final_result where
  rc : Int
  message : ui_message
  after : world
  deriving DecidableEq, Repr

/-- The function `write_final_patch(patch_path, repo, entries)` for runs in which the
call `fflush(temp_file)` succeeds; the repository is the `write_diff` answer of `env`.
`write_final_patch_buffered` is the function with the answer of `fflush` left open. -/
def write_final_patch (env : Env) (patch_path : List Byte) (entries : List patch_entry)
    (w : world) : final_result :=
  if entries.length = 0 then ⟨-1, ui_message.no_files_selected, w⟩
  else
    match temp_template env.PATH_MAX patch_path with
    | none => ⟨-1, ui_message.path_too_long, w⟩
    | some template =>
      let w1 := w.call (event.mkstemp template)
      if !env.mkstemp template then ⟨-1, ui_message.temp_create_failed, w1⟩
      else
        let w2 := { w1 with staging := some [] }.call event.fdopen
        if !env.fdopen then
          ⟨-1, ui_message.temp_open_failed, (w2.call event.close).unlink⟩
        else
          match write_entries env entries 0 0 w2 with
          | loop_result.failed msg w3 => ⟨-1, msg, w3⟩
          | loop_result.finished written_sections skipped_updates w3 =>
            let w4 := (w3.call event.fflush).call event.fclose
            if !env.fclose then ⟨-1, ui_message.close_failed, w4.unlink⟩
            else if written_sections = 0 then
              ⟨-1, ui_message.no_content_generated, w4.unlink⟩
            else
              let w5 := w4.call event.rename
              if !env.rename then ⟨-1, ui_message.replace_failed, w5.unlink⟩
              else
                ⟨0, if skipped_updates > 0 then ui_message.skipped_updates skipped_updates
                    else ui_message.updated, w5.renamed⟩

/-- What `fflush(temp_file)` does on a stream that has taken the bytes `staged`: the
code it returns, which `write_final_patch` does not look at, and the bytes the staging
file holds once the stream is closed. A flush that succeeds returns 0 and leaves every
byte taken in the file; one that fails returns `EOF` and leaves fewer. -/
structure flush_result where
  rc : Int
  file : List Byte
  deriving DecidableEq, Repr

/-- The call `fflush(temp_file)`: the bytes the stream has taken give way to the bytes
that reach the staging file. -/
def world.flushed (w : world) (fflush : List Byte → flush_result) : world :=
  { w with staging := w.staging.map (fun staged => (fflush staged).file),
           log := w.log ++ [event.fflush] }

/-- The function `write_final_patch(patch_path, repo, entries)` on a buffered stream:
during the entry loop the staging bytes of the world are the bytes the stream has
taken from `fwrite` and from the inspector, and `fflush`, whose result the C code
ignores, decides which of them reach the staging file. -/
def write_final_patch_buffered (env : Env) (fflush : List Byte → flush_result)
    (patch_path : List Byte) (entries : List patch_entry) (w : world) : final_result :=
  if entries.length = 0 then ⟨-1, ui_message.no_files_selected, w⟩
  else
    match temp_template env.PATH_MAX patch_path with
    | none => ⟨-1, ui_message.path_too_long, w⟩
    | some template =>
      let w1 := w.call (event.mkstemp template)
      if !env.mkstemp template then ⟨-1, ui_message.temp_create_failed, w1⟩
      else
        let w2 := { w1 with staging := some [] }.call event.fdopen
        if !env.fdopen then
          ⟨-1, ui_message.temp_open_failed, (w2.call event.close).unlink⟩
        else
          match write_entries env entries 0 0 w2 with
          | loop_result.failed msg w3 => ⟨-1, msg, w3⟩
          | loop_result.finished written_sections skipped_updates w3 =>
            let w4 := (w3.flushed fflush).call event.fclose
            if !env.fclose then ⟨-1, ui_message.close_failed, w4.unlink⟩
            else if written_sections = 0 then
              ⟨-1, ui_message.no_content_generated, w4.unlink⟩
            else
              let w5 := w4.call event.rename
              if !env.rename then ⟨-1, ui_message.replace_failed, w5.unlink⟩
              else
                ⟨0, if skipped_updates > 0 then ui_message.skipped_updates skipped_updates
                    else ui_message.updated, w5.renamed⟩

/-! ## update_patch.c: the entry list and the editing session -/

/-- The function `patch_entry_list_find`: the index of the entry the returned
pointer refers to, `none` for a null result. Paths are C string contents, on which
`strcmp(a, b) == 0` is equality. -/
def patch_entry_list_find : List patch_entry → List Byte → Option Nat
  | [], _ => none
  | e :: rest, path =>
    if e.path = path then some 0
    else (patch_entry_list_find rest path).map (fun i => i + 1)

/-- The function `patch_entry_list_append`: `items[count++] = entry`. -/
def patch_entry_list_append (list : List patch_entry) (entry : patch_entry) :
    List patch_entry :=
  list ++ [entry]

/-- The loop `for (i = ...; i < count; ++i) items[i - 1] = items[i]` of
`patch_entry_list_remove_at`, with the number of iterations left. -/
def shift_down {α : Type} (items : List α) (i : Nat) : Nat → List α
  | 0 => items
  | n + 1 =>
    match items[i]? with
    | some x => shift_down (items.set (i - 1) x) (i + 1) n
    | none => items

/-- The function `patch_entry_list_remove_at`: the entries after `index` move down by
one slot and `count` drops by one. -/
def patch_entry_list_remove_at (list : List patch_entry) (index : Nat) : List patch_entry :=
  if index ≥ list.length then list
  else (shift_down list (index + 1) (list.length - (index + 1))).take (list.length - 1)

/-- The entry `collect_patch_entries` builds for a section. The path pointer of a
section the parser delivered is never null. -/
def entry_of_section (s : patch_section) : patch_entry :=
  ⟨some s, s.path.getD [], false, false, true⟩

/-- The loop of `collect_patch_entries`: `entries->items[entries->count++] = entry`
for each section in turn. -/
def collect_loop : List patch_section → List patch_entry → List patch_entry
  | [], entries => entries
  | s :: rest, entries => collect_loop rest (entries ++ [entry_of_section s])

/-- The function `collect_patch_entries`: the returned code and the entry list. -/
def collect_patch_entries (sections : List patch_section) (entries : List patch_entry) :
    Int × List patch_entry :=
  (0, collect_loop sections entries)

/-- The enum `gitutils_file_status`. -/
inductive gitutils_file_status where
  | modified
  | untracked
  deriving DecidableEq, Repr

/-- The struct `gitutils_status_entry`. -/
structure gitutils_status_entry where
  path : List Byte
  status : gitutils_file_status
  deriving DecidableEq, Repr

/-- The body of the insertion loop of `handle_add_files` for one selected item: an
item whose label is already the path of an entry is passed over, otherwise a new
entry is appended. -/
def add_file (entries : List patch_entry) (label : List Byte) : List patch_entry :=
  if (patch_entry_list_find entries label).isSome then entries
  else patch_entry_list_append entries ⟨none, label, true, false, false⟩

/-- The insertion loop of `handle_add_files` over the items, each with its
`selected` flag. -/
def add_selected : List (List Byte × Bool) → List patch_entry → List patch_entry
  | [], entries => entries
  | item :: rest, entries =>
    add_selected rest (if item.2 then add_file entries item.1 else entries)

/-- The function `handle_add_files`, given what `gitutils_collect_status` answers
(an error code or the status list) and what `ui_multiselect` answers (`none` for a
negative result, otherwise the `selected` flags of the items): the returned code and
the entry list. -/
def handle_add_files (status : Except Int (List gitutils_status_entry))
    (selection : Option (List Bool)) (entries : List patch_entry) :
    Int × List patch_entry :=
  match status with
  | Except.error rc => (rc, entries)
  | Except.ok status_list =>
    let items := (status_list.filter
      (fun e => (patch_entry_list_find entries e.path).isNone)).map (fun e => e.path)
    if items.length = 0 then (0, entries)
    else
      match selection with
      | none => (0, entries)
      | some selected => (0, add_selected (items.zip selected) entries)

/-- The removal loop of `handle_remove_files`: `idx` runs from the index below the
given one down to 0. -/
def remove_selected (selected : List Bool) : Nat → List patch_entry → List patch_entry
  | 0, entries => entries
  | idx + 1, entries =>
    remove_selected selected idx
      (if selected.getD idx false then patch_entry_list_remove_at entries idx else entries)

/-- The function `handle_remove_files`, given what `ui_multiselect` answers. -/
def handle_remove_files (selection : Option (List Bool)) (entries : List patch_entry) :
    List patch_entry :=
  if entries.length = 0 then entries
  else
    match selection with
    | none => entries
    | some selected => remove_selected selected entries.length entries

/-- The assignment loop of `handle_update_flags`:
`items[i].mark_for_update = selected[i]` for each index. -/
def set_update_flags : List patch_entry → List Bool → List patch_entry
  | [], _ => []
  | e :: rest, [] => e :: rest
  | e :: rest, s :: more => { e with mark_for_update := s } :: set_update_flags rest more

/-- The function `handle_update_flags`, given what `ui_multiselect` answers. -/
def handle_update_flags (selection : Option (List Bool)) (entries : List patch_entry) :
    List patch_entry :=
  if entries.length = 0 then entries
  else
    match selection with
    | none => entries
    | some selected => set_update_flags entries selected

/-- What the outside answers before the menu of `run_update_patch` opens: whether
`fopen` gives a stream, whether reading it ends with a read error, and the codes of
`git_libgit2_init`, `gitutils_open_repository` and `ui_initialize`. -/
structure Startup where
  fopen : Bool
  read_error : Bool
  libgit2_init : Int
  open_repository : Int
  ui_initialize : Int

/-- The function `parse_patch_file` on a file with the given content: the sections,
or `none` for the result -1. -/
def parse_patch_file (s : Startup) (content : List Byte) : Option patch_sections :=
  if !s.fopen then none
  else
    let r := patch_parse ⟨content, s.read_error⟩ collect_sections_callback []
    if !r.1 || r.2.length = 0 then none else some r.2

/-- One round of the menu of `run_update_patch`: the result of `ui_menu_select` and
what the dialogs of the chosen handler answer. -/
structure menu_round where
  choice : Int
  status : Except Int (List gitutils_status_entry)
  selection : Option (List Bool)

/-- How a session stands: it ended before the menu opened (exit code 1), the menu
waits for the next choice, the menu was cancelled (exit code 0), or the finalizer was
called and gave a result. -/
inductive session_result where
  | startup_failed (w : world)
  | editing (entries : List patch_entry) (w : world)
  | cancelled (w : world)
  | finalized (r : final_result)
  deriving DecidableEq, Repr

/-- The `while (!done)` loop of `run_update_patch` and the call of
`write_final_patch` behind it, over the rounds the user plays. -/
def menu_loop (env : Env) (patch_path : List Byte) :
    List menu_round → List patch_entry → world → session_result
  | [], entries, w => session_result.editing entries w
  | r :: rest, entries, w =>
    if r.choice < 0 then session_result.cancelled w
    else if r.choice = 0 then
      menu_loop env patch_path rest (handle_add_files r.status r.selection entries).2 w
    else if r.choice = 1 then
      menu_loop env patch_path rest (handle_remove_files r.selection entries) w
    else if r.choice = 2 then
      menu_loop env patch_path rest (handle_update_flags r.selection entries) w
    else if r.choice = 3 then
      session_result.finalized (write_final_patch env patch_path entries w)
    else menu_loop env patch_path rest entries w

/-- The function `run_update_patch(patch_path)`: the patch file is the target file
of the world. -/
def run_update_patch (env : Env) (s : Startup) (patch_path : List Byte)
    (rounds : List menu_round) (w : world) : session_result :=
  match parse_patch_file s w.target with
  | none => session_result.startup_failed w
  | some sections =>
    if (collect_patch_entries sections []).1 < 0 then session_result.startup_failed w
    else if s.libgit2_init < 0 then session_result.startup_failed w
    else if s.open_repository < 0 then session_result.startup_failed w
    else if s.ui_initialize ≠ 0 then session_result.startup_failed w
    else menu_loop env patch_path rounds (collect_patch_entries sections []).2 w

/-- The exit code of `run_update_patch`, once the session has ended. -/
def session_result.exit_code : session_result → Option Int
  | session_result.startup_failed _ => some 1
  | session_result.editing _ _ => none
  | session_result.cancelled _ => some 0
  | session_result.finalized r => some (if r.rc = 0 then 0 else 1)

/-- The outside world as the session leaves it. -/
def session_result.world : session_result → world
  | session_result.startup_failed w => w
  | session_result.editing _ w => w
  | session_result.cancelled w => w
  | session_result.finalized r => r.after

/-! ## Words of the specification about the finalizer -/

/-- The test `rc < 0 && rc != GIT_ENOTFOUND`: the inspector reports an error. -/
def diff_result.is_error (r : diff_result) : Prop := r.rc < 0 ∧ r.rc ≠ GIT_ENOTFOUND

instance (r : diff_result) : Decidable r.is_error := by
  unfold diff_result.is_error; infer_instance

/-- An inspector answer is one of an error, a no-changes result or changed diff
bytes: an answer that is neither an error nor a change carries no bytes. -/
def diff_result.three_way (r : diff_result) : Prop :=
  ¬ r.is_error → r.has_changes = false → r.output = []

/-- The bytes of the section an entry refers to; none for a null pointer. -/
def stored_bytes (e : patch_entry) : List Byte :=
  match e.section_ with
  | some s => s.data
  | none => []

/-- The contribution of an entry as the specification words it: the inspector's
bytes for an Added or update-requested entry whose diff has changes, nothing when
that diff has no changes, the stored bytes for any other Original entry. -/
def contribution (env : Env) (e : patch_entry) : List Byte :=
  if e.is_original = false ∨ e.mark_for_update = true then
    if (env.write_diff e.path).has_changes = true then (env.write_diff e.path).output else []
  else stored_bytes e

/-- The entry counts as written. -/
def counts_written (env : Env) (e : patch_entry) : Bool :=
  if e.is_original = false ∨ e.mark_for_update = true then (env.write_diff e.path).has_changes
  else decide (stored_bytes e ≠ [])

/-- The entry counts as skipped: Original, update requested, diff without changes. -/
def counts_skipped (env : Env) (e : patch_entry) : Bool :=
  e.is_original && e.mark_for_update && !(env.write_diff e.path).has_changes

/-- The entry stops the finalizer: its diff is asked for and the inspector reports
an error, or it is Added and its diff has no changes. -/
def fatal (env : Env) (e : patch_entry) : Prop :=
  (e.is_original = false ∨ e.mark_for_update = true) ∧
    ((env.write_diff e.path).is_error ∨
      ((env.write_diff e.path).has_changes = false ∧ e.is_original = false))

/-- No staging step fails: the template fits, `mkstemp` and `fdopen` succeed, every
`fwrite` takes all the bytes offered, `fclose` and `rename` succeed. -/
def staging_ok (env : Env) (patch_path : List Byte) : Prop :=
  (∃ template, temp_template env.PATH_MAX patch_path = some template ∧
    env.mkstemp template = true) ∧
  env.fdopen = true ∧ (∀ staged data, data.length ≤ env.fwrite staged data) ∧
  env.fclose = true ∧ env.rename = true

/-- The outside world when the entry loop is left. -/
def loop_result.world : loop_result → world
  | loop_result.failed _ w => w
  | loop_result.finished _ _ w => w

/-- Between two worlds the target file kept its content and no `rename` was called. -/
def target_kept (w w1 : world) : Prop :=
  w1.target = w.target ∧ ∃ evs, w1.log = w.log ++ evs ∧ event.rename ∉ evs

/-- Two worlds hold the same files; their logs may differ. -/
def same_files (a b : world) : Prop := a.target = b.target ∧ a.staging = b.staging

/-- The entries of a list that a selection mask does not select, in their order:
the list filtered by 'not selected'. -/
def unselected (entries : List patch_entry) (selected : List Bool) : List patch_entry :=
  ((entries.zip selected).filter (fun p => !p.2)).map (fun p => p.1)

/-- Mark-for-update as the specification words it: only Original entries take the
selected value, Added entries stay as they are. -/
def set_update_flags_original : List patch_entry → List Bool → List patch_entry
  | [], _ => []
  | e :: rest, [] => e :: rest
  | e :: rest, s :: more =>
    (if e.is_original then { e with mark_for_update := s } else e)
      :: set_update_flags_original rest more

/-! ## Words of the specification about the parser -/

/-- The line begins with the marker: the test `strncmp(line, "diff --git", 10) == 0`
of `patch_parse`. -/
abbrev is_boundary (line : List Byte) : Bool := strncmp_eq line diff_git 10

/-- A list of lines cut immediately before each boundary line other than the
first line. -/
def cut_before_boundaries : List (List Byte) → List (List (List Byte))
  | [] => []
  | [l] => [[l]]
  | l :: m :: rest =>
    if is_boundary m then [l] :: cut_before_boundaries (m :: rest)
    else
      match cut_before_boundaries (m :: rest) with
      | g :: gs => (l :: g) :: gs
      | [] => [[l]]

/-- The reference split of the specification: drop every line before the first
boundary line, then cut the remaining lines immediately before each boundary
line. -/
def reference_split (lines : List (List Byte)) : List (List (List Byte)) :=
  cut_before_boundaries (lines.dropWhile (fun l => !is_boundary l))

/-- A path with one leading `a/` or `b/` removed if present. -/
def strip_leading (path : List Byte) : List Byte :=
  if path.take 2 = bytes "a/" ∨ path.take 2 = bytes "b/" then path.drop 2 else path

/-- A whitespace-separated token as plain text: the bytes from the first byte that
is not whitespace up to the next whitespace. -/
def plain_token (input : List Byte) : List Byte :=
  (input.dropWhile isspace).takeWhile (fun c => !isspace c)

/-- The text after an opening double quote up to the next double quote that no
backslash escapes, with every backslash that is followed by a byte replaced by that
byte. -/
def quoted_text : List Byte → List Byte
  | [] => []
  | c :: cs =>
    if c = 34 then []
    else if c = 92 then
      match cs with
      | d :: ds => d :: quoted_text ds
      | [] => [c]
    else c :: quoted_text cs

/-- What follows a quoted text: the bytes behind the first double quote that no
backslash escapes. -/
def after_quote : List Byte → List Byte
  | [] => []
  | c :: cs =>
    if c = 34 then cs
    else if c = 92 then
      match cs with
      | _ :: ds => after_quote ds
      | [] => []
    else after_quote cs

/-- A path token as the specification words it, whatever its length: behind the
whitespace before it, the text between double quotes with its backslash escapes
resolved when the token opens with a double quote, otherwise the bytes up to the next
whitespace. -/
def token_text (input : List Byte) : List Byte :=
  if (input.dropWhile isspace).head? = some 34
  then quoted_text (input.dropWhile isspace).tail
  else plain_token input

/-- The text behind a token: tokens are separated by whitespace, so the next token is
looked for from the first whitespace behind the token on; for a quoted token that is
the first whitespace behind the closing quote. -/
def token_rest (input : List Byte) : List Byte :=
  if (input.dropWhile isspace).head? = some 34
  then (after_quote (input.dropWhile isspace).tail).dropWhile (fun c => !isspace c)
  else (input.dropWhile isspace).dropWhile (fun c => !isspace c)

/-- The path the claim derives from a boundary line: of the two whitespace-separated
tokens behind the 10 bytes of the marker the second if it is not empty, otherwise the
first, with one leading `a/` or `b/` removed. -/
def claimed_path (line : List Byte) : List Byte :=
  strip_leading
    (if token_text (token_rest (line.drop 10)) ≠ []
     then token_text (token_rest (line.drop 10))
     else token_text (line.drop 10))

/-! ## Restatements of the code used in the proofs -/

/-- The path `section_target` computes, with its two `strncmp` tests written on the
first two bytes of the token: of the two tokens `utils_parse_token` extracts after
the marker the second if it is not empty, otherwise the first, with one leading `a/`
or `b/` removed. It restates the code, not the specification, and serves the proofs
about `section_target`. -/
def derived_path (line : List Byte) : List Byte :=
  strip_leading
    (if (utils_parse_token (utils_parse_token (cstr (line.drop 10)) 512).1 512).2 ≠ []
     then (utils_parse_token (utils_parse_token (cstr (line.drop 10)) 512).1 512).2
     else (utils_parse_token (cstr (line.drop 10)) 512).2)

/-- The section `patch_parse` builds from a group of lines that opens with a boundary
line: the path it computes from that line, and the lines as content. -/
def group_section (g : List (List Byte)) : patch_section :=
  ⟨some (derived_path (g.headD [])), g.flatten⟩

/-- The sections `patch_parse` has still to deliver when a block is open and every
callback call succeeds: the open block is closed by the next boundary line or by the
end of the lines. -/
def open_sections (current : patch_section) : List (List Byte) → List patch_section
  | [] => [current]
  | line :: rest =>
    if is_boundary line then
      current :: open_sections
        (patch_section_append (patch_section_init (section_target line)) line) rest
    else open_sections (patch_section_append current line) rest

/-! ## Sample values -/

/-- An outside world in which no staging step fails, around a given inspector. -/
def Env.reliable (write_diff : List Byte → diff_result) : Env :=
  ⟨4096, fun _ => true, true, write_diff, fun _ data => data.length, true, true⟩

/-- An Original entry as `collect_patch_entries` makes it, with the update flag set
as given. -/
def original_entry (path data : List Byte) (mark_for_update : Bool) : patch_entry :=
  ⟨some ⟨some path, data⟩, path, false, mark_for_update, true⟩

/-- An Added entry as `handle_add_files` makes it. -/
def added_entry (path : List Byte) : patch_entry := ⟨none, path, true, false, false⟩

/-- A sample inspector: `new.c` has changes, reading `bad.c` fails after some bytes
were written, any other path has no changes. -/
def sample_inspector (path : List Byte) : diff_result :=
  if path = bytes "new.c" then ⟨0, true, bytes "diff --git a/new.c b/new.c\n+n\n"⟩
  else if path = bytes "bad.c" then ⟨-1, false, bytes "diff --git a/bad.c"⟩
  else ⟨GIT_ENOTFOUND, false, []⟩

/-- A start of the session in which nothing fails. -/
def Startup.fine : Startup := ⟨true, false, 0, 0, 0⟩

/-- A path of 509 bytes `x`. -/
def long_name : List Byte := List.replicate 509 120

/-- A boundary line with the quoted tokens `"a/x...x y"` and `"b/x...x y"` for the path
of 509 bytes `x`, a blank and a `y`: each token has 513 bytes between its quotes. -/
def long_quoted_line : List Byte :=
  bytes "diff --git \"a/" ++ long_name ++ bytes " y\" \"b/" ++ long_name ++ bytes " y\"\n"

/-- A path of 600 bytes `x`. -/
def longer_name : List Byte := List.replicate 600 120

/-- A boundary line with the bare tokens `a/x...x` and `b/x...x` for the path of 600
bytes `x`. -/
def long_bare_line : List Byte :=
  bytes "diff --git a/" ++ longer_name ++ bytes " b/" ++ longer_name ++ bytes "\n"

/-! ## Properties of the parser -/

theorem getlines_flatten (s : List Byte) : (getlines s).flatten = s := by
  induction s with
  | nil => rfl
  | cons c cs ih =>
    unfold getlines
    split
    · next h => subst h; simp [ih]
    · cases hg : getlines cs with
      | nil => rw [hg] at ih; simp at ih; simp [← ih]
      | cons l ls => rw [hg] at ih; simp at ih ⊢; exact ih

theorem getlines_of_read_line (c : Byte) (cs : List Byte) :
    getlines (c :: cs) = (read_line (c :: cs)).1 :: getlines (read_line (c :: cs)).2 := by
  induction cs generalizing c with
  | nil =>
    by_cases h : c = 10
    · simp [getlines, read_line, h]
    · simp [getlines, read_line, h]
  | cons d ds ih =>
    by_cases h : c = 10
    · simp [getlines, read_line, h]
    · rw [getlines, if_neg h, ih d]
      simp [read_line, h]

/-- The lines of `getlines` are the results of calling `getline` again and again
until it gives `-1`. -/
theorem getlines_eq_getline (input : FILE) :
    getlines input.content =
      match getline input with
      | none => []
      | some r => r.1 :: getlines r.2.content := by
  cases hc : input.content with
  | nil => simp [getline, hc, getlines]
  | cons c cs => simp [getline, hc, getlines_of_read_line]

theorem delivered_bytes_append {σ : Type} (xs ys : List (patch_section × σ)) :
    delivered_bytes (xs ++ ys) = delivered_bytes xs ++ delivered_bytes ys := by
  simp [delivered_bytes]

theorem loop_traced {σ : Type} (cb : patch_section → σ → Bool × σ) :
    ∀ (lines : List (List Byte)) (current : patch_section) (u : σ)
      (log : List (patch_section × σ)),
      current.path.isSome = true →
      (∀ c ∈ (patch_parse_loop (traced cb) lines current (u, log)).2.2.2,
        (cb c.1 c.2).1 = true) →
      (patch_parse_loop (traced cb) lines current (u, log)).1 = true ∧
      (patch_parse_loop (traced cb) lines current (u, log)).2.1.path.isSome = true ∧
      delivered_bytes (patch_parse_loop (traced cb) lines current (u, log)).2.2.2
          ++ (patch_parse_loop (traced cb) lines current (u, log)).2.1.data
        = delivered_bytes log ++ current.data ++ lines.flatten := by
  intro lines
  induction lines with
  | nil => intro current u log h _; simp [patch_parse_loop, h]
  | cons line rest ih =>
    intro current u log h hcalls
    by_cases hb : strncmp_eq line diff_git 10 = true
    · by_cases hc : (traced cb current (u, log)).1 = true
      · have heq : patch_parse_loop (traced cb) (line :: rest) current (u, log)
            = patch_parse_loop (traced cb) rest
                (patch_section_append (patch_section_init (section_target line)) line)
                ((cb current u).2, log ++ [(current, u)]) := by
          rw [patch_parse_loop, if_pos hb, if_pos h, if_pos hc]
          rfl
        rw [heq] at hcalls ⊢
        have := ih (patch_section_append (patch_section_init (section_target line)) line)
          (cb current u).2 (log ++ [(current, u)]) rfl hcalls
        refine ⟨this.1, this.2.1, ?_⟩
        rw [this.2.2, delivered_bytes_append]
        simp [delivered_bytes, patch_section_append, patch_section_init, utils_append_bytes]
      · exfalso
        have heq : patch_parse_loop (traced cb) (line :: rest) current (u, log)
            = (false, current, ((cb current u).2, log ++ [(current, u)])) := by
          rw [patch_parse_loop, if_pos hb, if_pos h, if_neg hc]
          rfl
        rw [heq] at hcalls
        exact hc (hcalls (current, u) (by simp))
    · have heq : patch_parse_loop (traced cb) (line :: rest) current (u, log)
          = patch_parse_loop (traced cb) rest (patch_section_append current line) (u, log) := by
        rw [patch_parse_loop, if_neg hb, if_pos h]
      rw [heq] at hcalls ⊢
      have := ih (patch_section_append current line) u log h hcalls
      refine ⟨this.1, this.2.1, ?_⟩
      rw [this.2.2]
      simp [patch_section_append, utils_append_bytes]

/-- When every callback call made succeeds, a stream whose first line is a boundary
is parsed with success into sections whose contents add up to the bytes read. -/
theorem patch_parse_traced_flatten {σ : Type} (cb : patch_section → σ → Bool × σ)
    (input : FILE) (userdata : σ)
    (hfirst : ∀ l, (getlines input.content).head? = some l →
      strncmp_eq l diff_git 10 = true)
    (hcalls : ∀ c ∈ (patch_parse input (traced cb) (userdata, [])).2.2,
      (cb c.1 c.2).1 = true) :
    (patch_parse input (traced cb) (userdata, [])).1 = true ∧
    delivered_bytes (patch_parse input (traced cb) (userdata, [])).2.2 = input.content := by
  have hflat := getlines_flatten input.content
  cases hl : getlines input.content with
  | nil =>
    rw [hl] at hflat
    simp [patch_parse, hl, patch_parse_loop, patch_section.zero, delivered_bytes, ← hflat]
  | cons line rest =>
    rw [hl] at hflat hfirst
    have hb : strncmp_eq line diff_git 10 = true := hfirst line rfl
    have hstep : patch_parse_loop (traced cb) (line :: rest) patch_section.zero (userdata, [])
        = patch_parse_loop (traced cb) rest
            (patch_section_append (patch_section_init (section_target line)) line)
            (userdata, []) := by
      rw [patch_parse_loop, if_pos hb]
      simp [patch_section.zero]
    have hparse : patch_parse input (traced cb) (userdata, [])
        = if (patch_parse_loop (traced cb) rest
                (patch_section_append (patch_section_init (section_target line)) line)
                (userdata, [])).1 &&
              (patch_parse_loop (traced cb) rest
                (patch_section_append (patch_section_init (section_target line)) line)
                (userdata, [])).2.1.path.isSome
          then traced cb
            (patch_parse_loop (traced cb) rest
                (patch_section_append (patch_section_init (section_target line)) line)
                (userdata, [])).2.1
            (patch_parse_loop (traced cb) rest
                (patch_section_append (patch_section_init (section_target line)) line)
                (userdata, [])).2.2
          else ((patch_parse_loop (traced cb) rest
                (patch_section_append (patch_section_init (section_target line)) line)
                (userdata, [])).1,
            (patch_parse_loop (traced cb) rest
                (patch_section_append (patch_section_init (section_target line)) line)
                (userdata, [])).2.2) := by
      unfold patch_parse
      rw [hl, hstep]
    rw [hparse] at hcalls ⊢
    have hsub : ∀ c ∈ (patch_parse_loop (traced cb) rest
        (patch_section_append (patch_section_init (section_target line)) line)
        (userdata, [])).2.2.2, (cb c.1 c.2).1 = true := by
      intro c hc
      apply hcalls
      split
      · simp [traced, hc]
      · exact hc
    obtain ⟨h1, h2, h3⟩ := loop_traced cb rest
      (patch_section_append (patch_section_init (section_target line)) line) userdata [] rfl hsub
    simp only [h1, h2, Bool.and_self, if_true] at hcalls ⊢
    refine ⟨hcalls ((patch_parse_loop (traced cb) rest
        (patch_section_append (patch_section_init (section_target line)) line)
        (userdata, [])).2.1, (patch_parse_loop (traced cb) rest
        (patch_section_append (patch_section_init (section_target line)) line)
        (userdata, [])).2.2.1) (by simp [traced]), ?_⟩
    simp only [traced, delivered_bytes_append]
    rw [show delivered_bytes [((patch_parse_loop (traced cb) rest
        (patch_section_append (patch_section_init (section_target line)) line)
        (userdata, [])).2.1, (patch_parse_loop (traced cb) rest
        (patch_section_append (patch_section_init (section_target line)) line)
        (userdata, [])).2.2.1)] = (patch_parse_loop (traced cb) rest
        (patch_section_append (patch_section_init (section_target line)) line)
        (userdata, [])).2.1.data from by simp [delivered_bytes]]
    rw [h3, ← hflat]
    simp [delivered_bytes, patch_section_append, patch_section_init, utils_append_bytes]

theorem loop_no_boundary {σ : Type} (cb : patch_section → σ → Bool × σ) :
    ∀ (lines : List (List Byte)) (current : patch_section) (u : σ),
      current.path = none →
      (∀ l ∈ lines, strncmp_eq l diff_git 10 = false) →
      patch_parse_loop cb lines current u = (true, current, u) := by
  intro lines
  induction lines with
  | nil => intro current u _ _; rfl
  | cons line rest ih =>
    intro current u hp h
    have hb : strncmp_eq line diff_git 10 = false := h line (List.mem_cons_self _ _)
    rw [patch_parse_loop]
    simp only [hb, hp, Option.isSome_none, Bool.false_eq_true, if_false]
    exact ih current u hp (fun l hl => h l (List.mem_cons_of_mem _ hl))

theorem patch_parse_without_boundary {σ : Type} (cb : patch_section → σ → Bool × σ)
    (input : FILE) (userdata : σ)
    (h : ∀ l ∈ getlines input.content, strncmp_eq l diff_git 10 = false) :
    patch_parse input cb userdata = (true, userdata) := by
  unfold patch_parse
  rw [loop_no_boundary cb _ patch_section.zero userdata rfl h]
  simp [patch_section.zero]

theorem loop_succeeds {σ : Type} (cb : patch_section → σ → Bool × σ)
    (hcb : ∀ s u, (cb s u).1 = true) :
    ∀ (lines : List (List Byte)) (current : patch_section) (u : σ),
      (patch_parse_loop cb lines current u).1 = true := by
  intro lines
  induction lines with
  | nil => intro current u; rfl
  | cons line rest ih =>
    intro current u
    unfold patch_parse_loop
    split
    · split
      · rw [if_pos (hcb current u)]
        exact ih _ _
      · exact ih _ _
    · split
      · exact ih _ _
      · exact ih _ _

/-- Claim C1: for every stream whose first line begins with `diff --git`, when every
call of the callback made during the parse succeeds, `patch_parse` returns success
and the contents of the sections delivered, concatenated in delivery order, are the
input byte for byte. -/
theorem patch_parse_reproduces_input {σ : Type} (cb : patch_section → σ → Bool × σ)
    (input : FILE) (userdata : σ)
    (hfirst : ∀ l, (getlines input.content).head? = some l →
      strncmp_eq l diff_git 10 = true)
    (hcalls : ∀ c ∈ (patch_parse input (traced cb) (userdata, [])).2.2,
      (cb c.1 c.2).1 = true) :
    (patch_parse input (traced cb) (userdata, [])).1 = true ∧
    delivered_bytes (patch_parse input (traced cb) (userdata, [])).2.2 = input.content :=
  patch_parse_traced_flatten cb input userdata hfirst hcalls

theorem patch_parse_reproduces_input_witness :
    (patch_parse ⟨bytes "diff --git a/f b/f\n+x\ndiff --git a/g b/g\n-y\n", false⟩
        (traced collect_sections_callback) ([], [])).1 = true ∧
    delivered_bytes (patch_parse ⟨bytes "diff --git a/f b/f\n+x\ndiff --git a/g b/g\n-y\n", false⟩
        (traced collect_sections_callback) ([], [])).2.2
      = bytes "diff --git a/f b/f\n+x\ndiff --git a/g b/g\n-y\n" :=
  patch_parse_reproduces_input collect_sections_callback
    ⟨bytes "diff --git a/f b/f\n+x\ndiff --git a/g b/g\n-y\n", false⟩ []
    (by
      intro l h
      have h2 : (getlines (bytes "diff --git a/f b/f\n+x\ndiff --git a/g b/g\n-y\n")).head?
          = some (bytes "diff --git a/f b/f\n") := by decide
      rw [h2] at h
      cases h
      decide)
    (fun _ _ => rfl)

/-- Claim C10: on a stream with no line that begins with `diff --git`, the empty
stream included, `patch_parse` returns success and leaves the callback's state as it
was, whatever the callback is; the record of callback calls stays empty. -/
theorem patch_parse_no_boundary {σ : Type} (cb : patch_section → σ → Bool × σ)
    (input : FILE) (userdata : σ)
    (h : ∀ l ∈ getlines input.content, strncmp_eq l diff_git 10 = false) :
    patch_parse input cb userdata = (true, userdata) ∧
    patch_parse input (traced cb) (userdata, []) = (true, (userdata, [])) :=
  ⟨patch_parse_without_boundary cb input userdata h,
   patch_parse_without_boundary (traced cb) input (userdata, []) h⟩

theorem patch_parse_no_boundary_witness :
    patch_parse ⟨bytes "index 1..2\n--- a/f\n+++ b/f\n", false⟩
        (fun (_ : patch_section) (u : Nat) => (false, u + 1)) 0 = (true, 0) ∧
    patch_parse ⟨bytes "index 1..2\n--- a/f\n+++ b/f\n", false⟩
        (traced (fun (_ : patch_section) (u : Nat) => (false, u + 1))) (0, [])
      = (true, (0, [])) :=
  patch_parse_no_boundary (fun (_ : patch_section) (u : Nat) => (false, u + 1))
    ⟨bytes "index 1..2\n--- a/f\n+++ b/f\n", false⟩ 0 (by decide)

/-- Claim C9 as stated fails: on a stream whose reading ends with a read error after
one block, `patch_parse` delivers that block as the final section and returns
success. -/
theorem patch_parse_read_error_delivers :
    (⟨bytes "diff --git a/f b/f\n+x\n", true⟩ : FILE).read_error = true ∧
    patch_parse ⟨bytes "diff --git a/f b/f\n+x\n", true⟩ collect_sections_callback []
      = (true, [⟨some (bytes "f"), bytes "diff --git a/f b/f\n+x\n"⟩]) := by
  decide

/-! ## Properties of the entry loop of the finalizer -/

theorem target_kept_refl (w : world) : target_kept w w := ⟨rfl, [], by simp, by simp⟩

theorem target_kept_trans {a b c : world} (h1 : target_kept a b) (h2 : target_kept b c) :
    target_kept a c := by
  obtain ⟨t1, e1, l1, n1⟩ := h1
  obtain ⟨t2, e2, l2, n2⟩ := h2
  refine ⟨t2.trans t1, e1 ++ e2, ?_, ?_⟩
  · rw [l2, l1, List.append_assoc]
  · simp [n1, n2]

theorem target_kept_call (w : world) (e : event) (h : e ≠ event.rename) :
    target_kept w (w.call e) :=
  ⟨rfl, [e], rfl, by simpa using fun h2 => h h2.symm⟩

theorem target_kept_stage (w : world) (d : List Byte) : target_kept w (w.stage d) :=
  ⟨rfl, [], by simp [world.stage], by simp⟩

theorem target_kept_unlink (w : world) : target_kept w w.unlink :=
  ⟨rfl, [event.unlink], rfl, by simp⟩

theorem target_kept_abort (w : world) : target_kept w (w.call event.fclose).unlink :=
  target_kept_trans (target_kept_call w _ (by simp)) (target_kept_unlink _)

theorem write_entries_target_kept (env : Env) :
    ∀ (es : List patch_entry) (n k : Nat) (w : world),
      target_kept w (write_entries env es n k w).world := by
  intro es
  induction es with
  | nil => intro n k w; exact target_kept_refl w
  | cons e rest ih =>
    intro n k w
    have hd : target_kept w ((w.call (event.write_diff e.path)).stage
        (env.write_diff e.path).output) :=
      target_kept_trans (target_kept_call w _ (by simp)) (target_kept_stage _ _)
    unfold write_entries
    split
    · simp only []
      split
      · exact target_kept_trans hd (target_kept_abort _)
      · split
        · exact target_kept_trans hd (ih _ _ _)
        · split
          · exact target_kept_trans hd (target_kept_abort _)
          · split
            · exact target_kept_trans hd (ih _ _ _)
            · exact target_kept_trans hd (ih _ _ _)
    · split
      · next s hs =>
        split
        · simp only []
          have hw : target_kept w ((w.call (event.fwrite s.data)).stage
              (s.data.take (min (env.fwrite (w.staging.getD []) s.data) s.data.length))) :=
            target_kept_trans (target_kept_call w _ (by simp)) (target_kept_stage _ _)
          split
          · exact target_kept_trans hw (target_kept_abort _)
          · exact target_kept_trans hw (ih _ _ _)
        · exact ih _ _ _
      · exact ih _ _ _

theorem write_entries_counters (env : Env) :
    ∀ (es : List patch_entry) (n k : Nat) (w : world) (n1 k1 : Nat) (w1 : world),
      write_entries env es n k w = loop_result.finished n1 k1 w1 →
      n1 = n + es.countP (counts_written env) ∧ k1 = k + es.countP (counts_skipped env) := by
  intro es
  induction es with
  | nil =>
    intro n k w n1 k1 w1 h
    simp only [write_entries, loop_result.finished.injEq] at h
    simp [h.1, h.2.1]
  | cons e rest ih =>
    intro n k w n1 k1 w1 h
    unfold write_entries at h
    split at h
    · next hreg =>
      have hreg2 : e.is_original = false ∨ e.mark_for_update = true := by
        simpa using hreg
      simp only [] at h
      split at h
      · exact absurd h (by simp)
      · split at h
        · next hch =>
          have := ih _ _ _ _ _ _ h
          simp [List.countP_cons, counts_written, counts_skipped, hreg2, hch, this.1, this.2]
          omega
        · next hch =>
          split at h
          · exact absurd h (by simp)
          · next hor =>
            have ho : e.is_original = true := by simpa using hor
            split at h
            · next hm =>
              have := ih _ _ _ _ _ _ h
              simp [List.countP_cons, counts_written, counts_skipped, hch, ho, hm, this.1,
                this.2]
              omega
            · next hm =>
              simp [ho, hm] at hreg
    · next hreg =>
      have hreg2 : ¬ (e.is_original = false ∨ e.mark_for_update = true) := by
        simpa using hreg
      have hsk : counts_skipped env e = false := by
        simp only [not_or] at hreg2
        simp [counts_skipped, hreg2.2]
      split at h
      · next s hs =>
        split at h
        · next hlen =>
          simp only [] at h
          split at h
          · exact absurd h (by simp)
          · have := ih _ _ _ _ _ _ h
            have hne : s.data ≠ [] := by
              intro h0; simp [h0] at hlen
            simp [List.countP_cons, counts_written, hreg2, stored_bytes, hs, hne, hsk, this.1,
              this.2]
            omega
        · next hlen =>
          have := ih _ _ _ _ _ _ h
          have he : s.data = [] := by
            cases hd : s.data with
            | nil => rfl
            | cons a b => simp [hd] at hlen
          simp [List.countP_cons, counts_written, hreg2, stored_bytes, hs, he, hsk, this.1,
            this.2]
      · next hs =>
        have := ih _ _ _ _ _ _ h
        simp [List.countP_cons, counts_written, hreg2, stored_bytes, hs, hsk, this.1, this.2]

theorem write_entries_staged (env : Env) :
    ∀ (es : List patch_entry) (n k : Nat) (w : world) (st : List Byte) (n1 k1 : Nat)
      (w1 : world),
      (∀ e ∈ es, (e.is_original = false ∨ e.mark_for_update = true) →
        (env.write_diff e.path).three_way) →
      w.staging = some st →
      write_entries env es n k w = loop_result.finished n1 k1 w1 →
      w1.staging = some (st ++ (es.map (contribution env)).flatten) := by
  intro es
  induction es with
  | nil =>
    intro n k w st n1 k1 w1 _ hst h
    simp only [write_entries, loop_result.finished.injEq] at h
    simp [← h.2.2, hst]
  | cons e rest ih =>
    intro n k w st n1 k1 w1 h3 hst h
    have h3r : ∀ x ∈ rest, (x.is_original = false ∨ x.mark_for_update = true) →
        (env.write_diff x.path).three_way :=
      fun x hx => h3 x (List.mem_cons_of_mem _ hx)
    have hstage : ∀ d ev, ((w.call ev).stage d).staging = some (st ++ d) := by
      intro d ev; simp [world.call, world.stage, hst]
    unfold write_entries at h
    split at h
    · next hreg =>
      have hreg2 : e.is_original = false ∨ e.mark_for_update = true := by
        simpa using hreg
      simp only [] at h
      split at h
      · exact absurd h (by simp)
      · next herr =>
        split at h
        · next hch =>
          have := ih _ _ _ _ _ _ _ h3r (hstage _ _) h
          simp [this, contribution, hreg2, hch]
        · next hch =>
          have hout : (env.write_diff e.path).output = [] :=
            h3 e (List.mem_cons_self _ _) hreg2 herr (by simpa using hch)
          split at h
          · exact absurd h (by simp)
          · split at h
            · have := ih _ _ _ _ _ _ _ h3r (hstage _ _) h
              simp [this, contribution, hreg2, hch, hout]
            · have := ih _ _ _ _ _ _ _ h3r (hstage _ _) h
              simp [this, contribution, hreg2, hch, hout]
    · next hreg =>
      have hreg2 : ¬ (e.is_original = false ∨ e.mark_for_update = true) := by
        simpa using hreg
      split at h
      · next s hs =>
        split at h
        · simp only [] at h
          split at h
          · exact absurd h (by simp)
          · next hfull =>
            have hfull2 : min (env.fwrite (w.staging.getD []) s.data) s.data.length
                = s.data.length := by
              simpa using hfull
            have := ih _ _ _ _ _ _ _ h3r (hstage _ _) h
            simp [this, contribution, hreg2, stored_bytes, hs, hfull2]
        · next hlen =>
          have he : s.data = [] := by
            cases hd : s.data with
            | nil => rfl
            | cons a b => simp [hd] at hlen
          have := ih _ _ _ _ _ _ _ h3r hst h
          simp [this, contribution, hreg2, stored_bytes, hs, he]
      · next hs =>
        have := ih _ _ _ _ _ _ _ h3r hst h
        simp [this, contribution, hreg2, stored_bytes, hs]

theorem write_entries_finishes (env : Env)
    (hfw : ∀ staged data, data.length ≤ env.fwrite staged data) :
    ∀ (es : List patch_entry) (n k : Nat) (w : world),
      (∀ e ∈ es, ¬ fatal env e) →
      ∃ n1 k1 w1, write_entries env es n k w = loop_result.finished n1 k1 w1 := by
  intro es
  induction es with
  | nil => intro n k w _; exact ⟨n, k, w, rfl⟩
  | cons e rest ih =>
    intro n k w hnf
    have hrest : ∀ x ∈ rest, ¬ fatal env x := fun x hx => hnf x (List.mem_cons_of_mem _ hx)
    have he : ¬ fatal env e := hnf e (List.mem_cons_self _ _)
    unfold write_entries
    split
    · next hreg =>
      have hreg2 : e.is_original = false ∨ e.mark_for_update = true := by
        simpa using hreg
      simp only []
      split
      · next herr => exact absurd ⟨hreg2, Or.inl herr⟩ he
      · split
        · exact ih _ _ _ hrest
        · next hch =>
          split
          · next hadd =>
            exact absurd ⟨hreg2, Or.inr ⟨by simpa using hch, by simpa using hadd⟩⟩ he
          · split
            · exact ih _ _ _ hrest
            · exact ih _ _ _ hrest
    · split
      · next s hs =>
        split
        · simp only []
          split
          · next hshort =>
            exfalso
            apply hshort
            exact Nat.min_eq_right (hfw _ _)
          · exact ih _ _ _ hrest
        · exact ih _ _ _ hrest
      · exact ih _ _ _ hrest

theorem write_entries_added_unchanged (env : Env) :
    ∀ (es : List patch_entry) (n k : Nat) (w : world),
      (∃ e ∈ es, e.is_original = false ∧ (env.write_diff e.path).has_changes = false) →
      ∃ msg w1, write_entries env es n k w = loop_result.failed msg w1 := by
  intro es
  induction es with
  | nil => intro n k w h; obtain ⟨e, he, _⟩ := h; simp at he
  | cons e rest ih =>
    intro n k w h
    have hrest : (∃ x ∈ rest, x.is_original = false ∧
        (env.write_diff x.path).has_changes = false) ∨
        (e.is_original = false ∧ (env.write_diff e.path).has_changes = false) := by
      obtain ⟨x, hx, hp⟩ := h
      rcases List.mem_cons.mp hx with rfl | hx
      · exact Or.inr hp
      · exact Or.inl ⟨x, hx, hp⟩
    unfold write_entries
    split
    · simp only []
      split
      · exact ⟨_, _, rfl⟩
      · split
        · next hch =>
          rcases hrest with hr | hr
          · exact ih _ _ _ hr
          · simp [hr.2] at hch
        · split
          · exact ⟨_, _, rfl⟩
          · next hadd =>
            rcases hrest with hr | hr
            · split
              · exact ih _ _ _ hr
              · exact ih _ _ _ hr
            · simp [hr.1] at hadd
    · next hreg =>
      rcases hrest with hr | hr
      · split
        · split
          · simp only []
            split
            · exact ⟨_, _, rfl⟩
            · exact ih _ _ _ hr
          · exact ih _ _ _ hr
        · exact ih _ _ _ hr
      · simp [hr.1] at hreg

/-! ## Properties of the finalizer -/

theorem write_final_patch_success_inv (env : Env) (patch_path : List Byte)
    (entries : List patch_entry) (w : world)
    (hok : (write_final_patch env patch_path entries w).rc = 0) :
    ∃ template n k w3,
      write_entries env entries 0 0
        ({ w.call (event.mkstemp template) with staging := some [] }.call event.fdopen)
        = loop_result.finished n k w3 ∧
      n ≠ 0 ∧
      write_final_patch env patch_path entries w =
        ⟨0, if k > 0 then ui_message.skipped_updates k else ui_message.updated,
          (((w3.call event.fflush).call event.fclose).call event.rename).renamed⟩ := by
  unfold write_final_patch at hok ⊢
  split at hok
  · simp at hok
  · next hlen =>
    split at hok
    · simp at hok
    · next template ht =>
      simp only [] at hok ⊢
      split at hok
      · simp at hok
      · next hmk =>
        split at hok
        · simp at hok
        · next hfd =>
          split at hok
          · simp at hok
          · next n k w3 hloop =>
            split at hok
            · simp at hok
            · next hfc =>
              split at hok
              · simp at hok
              · next hn =>
                split at hok
                · simp at hok
                · next hrn =>
                  refine ⟨template, n, k, w3, hloop, hn, ?_⟩
                  simp only [hlen, ht, hmk, hfd, hloop, hfc, hn, hrn, if_false]
                  simp

theorem target_kept_opened (w : world) (template : List Byte) :
    target_kept w
      ({ w.call (event.mkstemp template) with staging := some [] }.call event.fdopen) :=
  ⟨rfl, [event.mkstemp template, event.fdopen], by simp [world.call], by simp⟩

theorem target_kept_closed (w : world) :
    target_kept w ((w.call event.fflush).call event.fclose) :=
  target_kept_trans (target_kept_call w _ (by simp)) (target_kept_call _ _ (by simp))

/-- Every run of `write_final_patch` has one of three shapes: it fails without a call
of `rename`, it fails because `rename` fails, or it succeeds by a `rename` that is
its last call. -/
theorem write_final_patch_cases (env : Env) (patch_path : List Byte)
    (entries : List patch_entry) (w : world) :
    ((write_final_patch env patch_path entries w).rc = -1 ∧
      target_kept w (write_final_patch env patch_path entries w).after) ∨
    ((write_final_patch env patch_path entries w).rc = -1 ∧
      ∃ w4, target_kept w w4 ∧
        (write_final_patch env patch_path entries w).after
          = (w4.call event.rename).unlink) ∨
    ((write_final_patch env patch_path entries w).rc = 0 ∧
      ∃ w4, target_kept w w4 ∧
        (write_final_patch env patch_path entries w).after
          = (w4.call event.rename).renamed) := by
  unfold write_final_patch
  split
  · exact Or.inl ⟨rfl, target_kept_refl w⟩
  · split
    · exact Or.inl ⟨rfl, target_kept_refl w⟩
    · next template ht =>
      simp only []
      split
      · exact Or.inl ⟨rfl, target_kept_call w _ (by simp)⟩
      · split
        · refine Or.inl ⟨rfl, ?_⟩
          exact target_kept_trans (target_kept_opened w template)
            (target_kept_trans (target_kept_call _ _ (by simp)) (target_kept_unlink _))
        · have hloop := write_entries_target_kept env entries 0 0
            ({ w.call (event.mkstemp template) with staging := some [] }.call event.fdopen)
          split
          · next msg w3 hl =>
            rw [hl] at hloop
            exact Or.inl ⟨rfl, target_kept_trans (target_kept_opened w template) hloop⟩
          · next n k w3 hl =>
            rw [hl] at hloop
            have h4 : target_kept w ((w3.call event.fflush).call event.fclose) :=
              target_kept_trans (target_kept_opened w template)
                (target_kept_trans hloop (target_kept_closed w3))
            split
            · exact Or.inl ⟨rfl, target_kept_trans h4 (target_kept_unlink _)⟩
            · split
              · exact Or.inl ⟨rfl, target_kept_trans h4 (target_kept_unlink _)⟩
              · split
                · exact Or.inr (Or.inl ⟨rfl, _, h4, rfl⟩)
                · exact Or.inr (Or.inr ⟨rfl, _, h4, rfl⟩)

theorem write_final_patch_of_finished (env : Env) (patch_path : List Byte)
    (entries : List patch_entry) (w : world) (template : List Byte) (n k : Nat) (w3 : world)
    (hne : entries ≠ [])
    (ht : temp_template env.PATH_MAX patch_path = some template)
    (hmk : env.mkstemp template = true) (hfd : env.fdopen = true)
    (hloop : write_entries env entries 0 0
        ({ w.call (event.mkstemp template) with staging := some [] }.call event.fdopen)
        = loop_result.finished n k w3)
    (hfc : env.fclose = true) :
    write_final_patch env patch_path entries w =
      if n = 0 then
        ⟨-1, ui_message.no_content_generated,
          ((w3.call event.fflush).call event.fclose).unlink⟩
      else if env.rename = true then
        ⟨0, if k > 0 then ui_message.skipped_updates k else ui_message.updated,
          (((w3.call event.fflush).call event.fclose).call event.rename).renamed⟩
      else
        ⟨-1, ui_message.replace_failed,
          (((w3.call event.fflush).call event.fclose).call event.rename).unlink⟩ := by
  have hlen : ¬ entries.length = 0 := by
    intro h; exact hne (List.length_eq_zero.mp h)
  unfold write_final_patch
  simp only [hlen, ht, hmk, hfd, hloop, hfc, if_false, Bool.not_true, Bool.false_eq_true]
  by_cases hn : n = 0
  · simp [hn]
  · by_cases hr : env.rename = true
    · simp [hn, hr]
    · simp [hn, hr]

theorem write_entries_nothing_written (env : Env) :
    ∀ (es : List patch_entry) (n k : Nat) (w : world),
      (∀ e ∈ es, e.is_original = true ∧
        ((e.mark_for_update = true ∧ ¬ (env.write_diff e.path).is_error ∧
            (env.write_diff e.path).has_changes = false) ∨
          (e.mark_for_update = false ∧ stored_bytes e = []))) →
      ∃ k1 w1, write_entries env es n k w = loop_result.finished n k1 w1 := by
  intro es
  induction es with
  | nil => intro n k w _; exact ⟨k, w, rfl⟩
  | cons e rest ih =>
    intro n k w hall
    have hrest := fun x hx => hall x (List.mem_cons_of_mem _ hx)
    obtain ⟨ho, hcase⟩ := hall e (List.mem_cons_self _ _)
    unfold write_entries
    rcases hcase with ⟨hm, hne, hch⟩ | ⟨hm, hst⟩
    · simp only [ho, hm, hch, Bool.not_true, Bool.false_or, if_true, if_false,
        Bool.false_eq_true]
      have hne2 : ¬ ((env.write_diff e.path).rc < 0 ∧
          (env.write_diff e.path).rc ≠ GIT_ENOTFOUND) := hne
      rw [if_neg hne2]
      exact ih _ _ _ hrest
    · simp only [ho, hm, Bool.not_true, Bool.false_or, Bool.false_eq_true, if_false]
      cases hs : e.section_ with
      | none => exact ih _ _ _ hrest
      | some s =>
        have : s.data = [] := by simpa [stored_bytes, hs] using hst
        simp only [this, List.length_nil, gt_iff_lt, Nat.lt_irrefl, if_false]
        exact ih _ _ _ hrest

theorem sample_inspector_three_way (p : List Byte) : (sample_inspector p).three_way := by
  unfold diff_result.three_way sample_inspector diff_result.is_error
  split
  · simp
  · split
    · simp [GIT_ENOTFOUND]
    · simp

theorem reliable_staging_ok (write_diff : List Byte → diff_result) (patch_path template : List Byte)
    (h : temp_template 4096 patch_path = some template) :
    staging_ok (Env.reliable write_diff) patch_path :=
  ⟨⟨template, h, rfl⟩, rfl, fun _ _ => Nat.le_refl _, rfl, rfl⟩

theorem contribution_of_kept (env : Env) (e : patch_entry)
    (h : e.is_original = true ∧ e.mark_for_update = false) :
    contribution env e = stored_bytes e := by
  simp [contribution, h.1, h.2]

theorem counts_written_pos (env : Env) (es : List patch_entry)
    (h : ∃ e ∈ es, counts_written env e = true) : 0 < es.countP (counts_written env) :=
  List.countP_pos_iff.mpr h

/-- When the flush succeeds: for every entry list and every inspector whose answers
are an error, a no-changes result or changed diff bytes, whenever `write_final_patch`
succeeds the target holds the concatenation, in entry order, of the entries'
contributions. -/
theorem write_final_patch_commits_contributions (env : Env) (patch_path : List Byte)
    (entries : List patch_entry) (w : world)
    (h3 : ∀ p, (env.write_diff p).three_way)
    (hok : (write_final_patch env patch_path entries w).rc = 0) :
    (write_final_patch env patch_path entries w).after.target
      = (entries.map (contribution env)).flatten := by
  obtain ⟨template, n, k, w3, hloop, _, heq⟩ :=
    write_final_patch_success_inv env patch_path entries w hok
  have hst := write_entries_staged env entries 0 0 _ [] n k w3
    (fun e _ _ => h3 e.path) (by simp [world.call]) hloop
  rw [heq]
  simp [world.renamed, world.call, hst]

theorem write_final_patch_commits_contributions_witness :
    (write_final_patch (Env.reliable sample_inspector) (bytes "dir/x.patch")
        [original_entry (bytes "a.c") (bytes "diff --git a/a.c b/a.c\n+a\n") false,
         original_entry (bytes "b.c") (bytes "diff --git a/b.c b/b.c\n+b\n") true,
         added_entry (bytes "new.c")]
        ⟨bytes "old", none, []⟩).after.target
      = ([original_entry (bytes "a.c") (bytes "diff --git a/a.c b/a.c\n+a\n") false,
          original_entry (bytes "b.c") (bytes "diff --git a/b.c b/b.c\n+b\n") true,
          added_entry (bytes "new.c")].map
          (contribution (Env.reliable sample_inspector))).flatten :=
  write_final_patch_commits_contributions (Env.reliable sample_inspector) (bytes "dir/x.patch")
    _ ⟨bytes "old", none, []⟩ sample_inspector_three_way (by decide)

/-- Claim C3 as stated fails: the empty set has only Original entries without an
update request, yet `write_final_patch` returns -1 and the target keeps its bytes. -/
theorem write_final_patch_all_original_empty :
    (write_final_patch (Env.reliable sample_inspector) (bytes "dir/x.patch") []
        ⟨bytes "old", none, []⟩).rc = -1 ∧
    (write_final_patch (Env.reliable sample_inspector) (bytes "dir/x.patch") []
        ⟨bytes "old", none, []⟩).after.target = bytes "old" ∧
    (([] : List patch_entry).map stored_bytes).flatten ≠ bytes "old" := by
  decide

/-- Claim C3, amended: if every entry is Original with no update request, at least
one entry has a non-empty stored section and no staging step fails, then
`write_final_patch` succeeds and the target holds the concatenation, in entry order,
of the stored section bytes. -/
theorem write_final_patch_all_original (env : Env) (patch_path : List Byte)
    (entries : List patch_entry) (w : world)
    (hall : ∀ e ∈ entries, e.is_original = true ∧ e.mark_for_update = false)
    (hsome : ∃ e ∈ entries, stored_bytes e ≠ [])
    (hio : staging_ok env patch_path) :
    (write_final_patch env patch_path entries w).rc = 0 ∧
    (write_final_patch env patch_path entries w).after.target
      = (entries.map stored_bytes).flatten := by
  obtain ⟨⟨template, ht, hmk⟩, hfd, hfw, hfc, hrn⟩ := hio
  have hne : entries ≠ [] := by
    obtain ⟨e, he, _⟩ := hsome
    exact List.ne_nil_of_mem he
  have hnf : ∀ e ∈ entries, ¬ fatal env e := by
    intro e he hf
    have := hall e he
    rcases hf.1 with h | h
    · simp [this.1] at h
    · simp [this.2] at h
  obtain ⟨n, k, w3, hloop⟩ := write_entries_finishes env hfw entries 0 0
    ({ w.call (event.mkstemp template) with staging := some [] }.call event.fdopen) hnf
  have hcount := (write_entries_counters env entries 0 0 _ n k w3 hloop).1
  have hpos : 0 < entries.countP (counts_written env) := by
    apply counts_written_pos
    obtain ⟨e, he, hs⟩ := hsome
    refine ⟨e, he, ?_⟩
    have := hall e he
    simp [counts_written, this.1, this.2, hs]
  have hn : n ≠ 0 := by omega
  have hst := write_entries_staged env entries 0 0 _ [] n k w3
    (fun e he hreg => by
      have := hall e he
      rcases hreg with h | h
      · simp [this.1] at h
      · simp [this.2] at h)
    (by simp [world.call]) hloop
  have hmap : entries.map (contribution env) = entries.map stored_bytes :=
    List.map_congr_left (fun e he => contribution_of_kept env e (hall e he))
  rw [write_final_patch_of_finished env patch_path entries w template n k w3 hne ht hmk hfd
    hloop hfc, if_neg hn, if_pos hrn]
  simp [world.renamed, world.call, hst, hmap]

theorem write_final_patch_all_original_witness :
    (write_final_patch (Env.reliable sample_inspector) (bytes "dir/x.patch")
        [original_entry (bytes "a.c") (bytes "diff --git a/a.c b/a.c\n+a\n") false,
         original_entry (bytes "b.c") (bytes "diff --git a/b.c b/b.c\n+b\n") false]
        ⟨bytes "old", none, []⟩).rc = 0 ∧
    (write_final_patch (Env.reliable sample_inspector) (bytes "dir/x.patch")
        [original_entry (bytes "a.c") (bytes "diff --git a/a.c b/a.c\n+a\n") false,
         original_entry (bytes "b.c") (bytes "diff --git a/b.c b/b.c\n+b\n") false]
        ⟨bytes "old", none, []⟩).after.target
      = ([original_entry (bytes "a.c") (bytes "diff --git a/a.c b/a.c\n+a\n") false,
          original_entry (bytes "b.c") (bytes "diff --git a/b.c b/b.c\n+b\n") false].map
          stored_bytes).flatten :=
  write_final_patch_all_original (Env.reliable sample_inspector) (bytes "dir/x.patch")
    _ ⟨bytes "old", none, []⟩ (by decide) (by decide)
    (reliable_staging_ok sample_inspector _ (bytes "dir/.patchutilsXXXXXX") (by decide))

theorem target_of_cases (w : world) (r : final_result)
    (h : (r.rc = -1 ∧ target_kept w r.after) ∨
      (r.rc = -1 ∧ ∃ w4, target_kept w w4 ∧ r.after = (w4.call event.rename).unlink) ∨
      (r.rc = 0 ∧ ∃ w4, target_kept w w4 ∧ r.after = (w4.call event.rename).renamed)) :
    (r.rc = 0 ∨ r.rc = -1) ∧ (r.rc ≠ 0 → r.after.target = w.target) := by
  rcases h with ⟨h1, h2⟩ | ⟨h1, w4, h2, h3⟩ | ⟨h1, _⟩
  · exact ⟨Or.inr h1, fun _ => h2.1⟩
  · refine ⟨Or.inr h1, fun _ => ?_⟩
    rw [h3]
    exact h2.1
  · exact ⟨Or.inl h1, fun hne => absurd h1 hne⟩

/-- Claim C4: when the set holds an Added entry whose diff reports no changes,
`write_final_patch` fails and the target has the bytes it had before the call,
whatever the other entries and the outside world are. -/
theorem write_final_patch_added_without_changes (env : Env) (patch_path : List Byte)
    (entries : List patch_entry) (w : world) (e : patch_entry)
    (he : e ∈ entries) (hadd : e.is_original = false)
    (hno : (env.write_diff e.path).has_changes = false) :
    (write_final_patch env patch_path entries w).rc = -1 ∧
    (write_final_patch env patch_path entries w).after.target = w.target := by
  have hc := target_of_cases w _ (write_final_patch_cases env patch_path entries w)
  have hnot : (write_final_patch env patch_path entries w).rc ≠ 0 := by
    intro hok
    obtain ⟨template, n, k, w3, hloop, _, _⟩ :=
      write_final_patch_success_inv env patch_path entries w hok
    obtain ⟨msg, w1, hfail⟩ := write_entries_added_unchanged env entries 0 0
      ({ w.call (event.mkstemp template) with staging := some [] }.call event.fdopen)
      ⟨e, he, hadd, hno⟩
    rw [hfail] at hloop
    exact absurd hloop (by simp)
  refine ⟨?_, hc.2 hnot⟩
  rcases hc.1 with h | h
  · exact absurd h hnot
  · exact h

theorem write_final_patch_added_without_changes_witness :
    (write_final_patch (Env.reliable sample_inspector) (bytes "dir/x.patch")
        [original_entry (bytes "a.c") (bytes "diff --git a/a.c b/a.c\n+a\n") false,
         added_entry (bytes "same.c"), added_entry (bytes "new.c")]
        ⟨bytes "old", none, []⟩).rc = -1 ∧
    (write_final_patch (Env.reliable sample_inspector) (bytes "dir/x.patch")
        [original_entry (bytes "a.c") (bytes "diff --git a/a.c b/a.c\n+a\n") false,
         added_entry (bytes "same.c"), added_entry (bytes "new.c")]
        ⟨bytes "old", none, []⟩).after.target = bytes "old" :=
  write_final_patch_added_without_changes (Env.reliable sample_inspector)
    (bytes "dir/x.patch") _ ⟨bytes "old", none, []⟩ (added_entry (bytes "same.c"))
    (by decide) rfl (by decide)

/-- Claim C6: whenever `write_final_patch` returns failure, for whatever reason, the
target has the content it had before the call; at most one `rename` is called, and
on success it is the last call of the run. -/
theorem write_final_patch_atomic (env : Env) (patch_path : List Byte)
    (entries : List patch_entry) (w : world) :
    ((write_final_patch env patch_path entries w).rc = 0 ∨
      (write_final_patch env patch_path entries w).rc = -1) ∧
    ((write_final_patch env patch_path entries w).rc ≠ 0 →
      (write_final_patch env patch_path entries w).after.target = w.target) ∧
    ∃ evs, (write_final_patch env patch_path entries w).after.log = w.log ++ evs ∧
      evs.count event.rename ≤ 1 ∧
      ((write_final_patch env patch_path entries w).rc = 0 →
        evs.getLast? = some event.rename ∧
        (write_final_patch env patch_path entries w).after.staging = none) := by
  have hcases := write_final_patch_cases env patch_path entries w
  have hc := target_of_cases w _ hcases
  refine ⟨hc.1, hc.2, ?_⟩
  rcases hcases with ⟨h1, _, evs, hl, hn⟩ | ⟨h1, w4, ⟨_, evs, hl, hn⟩, h3⟩ |
    ⟨h1, w4, ⟨_, evs, hl, hn⟩, h3⟩
  · refine ⟨evs, hl, ?_, fun h0 => ?_⟩
    · rw [List.count_eq_zero_of_not_mem hn]; exact Nat.zero_le _
    · rw [h1] at h0; exact absurd h0 (by decide)
  · refine ⟨evs ++ [event.rename, event.unlink], ?_, ?_, fun h0 => ?_⟩
    · rw [h3]; simp [world.unlink, world.call, hl]
    · simp [List.count_append, List.count_eq_zero_of_not_mem hn]
    · rw [h1] at h0; exact absurd h0 (by decide)
  · refine ⟨evs ++ [event.rename], ?_, ?_, fun _ => ?_⟩
    · rw [h3]; simp [world.renamed, world.call, hl]
    · simp [List.count_append, List.count_eq_zero_of_not_mem hn]
    · rw [h3]; simp [world.renamed]

theorem write_final_patch_atomic_witness :
    (write_final_patch ⟨4096, fun _ => true, true, sample_inspector, fun _ _ => 3, true, true⟩
        (bytes "dir/x.patch")
        [original_entry (bytes "a.c") (bytes "diff --git a/a.c b/a.c\n+a\n") false]
        ⟨bytes "old", none, []⟩).rc ≠ 0 ∧
    (write_final_patch ⟨4096, fun _ => true, true, sample_inspector, fun _ _ => 3, true, true⟩
        (bytes "dir/x.patch")
        [original_entry (bytes "a.c") (bytes "diff --git a/a.c b/a.c\n+a\n") false]
        ⟨bytes "old", none, []⟩).after.target = bytes "old" :=
  ⟨by decide,
   (write_final_patch_atomic ⟨4096, fun _ => true, true, sample_inspector, fun _ _ => 3, true, true⟩
      (bytes "dir/x.patch")
      [original_entry (bytes "a.c") (bytes "diff --git a/a.c b/a.c\n+a\n") false]
      ⟨bytes "old", none, []⟩).2.1 (by decide)⟩

/-- Claim C8: finalizing an empty entry set returns -1 with the message for an
empty set and leaves the outside world as it was: no staging file, no call to the
file system, no call of the inspector. -/
theorem write_final_patch_empty (env : Env) (patch_path : List Byte) (w : world) :
    write_final_patch env patch_path [] w = ⟨-1, ui_message.no_files_selected, w⟩ := by
  simp [write_final_patch]

theorem write_final_patch_target_of_success (env : Env) (patch_path : List Byte)
    (entries : List patch_entry) (w : world)
    (h3 : ∀ e ∈ entries, (e.is_original = false ∨ e.mark_for_update = true) →
      (env.write_diff e.path).three_way)
    (hok : (write_final_patch env patch_path entries w).rc = 0) :
    (write_final_patch env patch_path entries w).after.target
      = (entries.map (contribution env)).flatten := by
  obtain ⟨template, n, k, w3, hloop, _, heq⟩ :=
    write_final_patch_success_inv env patch_path entries w hok
  have hst := write_entries_staged env entries 0 0 _ [] n k w3 h3 (by simp [world.call]) hloop
  rw [heq]
  simp [world.renamed, world.call, hst]

theorem write_final_patch_succeeds (env : Env) (patch_path : List Byte)
    (entries : List patch_entry) (w : world)
    (hio : staging_ok env patch_path)
    (hnf : ∀ e ∈ entries, ¬ fatal env e)
    (hsome : ∃ e ∈ entries, counts_written env e = true) :
    (write_final_patch env patch_path entries w).rc = 0 := by
  obtain ⟨⟨template, ht, hmk⟩, hfd, hfw, hfc, hrn⟩ := hio
  have hne : entries ≠ [] := by
    obtain ⟨e, he, _⟩ := hsome
    exact List.ne_nil_of_mem he
  obtain ⟨n, k, w3, hloop⟩ := write_entries_finishes env hfw entries 0 0
    ({ w.call (event.mkstemp template) with staging := some [] }.call event.fdopen) hnf
  have hcount := (write_entries_counters env entries 0 0 _ n k w3 hloop).1
  have hpos := counts_written_pos env entries hsome
  have hn : n ≠ 0 := by omega
  rw [write_final_patch_of_finished env patch_path entries w template n k w3 hne ht hmk hfd
    hloop hfc, if_neg hn, if_pos hrn]

theorem write_final_patch_success_env (env : Env) (patch_path : List Byte)
    (entries : List patch_entry) (w : world)
    (hok : (write_final_patch env patch_path entries w).rc = 0) :
    entries ≠ [] ∧ env.fdopen = true ∧ env.fclose = true ∧ env.rename = true ∧
    ∃ template, temp_template env.PATH_MAX patch_path = some template ∧
      env.mkstemp template = true ∧
      ∃ n k w3, n ≠ 0 ∧
        write_entries env entries 0 0
          ({ w.call (event.mkstemp template) with staging := some [] }.call event.fdopen)
          = loop_result.finished n k w3 := by
  unfold write_final_patch at hok
  split at hok
  · simp at hok
  · next hlen =>
    split at hok
    · simp at hok
    · next template ht =>
      simp only [] at hok
      split at hok
      · simp at hok
      · next hmk =>
        split at hok
        · simp at hok
        · next hfd =>
          split at hok
          · simp at hok
          · next n k w3 hloop =>
            split at hok
            · simp at hok
            · next hfc =>
              split at hok
              · simp at hok
              · next hn =>
                split at hok
                · simp at hok
                · next hrn =>
                  refine ⟨?_, by simpa using hfd, by simpa using hfc, by simpa using hrn,
                    template, ht, by simpa using hmk, n, k, w3, hn, hloop⟩
                  intro h0
                  exact hlen (by simp [h0])

theorem write_entries_append_failed (env : Env) (ys : List patch_entry) (msg : ui_message)
    (a : world) :
    ∀ (xs : List patch_entry) (n k : Nat) (w : world),
      write_entries env xs n k w = loop_result.failed msg a →
      write_entries env (xs ++ ys) n k w = loop_result.failed msg a := by
  intro xs
  induction xs with
  | nil => intro n k w h; simp [write_entries] at h
  | cons x rest ih =>
    intro n k w h
    rw [List.cons_append]
    unfold write_entries at h ⊢
    split at h
    · next hreg =>
      rw [if_pos hreg]
      simp only [] at h ⊢
      split at h
      · next herr => rw [if_pos herr]; exact h
      · next herr =>
        rw [if_neg herr]
        split at h
        · next hch => rw [if_pos hch]; exact ih _ _ _ h
        · next hch =>
          rw [if_neg hch]
          split at h
          · next hadd => rw [if_pos hadd]; exact h
          · next hadd =>
            rw [if_neg hadd]
            split at h
            · next hm => rw [if_pos hm]; exact ih _ _ _ h
            · next hm => rw [if_neg hm]; exact ih _ _ _ h
    · next hreg =>
      rw [if_neg hreg]
      split at h
      · next s hsec =>
        simp only [] at h ⊢
        split at h
        · next hlen =>
          rw [if_pos hlen]
          split at h
          · next hshort => rw [if_pos hshort]; exact h
          · next hfull => rw [if_neg hfull]; exact ih _ _ _ h
        · next hlen => rw [if_neg hlen]; exact ih _ _ _ h
      · next hsec => exact ih _ _ _ h

theorem write_entries_append_finished (env : Env) (ys : List patch_entry) (n1 k1 : Nat)
    (a : world) :
    ∀ (xs : List patch_entry) (n k : Nat) (w : world),
      write_entries env xs n k w = loop_result.finished n1 k1 a →
      write_entries env (xs ++ ys) n k w = write_entries env ys n1 k1 a := by
  generalize hR : write_entries env ys n1 k1 a = R
  intro xs
  induction xs with
  | nil =>
    intro n k w h
    simp only [write_entries, loop_result.finished.injEq] at h
    rw [List.nil_append, h.1, h.2.1, h.2.2, hR]
  | cons x rest ih =>
    intro n k w h
    rw [List.cons_append]
    unfold write_entries at h ⊢
    split at h
    · next hreg =>
      rw [if_pos hreg]
      simp only [] at h ⊢
      split at h
      · exact absurd h (by simp)
      · next herr =>
        rw [if_neg herr]
        split at h
        · next hch => rw [if_pos hch]; exact ih _ _ _ h
        · next hch =>
          rw [if_neg hch]
          split at h
          · exact absurd h (by simp)
          · next hadd =>
            rw [if_neg hadd]
            split at h
            · next hm => rw [if_pos hm]; exact ih _ _ _ h
            · next hm => rw [if_neg hm]; exact ih _ _ _ h
    · next hreg =>
      rw [if_neg hreg]
      split at h
      · next s hsec =>
        simp only [] at h ⊢
        split at h
        · next hlen =>
          rw [if_pos hlen]
          split at h
          · exact absurd h (by simp)
          · next hfull => rw [if_neg hfull]; exact ih _ _ _ h
        · next hlen => rw [if_neg hlen]; exact ih _ _ _ h
      · next hsec => exact ih _ _ _ h

theorem write_entries_append_inv (env : Env) (xs ys : List patch_entry) (n k : Nat)
    (w : world) (n2 k2 : Nat) (b : world)
    (h : write_entries env (xs ++ ys) n k w = loop_result.finished n2 k2 b) :
    ∃ n1 k1 a, write_entries env xs n k w = loop_result.finished n1 k1 a ∧
      write_entries env ys n1 k1 a = loop_result.finished n2 k2 b := by
  cases hx : write_entries env xs n k w with
  | failed msg a =>
    rw [write_entries_append_failed env ys msg a xs n k w hx] at h
    exact absurd h (by simp)
  | finished n1 k1 a =>
    rw [write_entries_append_finished env ys n1 k1 a xs n k w hx] at h
    exact ⟨n1, k1, a, rfl, h⟩

theorem same_files_step (a b : world) (h : same_files a b) (ev : event) (d : List Byte) :
    same_files ((a.call ev).stage d) ((b.call ev).stage d) := by
  obtain ⟨h1, h2⟩ := h
  exact ⟨h1, by simp [world.call, world.stage, h2]⟩

theorem write_entries_same_files (env : Env) :
    ∀ (es : List patch_entry) (n k k2 : Nat) (a b : world) (n1 k1 : Nat) (a1 : world),
      same_files a b →
      write_entries env es n k a = loop_result.finished n1 k1 a1 →
      ∃ k3 b1, write_entries env es n k2 b = loop_result.finished n1 k3 b1 ∧
        same_files a1 b1 := by
  intro es
  induction es with
  | nil =>
    intro n k k2 a b n1 k1 a1 hs h
    simp only [write_entries, loop_result.finished.injEq] at h
    exact ⟨k2, b, by simp [write_entries, h.1], by rw [← h.2.2]; exact hs⟩
  | cons e rest ih =>
    intro n k k2 a b n1 k1 a1 hs h
    have hst : a.staging = b.staging := hs.2
    unfold write_entries at h ⊢
    split at h
    · next hreg =>
      rw [if_pos hreg]
      simp only [] at h ⊢
      split at h
      · exact absurd h (by simp)
      · next herr =>
        rw [if_neg herr]
        split at h
        · next hch =>
          rw [if_pos hch]
          exact ih _ _ _ _ _ _ _ _ (same_files_step a b hs _ _) h
        · next hch =>
          rw [if_neg hch]
          split at h
          · exact absurd h (by simp)
          · next hadd =>
            rw [if_neg hadd]
            split at h
            · next hm =>
              rw [if_pos hm]
              exact ih _ _ _ _ _ _ _ _ (same_files_step a b hs _ _) h
            · next hm =>
              rw [if_neg hm]
              exact ih _ _ _ _ _ _ _ _ (same_files_step a b hs _ _) h
    · next hreg =>
      rw [if_neg hreg]
      split at h
      · next s hsec =>
        simp only [] at h ⊢
        split at h
        · next hlen =>
          rw [if_pos hlen]
          split at h
          · exact absurd h (by simp)
          · next hfull =>
            rw [← hst, if_neg hfull]
            exact ih _ _ _ _ _ _ _ _ (same_files_step a b hs _ _) h
        · next hlen =>
          rw [if_neg hlen]
          exact ih _ _ _ _ _ _ _ _ hs h
      · next hsec =>
        exact ih _ _ _ _ _ _ _ _ hs h

theorem write_entries_skip (env : Env) (e : patch_entry) (rest : List patch_entry)
    (n k : Nat) (w : world)
    (horig : e.is_original = true) (hmark : e.mark_for_update = true)
    (hno : ¬ (env.write_diff e.path).is_error ∧ (env.write_diff e.path).has_changes = false) :
    write_entries env (e :: rest) n k w =
      write_entries env rest n (k + 1)
        ((w.call (event.write_diff e.path)).stage (env.write_diff e.path).output) := by
  have herr : ¬ ((env.write_diff e.path).rc < 0 ∧
      (env.write_diff e.path).rc ≠ GIT_ENOTFOUND) := hno.1
  rw [write_entries]
  simp only [horig, hmark, hno.2, Bool.not_true, Bool.false_or, if_true, if_false,
    Bool.false_eq_true]
  rw [if_neg herr]

theorem write_final_patch_with_skipped (env : Env) (patch_path : List Byte)
    (before after : List patch_entry) (e : patch_entry) (w : world)
    (horig : e.is_original = true) (hmark : e.mark_for_update = true)
    (hno : ¬ (env.write_diff e.path).is_error ∧ (env.write_diff e.path).has_changes = false)
    (hout : (env.write_diff e.path).output = [])
    (hok : (write_final_patch env patch_path (before ++ after) w).rc = 0) :
    (write_final_patch env patch_path (before ++ e :: after) w).rc = 0 ∧
    (write_final_patch env patch_path (before ++ e :: after) w).after.target
      = (write_final_patch env patch_path (before ++ after) w).after.target := by
  obtain ⟨hne, hfd, hfc, hrn, template, ht, hmk, n, k, w3, hn, hloop⟩ :=
    write_final_patch_success_env env patch_path (before ++ after) w hok
  obtain ⟨n1, k1, a, hb, ha⟩ := write_entries_append_inv env before after 0 0 _ n k w3 hloop
  have hsame : same_files a
      ((a.call (event.write_diff e.path)).stage (env.write_diff e.path).output) := by
    refine ⟨rfl, ?_⟩
    rw [hout]
    cases hs : a.staging <;> simp [world.call, world.stage, hs]
  obtain ⟨k3, b1, hrun, hfiles⟩ := write_entries_same_files env after n1 k1 (k1 + 1) a _ n k w3
    hsame ha
  have hwith : write_entries env (before ++ e :: after) 0 0
      ({ w.call (event.mkstemp template) with staging := some [] }.call event.fdopen)
      = loop_result.finished n k3 b1 := by
    rw [write_entries_append_finished env (e :: after) n1 k1 a before 0 0 _ hb,
      write_entries_skip env e after n1 k1 a horig hmark hno, hrun]
  have hne2 : before ++ e :: after ≠ [] := by simp
  rw [write_final_patch_of_finished env patch_path (before ++ e :: after) w template n k3 b1
      hne2 ht hmk hfd hwith hfc,
    write_final_patch_of_finished env patch_path (before ++ after) w template n k w3
      hne ht hmk hfd hloop hfc]
  simp only [if_neg hn, if_pos hrn]
  refine ⟨trivial, ?_⟩
  simp [world.renamed, world.call, hfiles.2]

/-- Claim C5: an Original entry with an update request whose regenerated diff
reports no changes contributes nothing: when `write_final_patch` succeeds the target
holds the contributions of the other entries only. The entry does not stand in the
way of success: whenever the set without it is finalized with success, so is the set
with it, to the same bytes; and the call succeeds when no staging step fails, no
other entry stops the run and some other entry counts as written. -/
theorem write_final_patch_drops_unchanged (env : Env) (patch_path : List Byte)
    (before after : List patch_entry) (e : patch_entry) (w : world)
    (h3 : ∀ p, (env.write_diff p).three_way)
    (horig : e.is_original = true) (hmark : e.mark_for_update = true)
    (hno : ¬ (env.write_diff e.path).is_error ∧ (env.write_diff e.path).has_changes = false) :
    contribution env e = [] ∧
    ((write_final_patch env patch_path (before ++ e :: after) w).rc = 0 →
      (write_final_patch env patch_path (before ++ e :: after) w).after.target
        = ((before ++ after).map (contribution env)).flatten) ∧
    ((write_final_patch env patch_path (before ++ after) w).rc = 0 →
      (write_final_patch env patch_path (before ++ e :: after) w).rc = 0 ∧
      (write_final_patch env patch_path (before ++ e :: after) w).after.target
        = (write_final_patch env patch_path (before ++ after) w).after.target) ∧
    (staging_ok env patch_path → (∀ x ∈ before ++ after, ¬ fatal env x) →
      (∃ x ∈ before ++ after, counts_written env x = true) →
      (write_final_patch env patch_path (before ++ e :: after) w).rc = 0) := by
  have hc : contribution env e = [] := by
    simp [contribution, hmark, hno.2]
  refine ⟨hc, fun hok => ?_,
    write_final_patch_with_skipped env patch_path before after e w horig hmark hno
      (h3 e.path hno.1 hno.2),
    fun hio hnf hsome => ?_⟩
  · rw [write_final_patch_target_of_success env patch_path _ w (fun x _ _ => h3 x.path) hok]
    simp [hc]
  · apply write_final_patch_succeeds env patch_path _ w hio
    · intro x hx hf
      rcases List.mem_append.mp hx with h | h
      · exact hnf x (List.mem_append.mpr (Or.inl h)) hf
      · rcases List.mem_cons.mp h with rfl | h
        · rcases hf.2 with h1 | h1
          · exact hno.1 h1
          · simp [horig] at h1
        · exact hnf x (List.mem_append.mpr (Or.inr h)) hf
    · obtain ⟨x, hx, hw⟩ := hsome
      refine ⟨x, ?_, hw⟩
      rcases List.mem_append.mp hx with h | h
      · exact List.mem_append.mpr (Or.inl h)
      · exact List.mem_append.mpr (Or.inr (List.mem_cons_of_mem _ h))

theorem write_final_patch_drops_unchanged_witness :
    contribution (Env.reliable sample_inspector)
        (original_entry (bytes "b.c") (bytes "diff --git a/b.c b/b.c\n+b\n") true) = [] ∧
    (write_final_patch (Env.reliable sample_inspector) (bytes "dir/x.patch")
        ([original_entry (bytes "a.c") (bytes "diff --git a/a.c b/a.c\n+a\n") false] ++
          original_entry (bytes "b.c") (bytes "diff --git a/b.c b/b.c\n+b\n") true ::
          [added_entry (bytes "new.c")])
        ⟨bytes "old", none, []⟩).rc = 0 ∧
    (write_final_patch (Env.reliable sample_inspector) (bytes "dir/x.patch")
        ([original_entry (bytes "a.c") (bytes "diff --git a/a.c b/a.c\n+a\n") false] ++
          original_entry (bytes "b.c") (bytes "diff --git a/b.c b/b.c\n+b\n") true ::
          [added_entry (bytes "new.c")])
        ⟨bytes "old", none, []⟩).after.target
      = bytes "diff --git a/a.c b/a.c\n+a\ndiff --git a/new.c b/new.c\n+n\n" :=
  have h := write_final_patch_drops_unchanged (Env.reliable sample_inspector)
    (bytes "dir/x.patch")
    [original_entry (bytes "a.c") (bytes "diff --git a/a.c b/a.c\n+a\n") false]
    [added_entry (bytes "new.c")]
    (original_entry (bytes "b.c") (bytes "diff --git a/b.c b/b.c\n+b\n") true)
    ⟨bytes "old", none, []⟩ sample_inspector_three_way rfl rfl (by decide)
  have hok := h.2.2.2
    (reliable_staging_ok sample_inspector _ (bytes "dir/.patchutilsXXXXXX") (by decide))
    (by
      intro x hx hf
      simp only [List.singleton_append, List.mem_cons, List.mem_singleton, List.not_mem_nil,
        or_false] at hx
      rcases hx with rfl | rfl
      · revert hf; unfold fatal; decide
      · revert hf; unfold fatal; decide)
    ⟨added_entry (bytes "new.c"), by decide, by decide⟩
  ⟨h.1, hok, (h.2.1 hok).trans (by decide)⟩

/-- Claim C7: for a non-empty set whose entries all count as not written (Original
with an update request and a diff without changes, or Original with an empty stored
section), `write_final_patch` fails, the target keeps its content and `rename` is
not called; when the staging file is created, opened and closed without failure the
message is the one for no content generated. -/
theorem write_final_patch_no_content (env : Env) (patch_path : List Byte)
    (entries : List patch_entry) (w : world) (hne : entries ≠ [])
    (hall : ∀ e ∈ entries, e.is_original = true ∧
      ((e.mark_for_update = true ∧ ¬ (env.write_diff e.path).is_error ∧
          (env.write_diff e.path).has_changes = false) ∨
        (e.mark_for_update = false ∧ stored_bytes e = []))) :
    (write_final_patch env patch_path entries w).rc = -1 ∧
    target_kept w (write_final_patch env patch_path entries w).after ∧
    (∀ template, temp_template env.PATH_MAX patch_path = some template →
      env.mkstemp template = true → env.fdopen = true → env.fclose = true →
      (write_final_patch env patch_path entries w).message
        = ui_message.no_content_generated) := by
  have hloop := fun template => write_entries_nothing_written env entries 0 0
    ({ w.call (event.mkstemp template) with staging := some [] }.call event.fdopen) hall
  refine ⟨?_, ?_, ?_⟩
  · rcases write_final_patch_cases env patch_path entries w with h | h | h
    · exact h.1
    · exact h.1
    · exfalso
      obtain ⟨template, n, k, w3, hl, hn, _⟩ :=
        write_final_patch_success_inv env patch_path entries w h.1
      obtain ⟨k1, w1, hl1⟩ := hloop template
      rw [hl1] at hl
      simp only [loop_result.finished.injEq] at hl
      exact hn hl.1.symm
  · unfold write_final_patch
    split
    · exact target_kept_refl w
    · split
      · exact target_kept_refl w
      · next template ht =>
        simp only []
        split
        · exact target_kept_call w _ (by simp)
        · split
          · exact target_kept_trans (target_kept_opened w template)
              (target_kept_trans (target_kept_call _ _ (by simp)) (target_kept_unlink _))
          · obtain ⟨k1, w1, hl1⟩ := hloop template
            have hk := write_entries_target_kept env entries 0 0
              ({ w.call (event.mkstemp template) with staging := some [] }.call event.fdopen)
            rw [hl1] at hk ⊢
            have h4 : target_kept w ((w1.call event.fflush).call event.fclose) :=
              target_kept_trans (target_kept_opened w template)
                (target_kept_trans hk (target_kept_closed w1))
            simp only []
            split
            · exact target_kept_trans h4 (target_kept_unlink _)
            · simp only [if_true]
              exact target_kept_trans h4 (target_kept_unlink _)
  · intro template ht hmk hfd hfc
    obtain ⟨k1, w1, hl1⟩ := hloop template
    rw [write_final_patch_of_finished env patch_path entries w template 0 k1 w1 hne ht hmk hfd
      hl1 hfc]
    simp

theorem write_final_patch_no_content_witness :
    (write_final_patch (Env.reliable sample_inspector) (bytes "dir/x.patch")
        [original_entry (bytes "b.c") (bytes "diff --git a/b.c b/b.c\n+b\n") true,
         original_entry (bytes "e.c") [] false]
        ⟨bytes "old", none, []⟩).rc = -1 ∧
    (write_final_patch (Env.reliable sample_inspector) (bytes "dir/x.patch")
        [original_entry (bytes "b.c") (bytes "diff --git a/b.c b/b.c\n+b\n") true,
         original_entry (bytes "e.c") [] false]
        ⟨bytes "old", none, []⟩).message = ui_message.no_content_generated :=
  have h := write_final_patch_no_content (Env.reliable sample_inspector) (bytes "dir/x.patch")
    [original_entry (bytes "b.c") (bytes "diff --git a/b.c b/b.c\n+b\n") true,
     original_entry (bytes "e.c") [] false]
    ⟨bytes "old", none, []⟩ (by decide) (by unfold diff_result.is_error; decide)
  ⟨h.1, h.2.2 (bytes "dir/.patchutilsXXXXXX") (by decide) rfl rfl rfl⟩

/-! ## Properties of the entry list -/

theorem set_eraseIdx {α : Type} :
    ∀ (l : List α) (j : Nat) (x : α), l[j + 1]? = some x →
      (l.set j x).eraseIdx (j + 1) = l.eraseIdx j := by
  intro l
  induction l with
  | nil => intro j x h; simp at h
  | cons a t ih =>
    intro j x h
    cases j with
    | zero =>
      cases t with
      | nil => simp at h
      | cons b t2 =>
        simp at h
        simp [h]
    | succ j =>
      simp only [List.getElem?_cons_succ] at h
      simp [ih j x h]

theorem shift_down_take {α : Type} :
    ∀ (n : Nat) (items : List α) (i : Nat), 1 ≤ i → i + n = items.length →
      (shift_down items i n).take (items.length - 1) = items.eraseIdx (i - 1) := by
  intro n
  induction n with
  | zero =>
    intro items i h1 hlen
    simp only [shift_down]
    have hi : i = items.length := by omega
    rw [List.eraseIdx_eq_take_drop_succ, hi]
    have : items.length - 1 + 1 = items.length := by omega
    rw [this]
    simp
  | succ n ih =>
    intro items i h1 hlen
    have hlt : i < items.length := by omega
    rw [shift_down, List.getElem?_eq_getElem hlt]
    simp only []
    have hlen2 : (i + 1) + n = (items.set (i - 1) items[i]).length := by
      simp; omega
    have := ih (items.set (i - 1) items[i]) (i + 1) (by omega) hlen2
    simp only [List.length_set, Nat.add_sub_cancel] at this
    rw [this]
    have hx : items[(i - 1) + 1]? = some items[i] := by
      have : i - 1 + 1 = i := by omega
      rw [this, List.getElem?_eq_getElem hlt]
    have h2 := set_eraseIdx items (i - 1) items[i] hx
    have h3 : i - 1 + 1 = i := by omega
    rw [h3] at h2
    exact h2

/-- The shifting loop of `patch_entry_list_remove_at` erases the slot at `index`. -/
theorem patch_entry_list_remove_at_eq (list : List patch_entry) (index : Nat) :
    patch_entry_list_remove_at list index = list.eraseIdx index := by
  unfold patch_entry_list_remove_at
  split
  · next h => rw [List.eraseIdx_of_length_le h]
  · next h =>
    have := shift_down_take (list.length - (index + 1)) list (index + 1) (by omega) (by omega)
    simpa using this

theorem find_none_iff (entries : List patch_entry) (path : List Byte) :
    patch_entry_list_find entries path = none ↔ ∀ e ∈ entries, e.path ≠ path := by
  induction entries with
  | nil => simp [patch_entry_list_find]
  | cons e rest ih =>
    unfold patch_entry_list_find
    by_cases h : e.path = path
    · simp [h]
    · simp [h, ih]

theorem find_some (entries : List patch_entry) (path : List Byte) :
    ∀ i, patch_entry_list_find entries path = some i →
      ∃ e, entries[i]? = some e ∧ e.path = path ∧
        ∀ x ∈ entries.take i, x.path ≠ path := by
  induction entries with
  | nil => intro i h; simp [patch_entry_list_find] at h
  | cons e rest ih =>
    intro i h
    unfold patch_entry_list_find at h
    by_cases hp : e.path = path
    · simp [hp] at h
      subst h
      exact ⟨e, by simp, hp, by simp⟩
    · simp only [hp, if_false, Option.map_eq_some'] at h
      obtain ⟨j, hj, rfl⟩ := h
      obtain ⟨x, hx, hxp, hbefore⟩ := ih j hj
      refine ⟨x, by simpa using hx, hxp, ?_⟩
      intro y hy
      simp only [List.take_succ_cons, List.mem_cons] at hy
      rcases hy with rfl | hy
      · exact hp
      · exact hbefore y hy

theorem add_selected_eq_foldl :
    ∀ (items : List (List Byte × Bool)) (entries : List patch_entry),
      add_selected items entries
        = (items.filter (fun item => item.2)).foldl (fun es item => add_file es item.1)
            entries := by
  intro items
  induction items with
  | nil => intro entries; rfl
  | cons item rest ih =>
    intro entries
    rw [add_selected, ih]
    cases h : item.2 <;> simp [List.filter_cons, h]

/-- Claim C12: the step `handle_add_files` takes for a selected item leaves the set
as it is when some entry already has that path, and otherwise appends one entry with
that path, origin Added, no section and no update request behind the old entries,
which stay as they were; a confirmed dialog takes that step for each selected item
in turn. -/
theorem add_file_spec (entries : List patch_entry) (path : List Byte) :
    ((∃ e ∈ entries, e.path = path) → add_file entries path = entries) ∧
    ((∀ e ∈ entries, e.path ≠ path) →
      add_file entries path = entries ++ [⟨none, path, true, false, false⟩] ∧
      (add_file entries path).take entries.length = entries) ∧
    (∀ (status_list : List gitutils_status_entry) (selected : List Bool),
      (status_list.filter
          (fun e => (patch_entry_list_find entries e.path).isNone)).length ≠ 0 →
      (handle_add_files (Except.ok status_list) (some selected) entries).2
        = ((((status_list.filter
              (fun e => (patch_entry_list_find entries e.path).isNone)).map
              (fun e => e.path)).zip selected).filter (fun item => item.2)).foldl
            (fun es item => add_file es item.1) entries) := by
  refine ⟨fun hex => ?_, fun hno => ?_, fun status_list selected hne => ?_⟩
  · have hsome : patch_entry_list_find entries path ≠ none := by
      intro hnone
      obtain ⟨e, he, hp⟩ := hex
      exact (find_none_iff entries path).mp hnone e he hp
    unfold add_file
    cases hf : patch_entry_list_find entries path with
    | none => exact absurd hf hsome
    | some i => simp
  · have hnone := (find_none_iff entries path).mpr hno
    have : add_file entries path = entries ++ [⟨none, path, true, false, false⟩] := by
      simp [add_file, hnone, patch_entry_list_append]
    exact ⟨this, by rw [this]; simp⟩
  · unfold handle_add_files
    simp only [List.length_map]
    rw [if_neg hne, add_selected_eq_foldl]

theorem add_file_spec_witness :
    add_file [original_entry (bytes "a.c") (bytes "diff --git a/a.c b/a.c\n") false]
        (bytes "a.c")
      = [original_entry (bytes "a.c") (bytes "diff --git a/a.c b/a.c\n") false] ∧
    add_file [original_entry (bytes "a.c") (bytes "diff --git a/a.c b/a.c\n") false]
        (bytes "new.c")
      = [original_entry (bytes "a.c") (bytes "diff --git a/a.c b/a.c\n") false,
         ⟨none, bytes "new.c", true, false, false⟩] :=
  ⟨(add_file_spec [original_entry (bytes "a.c") (bytes "diff --git a/a.c b/a.c\n") false]
      (bytes "a.c")).1 ⟨_, List.mem_singleton.mpr rfl, rfl⟩,
   ((add_file_spec [original_entry (bytes "a.c") (bytes "diff --git a/a.c b/a.c\n") false]
      (bytes "new.c")).2.1 (by decide)).1⟩

/-- Claim C14 as stated fails: in a set with two entries of one path, after the
entry `patch_entry_list_find` locates is removed, the path is still found. -/
theorem find_after_remove_duplicate :
    patch_entry_list_find
        [original_entry (bytes "f") (bytes "diff --git a/f b/f\n+1\n") false,
         original_entry (bytes "f") (bytes "diff --git a/f b/f\n+2\n") false]
        (bytes "f") = some 0 ∧
    patch_entry_list_find
        (patch_entry_list_remove_at
          [original_entry (bytes "f") (bytes "diff --git a/f b/f\n+1\n") false,
           original_entry (bytes "f") (bytes "diff --git a/f b/f\n+2\n") false] 0)
        (bytes "f") = some 0 := by
  decide

/-- Claim C14, amended: in an entry set whose paths are pairwise distinct, after the
entry `patch_entry_list_find` locates for a path is removed the path is not found;
in every entry set, with distinct paths or not, the entries left by
`patch_entry_list_remove_at` are the entries before the index followed by the entries
after it, each unchanged, and an index that is not below the count leaves the set
unchanged. -/
theorem find_after_remove (entries : List patch_entry) :
    (∀ (path : List Byte) (i : Nat), (entries.map (fun e => e.path)).Nodup →
      patch_entry_list_find entries path = some i →
      patch_entry_list_find (patch_entry_list_remove_at entries i) path = none) ∧
    (∀ index, patch_entry_list_remove_at entries index
        = entries.take index ++ entries.drop (index + 1)) ∧
    (∀ index, entries.length ≤ index →
        patch_entry_list_remove_at entries index = entries) := by
  refine ⟨fun path i hdistinct hfind => ?_, fun index => ?_, fun index h => ?_⟩
  · obtain ⟨e, hget, hpath, hbefore⟩ := find_some entries path i hfind
    rw [patch_entry_list_remove_at_eq, find_none_iff, List.eraseIdx_eq_take_drop_succ]
    intro x hx hxp
    rcases List.mem_append.mp hx with h | h
    · exact hbefore x h hxp
    · have hi : i < entries.length := by
        rcases Nat.lt_or_ge i entries.length with h1 | h1
        · exact h1
        · rw [List.getElem?_eq_none h1] at hget; simp at hget
      have hsplit : entries = entries.take i ++ e :: entries.drop (i + 1) := by
        have he : entries[i] = e := by
          rw [List.getElem?_eq_getElem hi] at hget
          exact Option.some.inj hget
        rw [← he]
        simp
      rw [hsplit, List.map_append, List.map_cons] at hdistinct
      have hnd := (List.nodup_append.mp hdistinct).2.1
      rw [List.nodup_cons] at hnd
      apply hnd.1
      rw [hpath, ← hxp]
      exact List.mem_map_of_mem _ h
  · rw [patch_entry_list_remove_at_eq, List.eraseIdx_eq_take_drop_succ]
  · rw [patch_entry_list_remove_at_eq, List.eraseIdx_of_length_le h]

theorem find_after_remove_witness :
    patch_entry_list_find
        (patch_entry_list_remove_at
          [original_entry (bytes "a.c") (bytes "diff --git a/a.c b/a.c\n") false,
           original_entry (bytes "f") (bytes "diff --git a/f b/f\n+1\n") false,
           added_entry (bytes "n.c")] 1)
        (bytes "f") = none ∧
    patch_entry_list_remove_at
        [original_entry (bytes "f") (bytes "diff --git a/f b/f\n+1\n") false,
         original_entry (bytes "f") (bytes "diff --git a/f b/f\n+2\n") false,
         added_entry (bytes "n.c")] 0
      = [original_entry (bytes "f") (bytes "diff --git a/f b/f\n+2\n") false,
         added_entry (bytes "n.c")] :=
  ⟨(find_after_remove
      [original_entry (bytes "a.c") (bytes "diff --git a/a.c b/a.c\n") false,
       original_entry (bytes "f") (bytes "diff --git a/f b/f\n+1\n") false,
       added_entry (bytes "n.c")]).1 (bytes "f") 1 (by decide) (by decide),
   ((find_after_remove
      [original_entry (bytes "f") (bytes "diff --git a/f b/f\n+1\n") false,
       original_entry (bytes "f") (bytes "diff --git a/f b/f\n+2\n") false,
       added_entry (bytes "n.c")]).2.1 0).trans (by decide)⟩

theorem collect_loop_eq :
    ∀ (sections : List patch_section) (entries : List patch_entry),
      collect_loop sections entries = entries ++ sections.map entry_of_section := by
  intro sections
  induction sections with
  | nil => intro entries; simp [collect_loop]
  | cons s rest ih => intro entries; simp [collect_loop, ih]

/-- Claim C16: `collect_patch_entries` on an empty set and n sections returns 0 and
yields n entries; entry i refers to section i, has its path, is Original, does not
own its path and has no update request, so the entries stand in parse order. -/
theorem collect_patch_entries_spec (sections : List patch_section) :
    (collect_patch_entries sections []).1 = 0 ∧
    (collect_patch_entries sections []).2.length = sections.length ∧
    (∀ (i : Nat) (s : patch_section), sections[i]? = some s →
      (collect_patch_entries sections []).2[i]?
        = some (⟨some s, s.path.getD [], false, false, true⟩ : patch_entry)) ∧
    (collect_patch_entries sections []).2.map (fun e => e.section_)
      = sections.map some := by
  have h : (collect_patch_entries sections []).2 = sections.map entry_of_section := by
    simp [collect_patch_entries, collect_loop_eq]
  refine ⟨rfl, by rw [h]; simp, fun i s hs => ?_, ?_⟩
  · rw [h, List.getElem?_map, hs]
    rfl
  · rw [h, List.map_map]
    rfl

theorem collect_patch_entries_spec_witness :
    (collect_patch_entries
        [⟨some (bytes "f"), bytes "diff --git a/f b/f\n+1\n"⟩,
         ⟨some (bytes "g"), bytes "diff --git a/g b/g\n+2\n"⟩] []).2[1]?
      = some (original_entry (bytes "g") (bytes "diff --git a/g b/g\n+2\n") false) :=
  (collect_patch_entries_spec
    [⟨some (bytes "f"), bytes "diff --git a/f b/f\n+1\n"⟩,
     ⟨some (bytes "g"), bytes "diff --git a/g b/g\n+2\n"⟩]).2.2.1 1
    ⟨some (bytes "g"), bytes "diff --git a/g b/g\n+2\n"⟩ rfl

theorem unselected_snoc (entries : List patch_entry) (selected : List Bool)
    (e : patch_entry) (b : Bool) (h : entries.length = selected.length) :
    unselected (entries ++ [e]) (selected ++ [b])
      = unselected entries selected ++ (if b then [] else [e]) := by
  unfold unselected
  rw [List.zip_append h]
  cases b <;> simp

theorem remove_selected_keep (selected : List Bool) (entries : List patch_entry)
    (hlen : selected.length = entries.length) :
    ∀ (k : Nat) (tail : List patch_entry), k ≤ entries.length →
      remove_selected selected k (entries.take k ++ tail)
        = unselected (entries.take k) (selected.take k) ++ tail := by
  intro k
  induction k with
  | zero => intro tail _; simp [remove_selected, unselected]
  | succ k ih =>
    intro tail hk
    have hk1 : k < entries.length := by omega
    have hk2 : k < selected.length := by omega
    have htake : entries.take (k + 1) = entries.take k ++ [entries[k]] := by
      rw [List.take_succ, List.getElem?_eq_getElem hk1]
      rfl
    have hsel : selected.take (k + 1) = selected.take k ++ [selected[k]] := by
      rw [List.take_succ, List.getElem?_eq_getElem hk2]
      rfl
    have hgetD : selected.getD k false = selected[k] := by
      rw [List.getD_eq_getElem?_getD, List.getElem?_eq_getElem hk2]
      rfl
    have hlk : (entries.take k).length = k := by
      rw [List.length_take]; omega
    rw [remove_selected, hgetD, htake, hsel,
      unselected_snoc _ _ _ _ (by simp [List.length_take]; omega)]
    cases hb : selected[k] with
    | true =>
      have herase : patch_entry_list_remove_at (entries.take k ++ [entries[k]] ++ tail) k
          = entries.take k ++ tail := by
        rw [patch_entry_list_remove_at_eq, List.append_assoc,
          List.eraseIdx_append_of_length_le (by omega)]
        simp [hlk]
      simp only [if_true, herase, List.append_nil]
      exact ih tail (by omega)
    | false =>
      simp only [Bool.false_eq_true, if_false, List.append_assoc, List.singleton_append]
      exact ih (entries[k] :: tail) (by omega)

/-- Claim C18: when the dialog of `handle_remove_files` is confirmed with a mask as
long as the entry list, removing the selected indices one at a time from the highest
down leaves the unselected entries, unchanged and in their order: the list filtered
by 'not selected'. -/
theorem handle_remove_files_filter (entries : List patch_entry) (selected : List Bool)
    (hlen : selected.length = entries.length) :
    handle_remove_files (some selected) entries = unselected entries selected ∧
    remove_selected selected entries.length entries = unselected entries selected := by
  have h := remove_selected_keep selected entries hlen entries.length [] (Nat.le_refl _)
  have hs : selected.take entries.length = selected := by
    rw [← hlen]; exact List.take_length _
  simp only [List.take_length, List.append_nil, hs] at h
  refine ⟨?_, h⟩
  unfold handle_remove_files
  split
  · next h0 =>
    have he : entries = [] := List.length_eq_zero.mp h0
    subst he
    simp [unselected]
  · exact h

theorem handle_remove_files_filter_witness :
    handle_remove_files (some [true, false, true, false])
        [original_entry (bytes "a") (bytes "A") false,
         original_entry (bytes "b") (bytes "B") false,
         added_entry (bytes "c"), added_entry (bytes "d")]
      = [original_entry (bytes "b") (bytes "B") false, added_entry (bytes "d")] :=
  (handle_remove_files_filter
    [original_entry (bytes "a") (bytes "A") false,
     original_entry (bytes "b") (bytes "B") false,
     added_entry (bytes "c"), added_entry (bytes "d")]
    [true, false, true, false] rfl).1.trans (by decide)

/-! ## Properties of the editing session -/

theorem set_update_flags_length :
    ∀ (entries : List patch_entry) (selected : List Bool),
      (set_update_flags entries selected).length = entries.length := by
  intro entries
  induction entries with
  | nil => intro selected; rfl
  | cons e rest ih =>
    intro selected
    cases selected with
    | nil => rfl
    | cons s more => simp [set_update_flags, ih]

theorem set_update_flags_get :
    ∀ (entries : List patch_entry) (selected : List Bool) (i : Nat) (e : patch_entry)
      (b : Bool), entries[i]? = some e → selected[i]? = some b →
      (set_update_flags entries selected)[i]? = some { e with mark_for_update := b } := by
  intro entries
  induction entries with
  | nil => intro selected i e b h; simp at h
  | cons x rest ih =>
    intro selected i e b he hb
    cases selected with
    | nil => simp at hb
    | cons s more =>
      cases i with
      | zero =>
        simp at he hb
        subst he; subst hb
        simp [set_update_flags]
      | succ i =>
        simp only [List.getElem?_cons_succ] at he hb
        simp only [set_update_flags, List.getElem?_cons_succ]
        exact ih more i e b he hb

/-- The entry loop of the finalizer does not read the update flag of an Added
entry. -/
theorem write_entries_added_flag (env : Env) (e : patch_entry) (b : Bool)
    (rest1 rest2 : List patch_entry) (hadd : e.is_original = false)
    (hrest : ∀ n k w, write_entries env rest1 n k w = write_entries env rest2 n k w)
    (n k : Nat) (w : world) :
    write_entries env ({ e with mark_for_update := b } :: rest1) n k w
      = write_entries env (e :: rest2) n k w := by
  rw [write_entries, write_entries]
  simp only [hadd, Bool.not_false, Bool.true_or, if_true, hrest]

theorem write_entries_cons_congr (env : Env) (e : patch_entry)
    (rest1 rest2 : List patch_entry)
    (hrest : ∀ n k w, write_entries env rest1 n k w = write_entries env rest2 n k w)
    (n k : Nat) (w : world) :
    write_entries env (e :: rest1) n k w = write_entries env (e :: rest2) n k w := by
  rw [write_entries, write_entries]
  simp only [hrest]

theorem write_entries_flags (env : Env) :
    ∀ (entries : List patch_entry) (selected : List Bool) (n k : Nat) (w : world),
      write_entries env (set_update_flags entries selected) n k w
        = write_entries env (set_update_flags_original entries selected) n k w := by
  intro entries
  induction entries with
  | nil => intro selected n k w; rfl
  | cons e rest ih =>
    intro selected n k w
    cases selected with
    | nil => rfl
    | cons s more =>
      simp only [set_update_flags, set_update_flags_original]
      by_cases ho : e.is_original = true
      · rw [if_pos ho]
        exact write_entries_cons_congr env _ _ _ (ih more) n k w
      · rw [if_neg ho]
        exact write_entries_added_flag env e s _ _ (by simpa using ho) (ih more) n k w

theorem set_update_flags_original_length :
    ∀ (entries : List patch_entry) (selected : List Bool),
      (set_update_flags_original entries selected).length = entries.length := by
  intro entries
  induction entries with
  | nil => intro selected; rfl
  | cons e rest ih =>
    intro selected
    cases selected with
    | nil => rfl
    | cons s more => simp [set_update_flags_original, ih]

theorem write_final_patch_congr (env : Env) (patch_path : List Byte)
    (es1 es2 : List patch_entry) (w : world) (hlen : es1.length = es2.length)
    (h : ∀ n k w, write_entries env es1 n k w = write_entries env es2 n k w) :
    write_final_patch env patch_path es1 w = write_final_patch env patch_path es2 w := by
  unfold write_final_patch
  simp only [hlen, h]

/-- Claim C15 as stated fails: a confirmed selection sets the update flag of an Added
entry, so the entry is not what it was before the operation. -/
theorem handle_update_flags_marks_added :
    (added_entry (bytes "new.c")).is_original = false ∧
    handle_update_flags (some [true]) [added_entry (bytes "new.c")]
      = [{ added_entry (bytes "new.c") with mark_for_update := true }] ∧
    handle_update_flags (some [true]) [added_entry (bytes "new.c")]
      ≠ [added_entry (bytes "new.c")] := by
  decide

/-- Claim C15, amended: a confirmed selection in `handle_update_flags` sets the
update flag of every entry, Original or Added, to the selected value and changes
nothing else (count, order, path, origin, section); a cancelled dialog leaves the set
as it is. On an Added entry the flag is without effect on the finalizer:
`write_final_patch` gives what it gives when only the Original entries take the
flag. -/
theorem handle_update_flags_spec (entries : List patch_entry) (selected : List Bool)
    (hlen : selected.length = entries.length) :
    (handle_update_flags (some selected) entries).length = entries.length ∧
    (∀ (i : Nat) (e : patch_entry) (b : Bool), entries[i]? = some e → selected[i]? = some b →
      (handle_update_flags (some selected) entries)[i]?
        = some { e with mark_for_update := b }) ∧
    handle_update_flags none entries = entries ∧
    (∀ (env : Env) (patch_path : List Byte) (w : world),
      write_final_patch env patch_path (handle_update_flags (some selected) entries) w
        = write_final_patch env patch_path (set_update_flags_original entries selected) w) := by
  have hnone : handle_update_flags none entries = entries := by
    unfold handle_update_flags
    split <;> rfl
  have hsome : handle_update_flags (some selected) entries
      = set_update_flags entries selected := by
    unfold handle_update_flags
    split
    · next h0 =>
      have he : entries = [] := List.length_eq_zero.mp h0
      subst he
      rfl
    · rfl
  refine ⟨?_, ?_, hnone, ?_⟩
  · rw [hsome, set_update_flags_length]
  · intro i e b he hb
    rw [hsome]
    exact set_update_flags_get entries selected i e b he hb
  · intro env patch_path w
    rw [hsome]
    exact write_final_patch_congr env patch_path _ _ w
      (by rw [set_update_flags_length, set_update_flags_original_length])
      (write_entries_flags env entries selected)

theorem handle_update_flags_spec_witness :
    (handle_update_flags (some [true, false])
        [original_entry (bytes "a.c") (bytes "diff --git a/a.c b/a.c\n") false,
         added_entry (bytes "new.c")])[0]?
      = some { original_entry (bytes "a.c") (bytes "diff --git a/a.c b/a.c\n") false with
          mark_for_update := true } :=
  (handle_update_flags_spec
    [original_entry (bytes "a.c") (bytes "diff --git a/a.c b/a.c\n") false,
     added_entry (bytes "new.c")] [true, false] rfl).2.1 0 _ true rfl rfl

theorem menu_loop_cancelled (env : Env) (patch_path : List Byte) :
    ∀ (rounds : List menu_round) (entries : List patch_entry) (w w1 : world),
      menu_loop env patch_path rounds entries w = session_result.cancelled w1 → w1 = w := by
  intro rounds
  induction rounds with
  | nil => intro entries w w1 h; simp [menu_loop] at h
  | cons r rest ih =>
    intro entries w w1 h
    unfold menu_loop at h
    split at h
    · simp only [session_result.cancelled.injEq] at h
      exact h.symm
    · split at h
      · exact ih _ _ _ h
      · split at h
        · exact ih _ _ _ h
        · split at h
          · exact ih _ _ _ h
          · split at h
            · simp at h
            · exact ih _ _ _ h

theorem menu_loop_editing (env : Env) (patch_path : List Byte) :
    ∀ (rounds : List menu_round) (entries : List patch_entry) (w : world)
      (es : List patch_entry) (w1 : world),
      menu_loop env patch_path rounds entries w = session_result.editing es w1 → w1 = w := by
  intro rounds
  induction rounds with
  | nil =>
    intro entries w es w1 h
    simp only [menu_loop, session_result.editing.injEq] at h
    exact h.2.symm
  | cons r rest ih =>
    intro entries w es w1 h
    unfold menu_loop at h
    split at h
    · simp at h
    · split at h
      · exact ih _ _ _ _ h
      · split at h
        · exact ih _ _ _ _ h
        · split at h
          · exact ih _ _ _ _ h
          · split at h
            · simp at h
            · exact ih _ _ _ _ h

theorem menu_loop_then_cancel (env : Env) (patch_path : List Byte) (r : menu_round)
    (more : List menu_round) (hr : r.choice < 0) :
    ∀ (rounds : List menu_round) (entries : List patch_entry) (w : world),
      (∀ x ∈ rounds, 0 ≤ x.choice ∧ x.choice ≠ 3) →
      menu_loop env patch_path (rounds ++ r :: more) entries w
        = session_result.cancelled w := by
  intro rounds
  induction rounds with
  | nil =>
    intro entries w _
    simp [menu_loop, hr]
  | cons x rest ih =>
    intro entries w hx
    have hrest : ∀ y ∈ rest, 0 ≤ y.choice ∧ y.choice ≠ 3 :=
      fun y hy => hx y (List.mem_cons_of_mem _ hy)
    obtain ⟨h0, h3⟩ := hx x (List.mem_cons_self _ _)
    rw [List.cons_append, menu_loop]
    rw [if_neg (by omega)]
    repeat' split
    all_goals exact ih _ _ hrest

/-- Claim C17: a session of `run_update_patch` that ends with the menu being
cancelled leaves the outside world, the target file included, as it was at the
start, and its result is not one of the finalizer; add, remove and mark-for-update
rounds change the entry set only; a cancel after any such rounds ends the session
that way. -/
theorem cancelled_session_keeps_target (env : Env) (s : Startup) (patch_path : List Byte)
    (w : world) :
    (∀ (rounds : List menu_round) (w1 : world),
      run_update_patch env s patch_path rounds w = session_result.cancelled w1 →
      w1 = w ∧ w1.target = w.target) ∧
    (∀ (rounds : List menu_round) (entries es : List patch_entry) (w1 : world),
      menu_loop env patch_path rounds entries w = session_result.editing es w1 → w1 = w) ∧
    (∀ (rounds : List menu_round) (r : menu_round) (more : List menu_round)
      (entries : List patch_entry),
      (∀ x ∈ rounds, 0 ≤ x.choice ∧ x.choice ≠ 3) → r.choice < 0 →
      menu_loop env patch_path (rounds ++ r :: more) entries w
        = session_result.cancelled w) := by
  refine ⟨fun rounds w1 h => ?_, fun rounds entries es w1 h => ?_,
    fun rounds r more entries hx hr => ?_⟩
  · have : w1 = w := by
      unfold run_update_patch at h
      split at h
      · simp at h
      · split at h
        · simp at h
        · split at h
          · simp at h
          · split at h
            · simp at h
            · split at h
              · simp at h
              · exact menu_loop_cancelled env patch_path _ _ _ _ h
    exact ⟨this, by rw [this]⟩
  · exact menu_loop_editing env patch_path rounds entries w es w1 h
  · exact menu_loop_then_cancel env patch_path r more hr rounds entries w hx

theorem cancelled_session_keeps_target_witness :
    run_update_patch (Env.reliable sample_inspector) Startup.fine (bytes "dir/x.patch")
        [⟨0, Except.ok [⟨bytes "new.c", gitutils_file_status.modified⟩], some [true]⟩,
         ⟨2, Except.ok [], some [true, false]⟩,
         ⟨1, Except.ok [], some [true, false]⟩,
         ⟨-1, Except.ok [], none⟩]
        ⟨bytes "diff --git a/a.c b/a.c\n+a\n", none, []⟩
      = session_result.cancelled ⟨bytes "diff --git a/a.c b/a.c\n+a\n", none, []⟩ :=
  have h : run_update_patch (Env.reliable sample_inspector) Startup.fine (bytes "dir/x.patch")
        [⟨0, Except.ok [⟨bytes "new.c", gitutils_file_status.modified⟩], some [true]⟩,
         ⟨2, Except.ok [], some [true, false]⟩,
         ⟨1, Except.ok [], some [true, false]⟩,
         ⟨-1, Except.ok [], none⟩]
        ⟨bytes "diff --git a/a.c b/a.c\n+a\n", none, []⟩
      = session_result.cancelled ⟨bytes "diff --git a/a.c b/a.c\n+a\n", none, []⟩ := by
    decide
  have h2 := (cancelled_session_keeps_target (Env.reliable sample_inspector) Startup.fine
    (bytes "dir/x.patch") ⟨bytes "diff --git a/a.c b/a.c\n+a\n", none, []⟩).1 _ _ h
  h2.1 ▸ h

theorem add_file_paths (entries : List patch_entry) (label : List Byte)
    (h : (entries.map (fun e => e.path)).Nodup) :
    ((add_file entries label).map (fun e => e.path)).Nodup := by
  unfold add_file
  cases hf : patch_entry_list_find entries label with
  | some i => simpa using h
  | none =>
    have hno := (find_none_iff entries label).mp hf
    simp only [Option.isSome_none, Bool.false_eq_true, if_false, patch_entry_list_append,
      List.map_append, List.map_cons, List.map_nil]
    rw [List.nodup_append]
    refine ⟨h, by simp, ?_⟩
    intro a ha hb
    simp only [List.mem_singleton] at hb
    subst hb
    obtain ⟨e, he, hp⟩ := List.mem_map.mp ha
    exact hno e he hp

theorem add_selected_paths :
    ∀ (items : List (List Byte × Bool)) (entries : List patch_entry),
      (entries.map (fun e => e.path)).Nodup →
      ((add_selected items entries).map (fun e => e.path)).Nodup := by
  intro items
  induction items with
  | nil => intro entries h; exact h
  | cons item rest ih =>
    intro entries h
    rw [add_selected]
    split
    · exact ih _ (add_file_paths entries item.1 h)
    · exact ih _ h

theorem handle_add_files_paths (status : Except Int (List gitutils_status_entry))
    (selection : Option (List Bool)) (entries : List patch_entry)
    (h : (entries.map (fun e => e.path)).Nodup) :
    ((handle_add_files status selection entries).2.map (fun e => e.path)).Nodup := by
  unfold handle_add_files
  split
  · exact h
  · simp only []
    split
    · exact h
    · split
      · exact h
      · exact add_selected_paths _ _ h

theorem remove_at_paths (entries : List patch_entry) (index : Nat)
    (h : (entries.map (fun e => e.path)).Nodup) :
    ((patch_entry_list_remove_at entries index).map (fun e => e.path)).Nodup := by
  rw [patch_entry_list_remove_at_eq]
  exact h.sublist ((List.eraseIdx_sublist entries index).map _)

theorem remove_selected_paths (selected : List Bool) :
    ∀ (k : Nat) (entries : List patch_entry),
      (entries.map (fun e => e.path)).Nodup →
      ((remove_selected selected k entries).map (fun e => e.path)).Nodup := by
  intro k
  induction k with
  | zero => intro entries h; exact h
  | succ k ih =>
    intro entries h
    rw [remove_selected]
    split
    · exact ih _ (remove_at_paths entries k h)
    · exact ih _ h

theorem handle_remove_files_paths (selection : Option (List Bool))
    (entries : List patch_entry) (h : (entries.map (fun e => e.path)).Nodup) :
    ((handle_remove_files selection entries).map (fun e => e.path)).Nodup := by
  unfold handle_remove_files
  split
  · exact h
  · split
    · exact h
    · exact remove_selected_paths _ _ _ h

theorem set_update_flags_paths :
    ∀ (entries : List patch_entry) (selected : List Bool),
      (set_update_flags entries selected).map (fun e => e.path)
        = entries.map (fun e => e.path) := by
  intro entries
  induction entries with
  | nil => intro selected; rfl
  | cons e rest ih =>
    intro selected
    cases selected with
    | nil => rfl
    | cons s more => simp [set_update_flags, ih]

theorem handle_update_flags_paths (selection : Option (List Bool))
    (entries : List patch_entry) :
    (handle_update_flags selection entries).map (fun e => e.path)
      = entries.map (fun e => e.path) := by
  unfold handle_update_flags
  split
  · rfl
  · split
    · rfl
    · exact set_update_flags_paths _ _

/-- Add, remove and mark-for-update rounds keep the paths of an entry set pairwise
distinct: a set with two entries of one path can only come from the populate step. -/
theorem menu_loop_paths (env : Env) (patch_path : List Byte) :
    ∀ (rounds : List menu_round) (entries : List patch_entry) (w : world)
      (es : List patch_entry) (w1 : world),
      (entries.map (fun e => e.path)).Nodup →
      menu_loop env patch_path rounds entries w = session_result.editing es w1 →
      (es.map (fun e => e.path)).Nodup := by
  intro rounds
  induction rounds with
  | nil =>
    intro entries w es w1 hd h
    simp only [menu_loop, session_result.editing.injEq] at h
    rw [← h.1]
    exact hd
  | cons r rest ih =>
    intro entries w es w1 hd h
    unfold menu_loop at h
    split at h
    · simp at h
    · split at h
      · exact ih _ _ _ _ (handle_add_files_paths _ _ _ hd) h
      · split at h
        · exact ih _ _ _ _ (handle_remove_files_paths _ _ hd) h
        · split at h
          · exact ih _ _ _ _ (by rw [handle_update_flags_paths]; exact hd) h
          · split at h
            · simp at h
            · exact ih _ _ _ _ hd h

theorem loop_open_sections {σ : Type} (cb : patch_section → σ → Bool × σ) :
    ∀ (lines : List (List Byte)) (current : patch_section) (u : σ)
      (log : List (patch_section × σ)),
      current.path.isSome = true →
      (∀ c ∈ (patch_parse_loop (traced cb) lines current (u, log)).2.2.2,
        (cb c.1 c.2).1 = true) →
      (patch_parse_loop (traced cb) lines current (u, log)).1 = true ∧
      (patch_parse_loop (traced cb) lines current (u, log)).2.1.path.isSome = true ∧
      (patch_parse_loop (traced cb) lines current (u, log)).2.2.2.map (fun c => c.1)
          ++ [(patch_parse_loop (traced cb) lines current (u, log)).2.1]
        = log.map (fun c => c.1) ++ open_sections current lines := by
  intro lines
  induction lines with
  | nil => intro current u log h _; simp [patch_parse_loop, h, open_sections]
  | cons line rest ih =>
    intro current u log h hcalls
    by_cases hb : is_boundary line = true
    · by_cases hc : (traced cb current (u, log)).1 = true
      · have heq : patch_parse_loop (traced cb) (line :: rest) current (u, log)
            = patch_parse_loop (traced cb) rest
                (patch_section_append (patch_section_init (section_target line)) line)
                ((cb current u).2, log ++ [(current, u)]) := by
          rw [patch_parse_loop, if_pos hb, if_pos h, if_pos hc]
          rfl
        rw [heq] at hcalls ⊢
        have := ih (patch_section_append (patch_section_init (section_target line)) line)
          (cb current u).2 (log ++ [(current, u)]) rfl hcalls
        refine ⟨this.1, this.2.1, ?_⟩
        rw [this.2.2, open_sections, if_pos hb]
        simp
      · exfalso
        have heq : patch_parse_loop (traced cb) (line :: rest) current (u, log)
            = (false, current, ((cb current u).2, log ++ [(current, u)])) := by
          rw [patch_parse_loop, if_pos hb, if_pos h, if_neg hc]
          rfl
        rw [heq] at hcalls
        exact hc (hcalls (current, u) (by simp))
    · have heq : patch_parse_loop (traced cb) (line :: rest) current (u, log)
          = patch_parse_loop (traced cb) rest (patch_section_append current line) (u, log) := by
        rw [patch_parse_loop, if_neg hb, if_pos h]
      rw [heq] at hcalls ⊢
      have := ih (patch_section_append current line) u log h hcalls
      refine ⟨this.1, this.2.1, ?_⟩
      rw [this.2.2, open_sections, if_neg hb]

theorem loop_skips_to_boundary {σ : Type} (cb : patch_section → σ → Bool × σ) (u : σ) :
    ∀ (lines : List (List Byte)),
      patch_parse_loop cb lines patch_section.zero u
        = patch_parse_loop cb (lines.dropWhile (fun l => !is_boundary l))
            patch_section.zero u := by
  intro lines
  induction lines with
  | nil => rfl
  | cons line rest ih =>
    by_cases hb : is_boundary line = true
    · simp [List.dropWhile, hb]
    · have hb2 : is_boundary line = false := by simpa using hb
      rw [patch_parse_loop, if_neg hb]
      simp only [List.dropWhile, hb2, Bool.not_false]
      rw [← ih]
      rfl

theorem dropWhile_head {α : Type} (p : α → Bool) :
    ∀ (l : List α) (a : α) (t : List α), l.dropWhile p = a :: t → p a = false := by
  intro l
  induction l with
  | nil => intro a t h; simp at h
  | cons x rest ih =>
    intro a t h
    by_cases hx : p x = true
    · simp only [List.dropWhile, hx] at h
      exact ih a t h
    · have hx2 : p x = false := by simpa using hx
      simp only [List.dropWhile, hx2] at h
      obtain ⟨rfl, _⟩ := List.cons.inj h
      exact hx2

/-- The sections `patch_parse` delivers for the lines of a stream when every
callback call succeeds. -/
theorem patch_parse_delivers {σ : Type} (cb : patch_section → σ → Bool × σ)
    (input : FILE) (userdata : σ)
    (hcalls : ∀ c ∈ (patch_parse input (traced cb) (userdata, [])).2.2,
      (cb c.1 c.2).1 = true) :
    (patch_parse input (traced cb) (userdata, [])).1 = true ∧
    (patch_parse input (traced cb) (userdata, [])).2.2.map (fun c => c.1)
      = match (getlines input.content).dropWhile (fun l => !is_boundary l) with
        | [] => []
        | line :: rest =>
          open_sections
            (patch_section_append (patch_section_init (section_target line)) line) rest := by
  have hskip := loop_skips_to_boundary (traced cb) (userdata, ([] : List (patch_section × σ)))
    (getlines input.content)
  cases hd : (getlines input.content).dropWhile (fun l => !is_boundary l) with
  | nil =>
    rw [hd] at hskip
    unfold patch_parse
    rw [hskip]
    simp [patch_parse_loop, patch_section.zero]
  | cons line rest =>
    rw [hd] at hskip
    have hb : is_boundary line = true := by
      have := dropWhile_head _ _ _ _ hd
      simpa using this
    have hstep : patch_parse_loop (traced cb) (getlines input.content) patch_section.zero
          (userdata, [])
        = patch_parse_loop (traced cb) rest
            (patch_section_append (patch_section_init (section_target line)) line)
            (userdata, []) := by
      rw [hskip, patch_parse_loop, if_pos hb]
      simp [patch_section.zero]
    have hparse : patch_parse input (traced cb) (userdata, [])
        = if (patch_parse_loop (traced cb) rest
                (patch_section_append (patch_section_init (section_target line)) line)
                (userdata, [])).1 &&
              (patch_parse_loop (traced cb) rest
                (patch_section_append (patch_section_init (section_target line)) line)
                (userdata, [])).2.1.path.isSome
          then traced cb
            (patch_parse_loop (traced cb) rest
                (patch_section_append (patch_section_init (section_target line)) line)
                (userdata, [])).2.1
            (patch_parse_loop (traced cb) rest
                (patch_section_append (patch_section_init (section_target line)) line)
                (userdata, [])).2.2
          else ((patch_parse_loop (traced cb) rest
                (patch_section_append (patch_section_init (section_target line)) line)
                (userdata, [])).1,
            (patch_parse_loop (traced cb) rest
                (patch_section_append (patch_section_init (section_target line)) line)
                (userdata, [])).2.2) := by
      unfold patch_parse
      rw [hstep]
    rw [hparse] at hcalls ⊢
    have hsub : ∀ c ∈ (patch_parse_loop (traced cb) rest
        (patch_section_append (patch_section_init (section_target line)) line)
        (userdata, [])).2.2.2, (cb c.1 c.2).1 = true := by
      intro c hc
      apply hcalls
      split
      · simp [traced, hc]
      · exact hc
    obtain ⟨h1, h2, h3⟩ := loop_open_sections cb rest
      (patch_section_append (patch_section_init (section_target line)) line) userdata [] rfl
      hsub
    simp only [h1, h2, Bool.and_self, if_true] at hcalls ⊢
    refine ⟨hcalls ((patch_parse_loop (traced cb) rest
        (patch_section_append (patch_section_init (section_target line)) line)
        (userdata, [])).2.1, (patch_parse_loop (traced cb) rest
        (patch_section_append (patch_section_init (section_target line)) line)
        (userdata, [])).2.2.1) (by simp [traced]), ?_⟩
    simp only [traced, List.map_append, List.map_cons, List.map_nil]
    rw [h3]
    simp

theorem bytes_a : bytes "a/" = [97, 47] := by decide

theorem bytes_b : bytes "b/" = [98, 47] := by decide

theorem strncmp_two (t : List Byte) (p q : Byte) (hp : p ≠ 0) (hq : q ≠ 0) :
    strncmp_eq t [p, q] 2 = true ↔ t.take 2 = [p, q] := by
  have hc : cstr [p, q] = [p, q] := by simp [cstr, hp, hq]
  unfold strncmp_eq
  rw [hc]
  cases t with
  | nil => simp [cstr]
  | cons x r =>
    cases r with
    | nil =>
      by_cases hx : x = 0
      · simp [cstr, hx]
      · simp [cstr, hx]
    | cons y r2 =>
      by_cases hx : x = 0
      · subst hx
        simp [cstr]
        intro h
        exact absurd h.symm hp
      · by_cases hy : y = 0
        · subst hy
          simp [cstr, hx]
          intro _ h
          exact absurd h.symm hq
        · simp [cstr, hx, hy]

/-- The path `patch_parse` gives to a section is the path the specification derives
from the boundary line. -/
theorem section_target_eq (line : List Byte) : section_target line = derived_path line := by
  unfold section_target derived_path strip_leading
  simp only [bytes_a, bytes_b]
  have ha := strncmp_two
    (if (utils_parse_token (utils_parse_token (cstr (line.drop 10)) 512).1 512).2 ≠ []
     then (utils_parse_token (utils_parse_token (cstr (line.drop 10)) 512).1 512).2
     else (utils_parse_token (cstr (line.drop 10)) 512).2) 97 47 (by decide) (by decide)
  have hb := strncmp_two
    (if (utils_parse_token (utils_parse_token (cstr (line.drop 10)) 512).1 512).2 ≠ []
     then (utils_parse_token (utils_parse_token (cstr (line.drop 10)) 512).1 512).2
     else (utils_parse_token (cstr (line.drop 10)) 512).2) 98 47 (by decide) (by decide)
  simp only [Bool.or_eq_true, ha, hb]

theorem cut_cons (l : List Byte) :
    ∀ (ls : List (List Byte)),
      cut_before_boundaries (l :: ls)
        = (l :: ls.takeWhile (fun x => !is_boundary x))
            :: cut_before_boundaries (ls.dropWhile (fun x => !is_boundary x)) := by
  intro ls
  induction ls generalizing l with
  | nil => simp [cut_before_boundaries]
  | cons m rest ih =>
    by_cases hb : is_boundary m = true
    · rw [cut_before_boundaries, if_pos hb]
      simp [List.takeWhile, List.dropWhile, hb]
    · have hb2 : is_boundary m = false := by simpa using hb
      rw [cut_before_boundaries, if_neg hb, ih m]
      simp [List.takeWhile, List.dropWhile, hb2]

theorem open_sections_eq :
    ∀ (ls : List (List Byte)) (current : patch_section),
      open_sections current ls
        = ⟨current.path, current.data ++ (ls.takeWhile (fun x => !is_boundary x)).flatten⟩
            :: (cut_before_boundaries (ls.dropWhile (fun x => !is_boundary x))).map
                group_section := by
  intro ls
  induction ls with
  | nil => intro current; simp [open_sections, cut_before_boundaries]
  | cons l rest ih =>
    intro current
    by_cases hb : is_boundary l = true
    · rw [open_sections, if_pos hb, ih]
      simp only [List.takeWhile, List.dropWhile, hb, Bool.not_true, List.flatten_nil,
        List.append_nil]
      rw [cut_cons]
      simp [group_section, patch_section_append, patch_section_init, utils_append_bytes,
        section_target_eq]
    · have hb2 : is_boundary l = false := by simpa using hb
      rw [open_sections, if_neg hb, ih]
      simp [List.takeWhile, List.dropWhile, hb2, patch_section_append, utils_append_bytes]

/-- The sections delivered are the groups of the reference split, each with the path
derived from its boundary line. -/
theorem patch_parse_reference {σ : Type} (cb : patch_section → σ → Bool × σ)
    (input : FILE) (userdata : σ)
    (hcalls : ∀ c ∈ (patch_parse input (traced cb) (userdata, [])).2.2,
      (cb c.1 c.2).1 = true) :
    (patch_parse input (traced cb) (userdata, [])).1 = true ∧
    (patch_parse input (traced cb) (userdata, [])).2.2.map (fun c => c.1)
      = (reference_split (getlines input.content)).map group_section := by
  obtain ⟨h1, h2⟩ := patch_parse_delivers cb input userdata hcalls
  refine ⟨h1, ?_⟩
  rw [h2]
  unfold reference_split
  cases hd : (getlines input.content).dropWhile (fun l => !is_boundary l) with
  | nil => simp [cut_before_boundaries]
  | cons line rest =>
    simp only []
    rw [open_sections_eq, cut_cons]
    simp [group_section, patch_section_append, patch_section_init, utils_append_bytes,
      section_target_eq]

theorem dropWhile_length_le {α : Type} (p : α → Bool) :
    ∀ (l : List α), (l.dropWhile p).length ≤ l.length := by
  intro l
  induction l with
  | nil => simp
  | cons x rest ih =>
    by_cases hx : p x = true
    · simp only [List.dropWhile, hx, List.length_cons]
      omega
    · have hx2 : p x = false := by simpa using hx
      simp [List.dropWhile, hx2]

theorem cut_flatten : ∀ (n : Nat) (ls : List (List Byte)), ls.length ≤ n →
    (cut_before_boundaries ls).flatten = ls := by
  intro n
  induction n with
  | zero =>
    intro ls h
    have : ls = [] := List.length_eq_zero.mp (Nat.le_zero.mp h)
    subst this
    rfl
  | succ n ih =>
    intro ls h
    cases ls with
    | nil => rfl
    | cons l rest =>
      rw [cut_cons, List.flatten_cons,
        ih _ (Nat.le_trans (dropWhile_length_le _ _) (by simpa using h))]
      simp

theorem countP_dropWhile_not (p : List Byte → Bool) :
    ∀ (ls : List (List Byte)),
      (ls.dropWhile (fun x => !p x)).countP p = ls.countP p := by
  intro ls
  induction ls with
  | nil => rfl
  | cons l rest ih =>
    by_cases h : p l = true
    · simp [List.dropWhile, h]
    · have h2 : p l = false := by simpa using h
      simp [List.dropWhile, h2, ih, List.countP_cons]

theorem filter_dropWhile_not (p : List Byte → Bool) :
    ∀ (ls : List (List Byte)),
      (ls.dropWhile (fun x => !p x)).filter p = ls.filter p := by
  intro ls
  induction ls with
  | nil => rfl
  | cons l rest ih =>
    by_cases h : p l = true
    · simp [List.dropWhile, h]
    · have h2 : p l = false := by simpa using h
      simp [List.dropWhile, h2, ih, List.filter_cons]

/-- What the groups of a cut look like when the first line, if there is one, is a
boundary line: as many groups as boundary lines, each a boundary line followed by
lines that are not, and the boundary lines are the first lines of the groups. -/
theorem cut_groups : ∀ (n : Nat) (ls : List (List Byte)), ls.length ≤ n →
    (∀ l t, ls = l :: t → is_boundary l = true) →
    (cut_before_boundaries ls).length = ls.countP is_boundary ∧
    (cut_before_boundaries ls).map (fun g => g.headD []) = ls.filter is_boundary ∧
    ∀ g ∈ cut_before_boundaries ls,
      ∃ l t, g = l :: t ∧ is_boundary l = true ∧ ∀ x ∈ t, is_boundary x = false := by
  intro n
  induction n with
  | zero =>
    intro ls h _
    have : ls = [] := List.length_eq_zero.mp (Nat.le_zero.mp h)
    subst this
    simp [cut_before_boundaries]
  | succ n ih =>
    intro ls h hhead
    cases ls with
    | nil => simp [cut_before_boundaries]
    | cons l rest =>
      have hb : is_boundary l = true := hhead l rest rfl
      have hlen : (rest.dropWhile (fun x => !is_boundary x)).length ≤ n :=
        Nat.le_trans (dropWhile_length_le _ _) (by simpa using h)
      have haligned : ∀ a t, rest.dropWhile (fun x => !is_boundary x) = a :: t →
          is_boundary a = true := by
        intro a t hd
        have := dropWhile_head _ _ _ _ hd
        simpa using this
      obtain ⟨h1, h2, h3⟩ := ih _ hlen haligned
      rw [cut_cons]
      refine ⟨?_, ?_, ?_⟩
      · rw [List.length_cons, h1, countP_dropWhile_not]
        simp [List.countP_cons, hb]
      · rw [List.map_cons, h2, filter_dropWhile_not]
        simp [List.filter_cons, hb]
      · intro g hg
        rcases List.mem_cons.mp hg with rfl | hg
        · refine ⟨l, _, rfl, hb, ?_⟩
          intro x hx
          have := List.mem_takeWhile_imp hx
          simpa using this
        · exact h3 g hg

theorem reference_split_aligned (lines : List (List Byte)) :
    ∀ l t, lines.dropWhile (fun x => !is_boundary x) = l :: t → is_boundary l = true := by
  intro l t hd
  have := dropWhile_head _ _ _ _ hd
  simpa using this

/-- Claim C19: when every callback call succeeds, the contents of the sections
`patch_parse` delivers are, in order, the groups of the reference split (drop the
lines before the first boundary line, cut before each boundary line); there are as
many sections as boundary lines, each group is a boundary line followed by lines
that are not boundary lines, and the groups together are the lines from the first
boundary line on. -/
theorem patch_parse_reference_split {σ : Type} (cb : patch_section → σ → Bool × σ)
    (input : FILE) (userdata : σ)
    (hcalls : ∀ c ∈ (patch_parse input (traced cb) (userdata, [])).2.2,
      (cb c.1 c.2).1 = true) :
    (patch_parse input (traced cb) (userdata, [])).1 = true ∧
    (patch_parse input (traced cb) (userdata, [])).2.2.map (fun c => c.1.data)
      = (reference_split (getlines input.content)).map List.flatten ∧
    (patch_parse input (traced cb) (userdata, [])).2.2.length
      = (getlines input.content).countP is_boundary ∧
    (∀ g ∈ reference_split (getlines input.content),
      ∃ l t, g = l :: t ∧ is_boundary l = true ∧ ∀ x ∈ t, is_boundary x = false) ∧
    (reference_split (getlines input.content)).flatten
      = (getlines input.content).dropWhile (fun l => !is_boundary l) := by
  obtain ⟨h1, h2⟩ := patch_parse_reference cb input userdata hcalls
  obtain ⟨g1, _, g3⟩ := cut_groups _ _ (Nat.le_refl _)
    (reference_split_aligned (getlines input.content))
  refine ⟨h1, ?_, ?_, g3, cut_flatten _ _ (Nat.le_refl _)⟩
  · have := congrArg (List.map (fun s => s.data)) h2
    simp only [List.map_map] at this
    rw [show (fun c : patch_section × σ => c.1.data)
        = (fun s : patch_section => s.data) ∘ (fun c : patch_section × σ => c.1) from rfl,
      this]
    apply List.map_congr_left
    intro g _
    rfl
  · have := congrArg List.length h2
    simp only [List.length_map] at this
    rw [this]
    unfold reference_split
    rw [g1, countP_dropWhile_not]

theorem patch_parse_reference_split_witness :
    (patch_parse ⟨bytes "junk\ndiff --git a/f b/f\n+x\ndiff --git a/g b/g\n-y\n", false⟩
        (traced collect_sections_callback) ([], [])).2.2.map (fun c => c.1.data)
      = [bytes "diff --git a/f b/f\n+x\n", bytes "diff --git a/g b/g\n-y\n"] :=
  (patch_parse_reference_split collect_sections_callback
    ⟨bytes "junk\ndiff --git a/f b/f\n+x\ndiff --git a/g b/g\n-y\n", false⟩ []
    (fun _ _ => rfl)).2.1.trans (by decide)

/-! ## Path tokens -/

theorem skip_spaces_eq : ∀ (input : List Byte), skip_spaces input = input.dropWhile isspace := by
  intro input
  induction input with
  | nil => rfl
  | cons c cs ih =>
    by_cases h : isspace c = true
    · simp [skip_spaces, List.dropWhile, h, ih]
    · have h2 : isspace c = false := by simpa using h
      simp [skip_spaces, List.dropWhile, h2]

theorem skip_token_eq :
    ∀ (input : List Byte), skip_token input = input.dropWhile (fun c => !isspace c) := by
  intro input
  induction input with
  | nil => rfl
  | cons c cs ih =>
    by_cases h : isspace c = true
    · simp [skip_token, List.dropWhile, h]
    · have h2 : isspace c = false := by simpa using h
      simp [skip_token, List.dropWhile, h2, ih]

theorem parse_bare_eq (buffer_size : Nat) :
    ∀ (cs buf : List Byte),
      buf.length + (cs.takeWhile (fun c => !isspace c)).length < buffer_size →
      parse_bare buffer_size cs buf
        = (buf ++ cs.takeWhile (fun c => !isspace c), cs.dropWhile (fun c => !isspace c)) := by
  intro cs
  induction cs with
  | nil => intro buf _; simp [parse_bare]
  | cons c rest ih =>
    intro buf h
    by_cases hs : isspace c = true
    · simp [parse_bare, List.takeWhile, List.dropWhile, hs]
    · have hs2 : isspace c = false := by simpa using hs
      simp only [List.takeWhile, hs2, Bool.not_false, List.length_cons] at h
      have hroom : buf.length + 1 < buffer_size := by omega
      rw [parse_bare]
      rw [if_neg (by simp [hs2]; omega)]
      rw [ih (buf ++ [c]) (by simp; omega)]
      simp [List.takeWhile, List.dropWhile, hs2]

theorem dropWhile_idem {α : Type} (p : α → Bool) (l : List α) :
    (l.dropWhile p).dropWhile p = l.dropWhile p := by
  induction l with
  | nil => rfl
  | cons x rest ih =>
    by_cases hx : p x = true
    · simp [List.dropWhile, hx, ih]
    · have hx2 : p x = false := by simpa using hx
      simp [List.dropWhile, hx2]

/-- A token that does not open with a double quote and has fewer bytes than the
buffer is the plain whitespace-separated token, and the cursor stops behind it. -/
theorem utils_parse_token_plain (input : List Byte) (buffer_size : Nat)
    (hquote : (input.dropWhile isspace).head? ≠ some 34)
    (hfit : (plain_token input).length < buffer_size) :
    utils_parse_token input buffer_size
      = ((input.dropWhile isspace).dropWhile (fun c => !isspace c), plain_token input) := by
  have hsize : buffer_size ≠ 0 := by omega
  unfold utils_parse_token
  rw [if_neg hsize]
  simp only [skip_spaces_eq, skip_token_eq]
  unfold plain_token at hfit ⊢
  cases hd : input.dropWhile isspace with
  | nil => simp
  | cons c cs =>
    rw [hd] at hquote hfit
    have hc : c ≠ 34 := by
      intro h
      apply hquote
      simp [h]
    simp only [if_neg hc]
    rw [parse_bare_eq buffer_size (c :: cs) [] (by simpa using hfit)]
    simp [dropWhile_idem]

/-- When every callback call succeeds, the paths of the sections `patch_parse` delivers
are, in stream order, the paths it computes from the boundary lines. -/
theorem patch_parse_section_targets {σ : Type} (cb : patch_section → σ → Bool × σ)
    (input : FILE) (userdata : σ)
    (hcalls : ∀ c ∈ (patch_parse input (traced cb) (userdata, [])).2.2,
      (cb c.1 c.2).1 = true) :
    (patch_parse input (traced cb) (userdata, [])).2.2.map (fun c => c.1.path)
      = ((getlines input.content).filter is_boundary).map
          (fun l => some (section_target l)) := by
  simp only [section_target_eq]
  obtain ⟨_, h2⟩ := patch_parse_reference cb input userdata hcalls
  obtain ⟨_, g2, _⟩ := cut_groups _ _ (Nat.le_refl _)
    (reference_split_aligned (getlines input.content))
  have := congrArg (List.map (fun s : patch_section => s.path)) h2
  simp only [List.map_map] at this
  rw [show (fun c : patch_section × σ => c.1.path)
      = (fun s : patch_section => s.path) ∘ (fun c : patch_section × σ => c.1) from rfl,
    this]
  have hmap : (reference_split (getlines input.content)).map
        ((fun s : patch_section => s.path) ∘ group_section)
      = ((reference_split (getlines input.content)).map (fun g => g.headD [])).map
          (fun l => some (derived_path l)) := by
    rw [List.map_map]
    rfl
  rw [hmap]
  unfold reference_split
  rw [g2, filter_dropWhile_not]

theorem quoted_text_quote (cs : List Byte) : quoted_text (34 :: cs) = [] := by
  unfold quoted_text; simp

theorem quoted_text_escape (d : Byte) (ds : List Byte) :
    quoted_text (92 :: d :: ds) = d :: quoted_text ds := by
  rw [quoted_text.eq_def]; simp

theorem quoted_text_backslash_end : quoted_text [92] = [92] := by
  rw [quoted_text.eq_def]; simp

theorem quoted_text_other (c : Byte) (cs : List Byte) (h1 : c ≠ 34) (h2 : c ≠ 92) :
    quoted_text (c :: cs) = c :: quoted_text cs := by
  rw [quoted_text.eq_def]; simp [h1, h2]

theorem parse_quoted_stop (size : Nat) (c : Byte) (cs buf : List Byte)
    (h : c = 34 ∨ ¬ (buf.length + 1 < size)) :
    parse_quoted size (c :: cs) buf = (buf, c :: cs) := by
  rw [parse_quoted.eq_def]; simp only []; rw [if_pos h]

theorem parse_quoted_escape (size : Nat) (d : Byte) (ds buf : List Byte)
    (h : buf.length + 1 < size) :
    parse_quoted size (92 :: d :: ds) buf = parse_quoted size ds (buf ++ [d]) := by
  rw [parse_quoted.eq_def]; simp only []
  rw [if_neg (by simp; omega)]
  simp

theorem parse_quoted_backslash_end (size : Nat) (buf : List Byte)
    (h : buf.length + 1 < size) :
    parse_quoted size [92] buf = (buf ++ [92], []) := by
  rw [parse_quoted.eq_def]; simp only []
  rw [if_neg (by simp; omega)]
  simp

theorem parse_quoted_other (size : Nat) (c : Byte) (cs buf : List Byte)
    (h1 : c ≠ 34) (h2 : c ≠ 92) (h : buf.length + 1 < size) :
    parse_quoted size (c :: cs) buf = parse_quoted size cs (buf ++ [c]) := by
  rw [parse_quoted.eq_def]; simp only []
  rw [if_neg (by simp [h1]; omega), if_neg h2]

theorem parse_quoted_eq (buffer_size : Nat) :
    ∀ (n : Nat) (cs buf : List Byte), cs.length ≤ n →
      buf.length + (quoted_text cs).length < buffer_size →
      (parse_quoted buffer_size cs buf).1 = buf ++ quoted_text cs := by
  intro n
  induction n with
  | zero =>
    intro cs buf hlen _
    have : cs = [] := List.length_eq_zero.mp (Nat.le_zero.mp hlen)
    subst this
    simp [parse_quoted, quoted_text]
  | succ n ih =>
    intro cs buf hlen hfit
    cases cs with
    | nil => simp [parse_quoted, quoted_text]
    | cons c rest =>
      by_cases hq : c = 34
      · subst hq
        rw [parse_quoted_stop _ _ _ _ (Or.inl rfl), quoted_text_quote]
        simp
      · by_cases hbs : c = 92
        · subst hbs
          cases rest with
          | nil =>
            rw [quoted_text_backslash_end] at hfit ⊢
            rw [parse_quoted_backslash_end _ _ (by simpa using hfit)]
          | cons d ds =>
            rw [quoted_text_escape] at hfit ⊢
            simp only [List.length_cons] at hfit hlen
            rw [parse_quoted_escape _ _ _ _ (by omega),
              ih ds (buf ++ [d]) (by omega) (by simp; omega)]
            simp
        · rw [quoted_text_other c rest hq hbs] at hfit ⊢
          simp only [List.length_cons] at hfit hlen
          rw [parse_quoted_other _ _ _ _ hq hbs (by omega),
            ih rest (buf ++ [c]) (by omega) (by simp; omega)]
          simp

theorem quoted_text_verbatim :
    ∀ (t rest : List Byte), (∀ c ∈ t, c ≠ 34 ∧ c ≠ 92) →
      quoted_text (t ++ 34 :: rest) = t := by
  intro t
  induction t with
  | nil => intro rest _; exact quoted_text_quote rest
  | cons c more ih =>
    intro rest h
    obtain ⟨h1, h2⟩ := h c (List.mem_cons_self _ _)
    rw [List.cons_append, quoted_text_other _ _ h1 h2,
      ih rest (fun x hx => h x (List.mem_cons_of_mem _ hx))]

/-- Claim C20: a token that opens with a double quote and fits the 512-byte buffer
is the text between the opening quote and the next double quote that is not escaped,
every backslash that is followed by a byte giving way to that byte; text without
quotes and backslashes is taken as it stands, whitespace included. The boundary line
with the tokens `"a/my file.c"` and `"b/my file.c"` gives the path `my file.c`. -/
theorem utils_parse_token_quoted (input cs : List Byte)
    (hquote : input.dropWhile isspace = 34 :: cs)
    (hfit : (quoted_text cs).length ≤ 511) :
    (utils_parse_token input 512).2 = quoted_text cs ∧
    (∀ (t rest : List Byte), (∀ c ∈ t, c ≠ 34 ∧ c ≠ 92) → cs = t ++ 34 :: rest →
      (utils_parse_token input 512).2 = t) ∧
    section_target (bytes "diff --git \"a/my file.c\" \"b/my file.c\"\n")
      = bytes "my file.c" := by
  have h1 : (utils_parse_token input 512).2 = quoted_text cs := by
    unfold utils_parse_token
    rw [if_neg (by decide)]
    simp only [skip_spaces_eq, hquote, if_true]
    rw [parse_quoted_eq 512 cs.length cs [] (Nat.le_refl _) (by simp; omega)]
    simp
  refine ⟨h1, ?_, by decide⟩
  intro t rest ht hcs
  rw [h1, hcs, quoted_text_verbatim t rest ht]

theorem utils_parse_token_quoted_witness :
    (utils_parse_token (bytes " \"b/my \\\"own\\\" file.c\" tail") 512).2
      = bytes "b/my \"own\" file.c" :=
  (utils_parse_token_quoted (bytes " \"b/my \\\"own\\\" file.c\" tail")
    (bytes "b/my \\\"own\\\" file.c\" tail") (by decide) (by decide)).1.trans (by decide)

/-! ## The two shapes of success -/

/-- Claim C21: a successful `write_final_patch` shows one of two messages. With N the
number of Original entries with an update request whose diff reports no changes, the
message is the one for N skipped entries exactly when N > 0 and the one for a full
update exactly when there is no such entry; in both shapes the call returned 0 and
its last step is the `rename` that puts the staged bytes in the place of the target. -/
theorem write_final_patch_success_shapes (env : Env) (patch_path : List Byte)
    (entries : List patch_entry) (w : world)
    (hok : (write_final_patch env patch_path entries w).rc = 0) :
    (write_final_patch env patch_path entries w).message
      = (if 0 < entries.countP (counts_skipped env)
         then ui_message.skipped_updates (entries.countP (counts_skipped env))
         else ui_message.updated) ∧
    (∀ n, (write_final_patch env patch_path entries w).message
        = ui_message.skipped_updates n ↔
      (0 < n ∧ n = entries.countP (counts_skipped env))) ∧
    ((write_final_patch env patch_path entries w).message = ui_message.updated ↔
      ∀ e ∈ entries, counts_skipped env e = false) ∧
    (∃ w4, target_kept w w4 ∧ event.rename ∉ w4.log.drop w.log.length ∧
      (write_final_patch env patch_path entries w).after
        = (w4.call event.rename).renamed ∧
      (write_final_patch env patch_path entries w).after.target = w4.staging.getD [] ∧
      (write_final_patch env patch_path entries w).after.staging = none) := by
  obtain ⟨template, n, k, w3, hloop, _, heq⟩ :=
    write_final_patch_success_inv env patch_path entries w hok
  have hk : k = entries.countP (counts_skipped env) := by
    have := (write_entries_counters env entries 0 0 _ n k w3 hloop).2
    simpa using this
  have hmsg : (write_final_patch env patch_path entries w).message
      = (if 0 < entries.countP (counts_skipped env)
         then ui_message.skipped_updates (entries.countP (counts_skipped env))
         else ui_message.updated) := by
    rw [heq, hk]
  refine ⟨hmsg, ?_, ?_, ?_⟩
  · intro m
    rw [hmsg]
    by_cases hpos : 0 < entries.countP (counts_skipped env)
    · rw [if_pos hpos]
      constructor
      · intro h
        injection h with h
        exact ⟨h ▸ hpos, h.symm⟩
      · rintro ⟨_, rfl⟩
        rfl
    · rw [if_neg hpos]
      constructor
      · intro h
        cases h
      · rintro ⟨h1, rfl⟩
        exact absurd h1 hpos
  · rw [hmsg]
    by_cases hpos : 0 < entries.countP (counts_skipped env)
    · rw [if_pos hpos]
      constructor
      · intro h
        cases h
      · intro h
        obtain ⟨e, he, hs⟩ := List.countP_pos_iff.mp hpos
        rw [h e he] at hs
        cases hs
    · rw [if_neg hpos]
      constructor
      · intro _ e he
        by_contra hs
        have : counts_skipped env e = true := by simpa using hs
        exact hpos (List.countP_pos_iff.mpr ⟨e, he, this⟩)
      · intro _
        rfl
  · rcases write_final_patch_cases env patch_path entries w with h | h | h
    · rw [hok] at h
      exact absurd h.1 (by decide)
    · rw [hok] at h
      exact absurd h.1 (by decide)
    · obtain ⟨_, w4, hkept, hafter⟩ := h
      refine ⟨w4, hkept, ?_, hafter, ?_, ?_⟩
      · obtain ⟨_, evs, hlog, hno⟩ := hkept
        rw [hlog]
        simpa using hno
      · rw [hafter]
        simp [world.renamed, world.call]
      · rw [hafter]
        simp [world.renamed, world.call]

theorem write_final_patch_success_shapes_witness :
    (write_final_patch (Env.reliable sample_inspector) (bytes "dir/x.patch")
        [original_entry (bytes "a.c") (bytes "diff --git a/a.c b/a.c\n+a\n") false,
         original_entry (bytes "b.c") (bytes "diff --git a/b.c b/b.c\n+b\n") true,
         original_entry (bytes "c.c") (bytes "diff --git a/c.c b/c.c\n+c\n") true]
        ⟨bytes "old", none, []⟩).message = ui_message.skipped_updates 2 ∧
    (write_final_patch (Env.reliable sample_inspector) (bytes "dir/x.patch")
        [original_entry (bytes "a.c") (bytes "diff --git a/a.c b/a.c\n+a\n") false,
         added_entry (bytes "new.c")]
        ⟨bytes "old", none, []⟩).message = ui_message.updated :=
  ⟨(write_final_patch_success_shapes (Env.reliable sample_inspector) (bytes "dir/x.patch")
      _ ⟨bytes "old", none, []⟩ (by decide)).1.trans (by decide),
   (write_final_patch_success_shapes (Env.reliable sample_inspector) (bytes "dir/x.patch")
      _ ⟨bytes "old", none, []⟩ (by decide)).1.trans (by decide)⟩

/-! ## A session without edits -/

theorem open_sections_data :
    ∀ (lines : List (List Byte)) (current : patch_section),
      ((open_sections current lines).map (fun s => s.data)).flatten
        = current.data ++ lines.flatten := by
  intro lines
  induction lines with
  | nil => intro current; simp [open_sections]
  | cons line rest ih =>
    intro current
    unfold open_sections
    split
    · simp [ih, patch_section_append, patch_section_init, utils_append_bytes]
    · simp [ih, patch_section_append, utils_append_bytes]

theorem is_boundary_ne_nil (line : List Byte) (h : is_boundary line = true) : line ≠ [] := by
  intro hl
  rw [hl] at h
  revert h
  decide

theorem open_sections_filled :
    ∀ (lines : List (List Byte)) (current : patch_section),
      current.path.isSome = true → current.data ≠ [] →
      ∀ s ∈ open_sections current lines, s.path.isSome = true ∧ s.data ≠ [] := by
  intro lines
  induction lines with
  | nil =>
    intro current hp hd s hs
    simp only [open_sections, List.mem_singleton] at hs
    rw [hs]
    exact ⟨hp, hd⟩
  | cons line rest ih =>
    intro current hp hd s hs
    unfold open_sections at hs
    split at hs
    · next hb =>
      rcases List.mem_cons.mp hs with h | h
      · rw [h]; exact ⟨hp, hd⟩
      · refine ih _ (by simp [patch_section_append, patch_section_init]) ?_ s h
        simp [patch_section_append, patch_section_init, utils_append_bytes,
          is_boundary_ne_nil line hb]
    · exact ih _ (by simpa [patch_section_append] using hp)
        (by simp [patch_section_append, utils_append_bytes, hd]) s hs

theorem collect_sections_callback_some (s : patch_section) (dest : patch_sections)
    (h : s.path.isSome = true) : collect_sections_callback s dest = (true, dest ++ [s]) := by
  obtain ⟨path, data⟩ := s
  cases path with
  | none => simp at h
  | some p =>
    simp [collect_sections_callback, patch_section_append, patch_section_init,
      utils_append_bytes]

theorem loop_collects :
    ∀ (lines : List (List Byte)) (current : patch_section) (dest : patch_sections),
      current.path.isSome = true →
      (patch_parse_loop collect_sections_callback lines current dest).1 = true ∧
      (patch_parse_loop collect_sections_callback lines current dest).2.1.path.isSome = true ∧
      (patch_parse_loop collect_sections_callback lines current dest).2.2
          ++ [(patch_parse_loop collect_sections_callback lines current dest).2.1]
        = dest ++ open_sections current lines := by
  intro lines
  induction lines with
  | nil =>
    intro current dest hp
    simp [patch_parse_loop, open_sections, hp]
  | cons line rest ih =>
    intro current dest hp
    unfold patch_parse_loop open_sections
    by_cases hb : strncmp_eq line diff_git 10 = true
    · have hb2 : is_boundary line = true := hb
      rw [if_pos hb, if_pos hp, if_pos hb2, collect_sections_callback_some current dest hp]
      simp only [if_true]
      have := ih (patch_section_append (patch_section_init (section_target line)) line)
        (dest ++ [current]) (by simp [patch_section_append, patch_section_init])
      simpa using this
    · have hb2 : ¬ is_boundary line = true := hb
      rw [if_neg hb, if_pos hp, if_neg hb2]
      exact ih _ dest (by simpa [patch_section_append] using hp)

theorem patch_parse_collects (content : List Byte) (read_error : Bool)
    (line : List Byte) (rest : List (List Byte))
    (hl : getlines content = line :: rest) (hb : is_boundary line = true) :
    patch_parse ⟨content, read_error⟩ collect_sections_callback []
      = (true, open_sections
          (patch_section_append (patch_section_init (section_target line)) line) rest) := by
  have hb2 : strncmp_eq line diff_git 10 = true := hb
  have h := loop_collects rest
    (patch_section_append (patch_section_init (section_target line)) line) []
    (by simp [patch_section_append, patch_section_init])
  have hstep : patch_parse_loop collect_sections_callback (line :: rest) patch_section.zero []
      = patch_parse_loop collect_sections_callback rest
          (patch_section_append (patch_section_init (section_target line)) line) [] := by
    rw [patch_parse_loop, if_pos hb2]
    simp [patch_section.zero]
  unfold patch_parse
  simp only [hl, hstep, h.1, h.2.1, Bool.and_self, if_true]
  rw [collect_sections_callback_some _ _ h.2.1, h.2.2]
  simp

theorem getlines_head_of_marker (content : List Byte) (h : diff_git <+: content) :
    ∃ line rest, getlines content = line :: rest ∧ is_boundary line = true := by
  obtain ⟨t, rfl⟩ := h
  cases ht : getlines t with
  | nil =>
    refine ⟨diff_git, [], ?_, by decide⟩
    simp [diff_git, bytes, getlines, ht]
  | cons l ls =>
    refine ⟨diff_git ++ l, ls, ?_, ?_⟩
    · simp [diff_git, bytes, getlines, ht]
    · simp [is_boundary, strncmp_eq, diff_git, bytes, cstr]

theorem write_entries_quiet (env : Env) :
    ∀ (es : List patch_entry) (n k : Nat) (w : world),
      (∀ e ∈ es, e.is_original = true ∧ e.mark_for_update = false) →
      ∃ evs, (write_entries env es n k w).world.log = w.log ++ evs ∧
        ∀ p, event.write_diff p ∉ evs := by
  intro es
  induction es with
  | nil =>
    intro n k w _
    exact ⟨[], by simp [write_entries, loop_result.world], by simp⟩
  | cons e rest ih =>
    intro n k w h
    have he := h e (List.mem_cons_self _ _)
    have hrest : ∀ x ∈ rest, x.is_original = true ∧ x.mark_for_update = false :=
      fun x hx => h x (List.mem_cons_of_mem _ hx)
    unfold write_entries
    rw [if_neg (by simp [he.1, he.2])]
    split
    · next s hs =>
      split
      · simp only []
        split
        · exact ⟨[event.fwrite s.data, event.fclose, event.unlink],
            by simp [loop_result.world, world.call, world.stage, world.unlink], by simp⟩
        · obtain ⟨evs, hlog, hno⟩ := ih (n + 1) k
            ((w.call (event.fwrite s.data)).stage
              (s.data.take (min (env.fwrite (w.staging.getD []) s.data) s.data.length))) hrest
          exact ⟨event.fwrite s.data :: evs,
            by rw [hlog]; simp [world.call, world.stage], by simpa using hno⟩
      · exact ih _ _ _ hrest
    · exact ih _ _ _ hrest

theorem write_final_patch_quiet (env : Env) (patch_path : List Byte)
    (entries : List patch_entry) (w : world)
    (hall : ∀ e ∈ entries, e.is_original = true ∧ e.mark_for_update = false)
    (hok : (write_final_patch env patch_path entries w).rc = 0) :
    ∃ evs, (write_final_patch env patch_path entries w).after.log = w.log ++ evs ∧
      ∀ p, event.write_diff p ∉ evs := by
  obtain ⟨template, n, k, w3, hloop, _, heq⟩ :=
    write_final_patch_success_inv env patch_path entries w hok
  obtain ⟨evs, hlog, hno⟩ := write_entries_quiet env entries 0 0
    ({ w.call (event.mkstemp template) with staging := some [] }.call event.fdopen) hall
  rw [hloop] at hlog
  simp only [loop_result.world] at hlog
  refine ⟨[event.mkstemp template, event.fdopen] ++ evs
    ++ [event.fflush, event.fclose, event.rename], ?_, ?_⟩
  · rw [heq]
    simp [world.renamed, world.call, hlog]
  · intro p
    simpa using hno p

theorem entries_of_sections_kept (sections : List patch_section) :
    ∀ e ∈ sections.map entry_of_section, e.is_original = true ∧ e.mark_for_update = false := by
  intro e he
  obtain ⟨s, _, rfl⟩ := List.mem_map.mp he
  simp [entry_of_section]

theorem entries_of_sections_bytes (sections : List patch_section) :
    ((sections.map entry_of_section).map stored_bytes)
      = sections.map (fun s => s.data) := by
  simp [stored_bytes, entry_of_section, Function.comp_def]

theorem open_sections_ne_nil (current : patch_section) (lines : List (List Byte)) :
    open_sections current lines ≠ [] := by
  cases lines with
  | nil => simp [open_sections]
  | cons line rest =>
    unfold open_sections
    split <;> simp [open_sections_eq]

theorem write_final_patch_of_sections (env : Env) (patch_path : List Byte)
    (sections : List patch_section) (w : world)
    (hne : sections ≠ [])
    (hfilled : ∀ s ∈ sections, s.data ≠ [])
    (hio : staging_ok env patch_path) :
    (write_final_patch env patch_path (sections.map entry_of_section) w).rc = 0 ∧
    (write_final_patch env patch_path (sections.map entry_of_section) w).after.target
      = (sections.map (fun s => s.data)).flatten ∧
    ∃ evs, (write_final_patch env patch_path (sections.map entry_of_section) w).after.log
        = w.log ++ evs ∧ ∀ p, event.write_diff p ∉ evs := by
  have hall := entries_of_sections_kept sections
  have hrc : (write_final_patch env patch_path (sections.map entry_of_section) w).rc = 0 := by
    apply write_final_patch_succeeds env patch_path _ w hio
    · intro e he hf
      have := hall e he
      rcases hf.1 with h | h
      · rw [this.1] at h; cases h
      · rw [this.2] at h; cases h
    · obtain ⟨s, hs⟩ := List.exists_mem_of_ne_nil sections hne
      refine ⟨entry_of_section s, List.mem_map_of_mem _ hs, ?_⟩
      simp [counts_written, entry_of_section, stored_bytes, hfilled s hs]
  refine ⟨hrc, ?_, write_final_patch_quiet env patch_path _ w hall hrc⟩
  rw [write_final_patch_target_of_success env patch_path _ w ?_ hrc]
  · rw [← entries_of_sections_bytes]
    congr 1
    apply List.map_congr_left
    intro e he
    exact contribution_of_kept env e (hall e he)
  · intro e he h
    have := hall e he
    rcases h with h | h
    · rw [this.1] at h; cases h
    · rw [this.2] at h; cases h

/-- Claim C22: a session without edits is the identity on the patch file. For every
patch file that begins with `diff --git`, when nothing fails at the start and no
staging step fails, the session that chooses Finalize at once parses the file with
`collect_sections_callback`, populates the set with `collect_patch_entries` and calls
`write_final_patch` on it; the call succeeds, the exit code is 0, the target holds
the bytes the file had, and no call of the inspector is made. -/
theorem session_without_edits_identity (env : Env) (s : Startup) (patch_path : List Byte)
    (r : menu_round) (rest : List menu_round) (w : world)
    (hfirst : diff_git <+: w.target)
    (hstart : s.fopen = true ∧ s.read_error = false ∧ 0 ≤ s.libgit2_init ∧
      0 ≤ s.open_repository ∧ s.ui_initialize = 0)
    (hio : staging_ok env patch_path)
    (hchoice : r.choice = 3) :
    run_update_patch env s patch_path (r :: rest) w
      = session_result.finalized (write_final_patch env patch_path
          (collect_patch_entries
            (patch_parse ⟨w.target, false⟩ collect_sections_callback []).2 []).2 w) ∧
    (run_update_patch env s patch_path (r :: rest) w).exit_code = some 0 ∧
    (run_update_patch env s patch_path (r :: rest) w).world.target = w.target ∧
    ∃ evs, (run_update_patch env s patch_path (r :: rest) w).world.log = w.log ++ evs ∧
      ∀ p, event.write_diff p ∉ evs := by
  obtain ⟨line, lines, hl, hb⟩ := getlines_head_of_marker w.target hfirst
  obtain ⟨hfopen, hread, hinit, hrepo, hui⟩ := hstart
  have hparse := patch_parse_collects w.target false line lines hl hb
  have hne := open_sections_ne_nil
    (patch_section_append (patch_section_init (section_target line)) line) lines
  have hfilled := open_sections_filled lines
    (patch_section_append (patch_section_init (section_target line)) line)
    (by simp [patch_section_append, patch_section_init])
    (by simp [patch_section_append, patch_section_init, utils_append_bytes,
      is_boundary_ne_nil line hb])
  have hdata : ((open_sections
      (patch_section_append (patch_section_init (section_target line)) line) lines).map
      (fun s => s.data)).flatten = w.target := by
    rw [open_sections_data]
    have := getlines_flatten w.target
    rw [hl] at this
    simpa [patch_section_append, patch_section_init, utils_append_bytes] using this
  obtain ⟨hrc, htarget, hlog⟩ := write_final_patch_of_sections env patch_path _ w hne
    (fun s hs => (hfilled s hs).2) hio
  have hentries : (collect_patch_entries (open_sections
      (patch_section_append (patch_section_init (section_target line)) line) lines) [])
      = (0, (open_sections
          (patch_section_append (patch_section_init (section_target line)) line) lines).map
          entry_of_section) := by
    simp [collect_patch_entries, collect_loop_eq]
  have hrun : run_update_patch env s patch_path (r :: rest) w
      = session_result.finalized (write_final_patch env patch_path
          (collect_patch_entries
            (patch_parse ⟨w.target, false⟩ collect_sections_callback []).2 []).2 w) := by
    have hfile : parse_patch_file s w.target = some (open_sections
        (patch_section_append (patch_section_init (section_target line)) line) lines) := by
      unfold parse_patch_file
      rw [hfopen, hread, hparse]
      simp [hne]
    unfold run_update_patch
    rw [hfile, hparse]
    simp only [hentries]
    rw [if_neg (by decide), if_neg (by omega), if_neg (by omega), if_neg (by simp [hui])]
    rw [menu_loop, if_neg (by omega), if_neg (by omega), if_neg (by omega), if_neg (by omega),
      if_pos hchoice]
  rw [hrun, hparse]
  simp only [hentries, session_result.exit_code, session_result.world, hrc, if_true]
  exact ⟨trivial, trivial, htarget.trans hdata, hlog⟩

theorem session_without_edits_identity_witness :
    (run_update_patch (Env.reliable sample_inspector) Startup.fine (bytes "dir/x.patch")
        [⟨3, Except.ok [], none⟩]
        ⟨bytes "diff --git a/f b/f\n+x\ndiff --git a/g b/g\n-y\n", none, []⟩).exit_code
      = some 0 ∧
    (run_update_patch (Env.reliable sample_inspector) Startup.fine (bytes "dir/x.patch")
        [⟨3, Except.ok [], none⟩]
        ⟨bytes "diff --git a/f b/f\n+x\ndiff --git a/g b/g\n-y\n", none, []⟩).world.target
      = bytes "diff --git a/f b/f\n+x\ndiff --git a/g b/g\n-y\n" :=
  have h := session_without_edits_identity (Env.reliable sample_inspector) Startup.fine
    (bytes "dir/x.patch") ⟨3, Except.ok [], none⟩ []
    ⟨bytes "diff --git a/f b/f\n+x\ndiff --git a/g b/g\n-y\n", none, []⟩
    ⟨bytes " a/f b/f\n+x\ndiff --git a/g b/g\n-y\n", by decide⟩
    (by decide)
    (reliable_staging_ok sample_inspector (bytes "dir/x.patch") (bytes "dir/.patchutilsXXXXXX")
      (by decide))
    rfl
  ⟨h.2.1, h.2.2.1⟩

/-! ## Tokens longer than the buffer -/

theorem parse_bare_cut (size : Nat) :
    ∀ (cs buf : List Byte), buf.length + 1 ≤ size →
      (parse_bare size cs buf).1
          = (buf ++ cs.takeWhile (fun c => !isspace c)).take (size - 1) ∧
      skip_token (parse_bare size cs buf).2 = cs.dropWhile (fun c => !isspace c) := by
  intro cs
  induction cs with
  | nil =>
    intro buf hbuf
    simp only [parse_bare, List.takeWhile_nil, List.append_nil, List.dropWhile_nil, skip_token]
    exact ⟨(List.take_of_length_le (by omega)).symm, trivial⟩
  | cons c rest ih =>
    intro buf hbuf
    unfold parse_bare
    by_cases hsp : isspace c = true
    · rw [if_pos (Or.inl hsp)]
      simp only [skip_token_eq]
      simp only [List.takeWhile_cons, List.dropWhile_cons, hsp, Bool.not_true,
        Bool.false_eq_true, if_false, List.append_nil]
      exact ⟨(List.take_of_length_le (by omega)).symm, trivial⟩
    · by_cases hfull : buf.length + 1 < size
      · rw [if_neg (by simp [hsp, hfull])]
        have h := ih (buf ++ [c]) (by simp; omega)
        refine ⟨?_, ?_⟩
        · rw [h.1]
          simp [List.takeWhile_cons, hsp]
        · rw [h.2]
          simp [List.dropWhile_cons, hsp]
      · rw [if_pos (Or.inr hfull)]
        have hlen : buf.length = size - 1 := by omega
        refine ⟨?_, ?_⟩
        · rw [← hlen]
          simp
        · simp only [skip_token_eq]

theorem parse_quoted_cut (size : Nat) :
    ∀ (n : Nat) (cs buf : List Byte), cs.length ≤ n → buf.length + 1 ≤ size →
      (parse_quoted size cs buf).1 = (buf ++ quoted_text cs).take (size - 1) := by
  intro n
  induction n with
  | zero =>
    intro cs buf hlen hbuf
    have : cs = [] := List.length_eq_zero.mp (Nat.le_zero.mp hlen)
    subst this
    simp only [parse_quoted, quoted_text, List.append_nil]
    exact (List.take_of_length_le (by omega)).symm
  | succ n ih =>
    intro cs buf hlen hbuf
    cases cs with
    | nil =>
      simp only [parse_quoted, quoted_text, List.append_nil]
      exact (List.take_of_length_le (by omega)).symm
    | cons c rest =>
      by_cases hfull : buf.length + 1 < size
      · by_cases hq : c = 34
        · subst hq
          rw [parse_quoted_stop _ _ _ _ (Or.inl rfl), quoted_text_quote, List.append_nil]
          show buf = List.take (size - 1) buf
          exact (List.take_of_length_le (by omega)).symm
        · by_cases hbs : c = 92
          · subst hbs
            cases rest with
            | nil =>
              rw [quoted_text_backslash_end, parse_quoted_backslash_end _ _ hfull]
              show buf ++ [92] = List.take (size - 1) (buf ++ [92])
              exact (List.take_of_length_le (by simp; omega)).symm
            | cons d ds =>
              simp only [List.length_cons] at hlen
              rw [quoted_text_escape, parse_quoted_escape _ _ _ _ hfull,
                ih ds (buf ++ [d]) (by omega) (by simp; omega)]
              simp
          · simp only [List.length_cons] at hlen
            rw [quoted_text_other c rest hq hbs, parse_quoted_other _ _ _ _ hq hbs hfull,
              ih rest (buf ++ [c]) (by omega) (by simp; omega)]
            simp
      · rw [parse_quoted_stop _ _ _ _ (Or.inr hfull)]
        have hlen2 : buf.length = size - 1 := by omega
        rw [← hlen2]
        simp

/-- A token that does not open with a double quote is the plain whitespace-separated
token cut to the first `buffer_size - 1` bytes, and the cursor stops behind the whole
token. -/
theorem utils_parse_token_bare_cut (input : List Byte) (buffer_size : Nat)
    (hsize : 0 < buffer_size)
    (hquote : (input.dropWhile isspace).head? ≠ some 34) :
    utils_parse_token input buffer_size
      = ((input.dropWhile isspace).dropWhile (fun c => !isspace c),
          (plain_token input).take (buffer_size - 1)) := by
  unfold utils_parse_token plain_token
  rw [if_neg (by omega)]
  simp only [skip_spaces_eq]
  cases h : input.dropWhile isspace with
  | nil => simp [skip_token]
  | cons c cs =>
    rw [h] at hquote
    have hc : c ≠ 34 := by simpa using hquote
    simp only [hc, if_false]
    have := parse_bare_cut buffer_size (c :: cs) [] (by simp; omega)
    rw [this.2, this.1]
    simp

/-- A token that opens with a double quote is the quoted text cut to the first
`buffer_size - 1` bytes. -/
theorem utils_parse_token_quoted_cut (input cs : List Byte) (buffer_size : Nat)
    (hsize : 0 < buffer_size)
    (hquote : input.dropWhile isspace = 34 :: cs) :
    (utils_parse_token input buffer_size).2 = (quoted_text cs).take (buffer_size - 1) := by
  unfold utils_parse_token
  rw [if_neg (by omega)]
  simp only [skip_spaces_eq, hquote, if_true]
  rw [parse_quoted_cut buffer_size cs.length cs [] (Nat.le_refl _) (by simp; omega)]
  simp

/-- No token has more bytes than the buffer holds before its terminator. -/
theorem utils_parse_token_length (input : List Byte) (buffer_size : Nat) :
    (utils_parse_token input buffer_size).2.length ≤ buffer_size - 1 := by
  by_cases hsize : buffer_size = 0
  · simp [utils_parse_token, hsize]
  · cases h : input.dropWhile isspace with
    | nil =>
      rw [utils_parse_token_bare_cut input buffer_size (by omega) (by simp [h])]
      simp [List.length_take]
    | cons c cs =>
      by_cases hc : c = 34
      · subst hc
        rw [utils_parse_token_quoted_cut input cs buffer_size (by omega) h]
        simp [List.length_take]
      · rw [utils_parse_token_bare_cut input buffer_size (by omega) (by simp [h, hc])]
        simp [List.length_take]

theorem cstr_eq_self : ∀ (l : List Byte), (∀ c ∈ l, c ≠ 0) → cstr l = l := by
  intro l
  induction l with
  | nil => intro _; rfl
  | cons c cs ih =>
    intro h
    unfold cstr
    rw [if_neg (h c (List.mem_cons_self _ _)), ih (fun x hx => h x (List.mem_cons_of_mem _ hx))]

theorem parse_quoted_verbatim (size : Nat) :
    ∀ (t rest buf : List Byte), (∀ x ∈ t, x ≠ 34 ∧ x ≠ 92) → buf.length + t.length < size →
      parse_quoted size (t ++ rest) buf = parse_quoted size rest (buf ++ t) := by
  intro t
  induction t with
  | nil => intro rest buf _ _; simp
  | cons x t ih =>
    intro rest buf ht hlen
    simp only [List.length_cons] at hlen
    have hx := ht x (List.mem_cons_self _ _)
    rw [List.cons_append, parse_quoted_other _ _ _ _ hx.1 hx.2 (by omega),
      ih rest (buf ++ [x]) (fun y hy => ht y (List.mem_cons_of_mem _ hy)) (by simp; omega)]
    simp

/-- A quoted token whose text fills the buffer before a blank inside the quotes: the
token is the text up to the cut, and the cursor is left at that blank, inside the
quoted token. -/
theorem utils_parse_token_quoted_overlong (input t rest : List Byte) (c : Byte)
    (hquote : input.dropWhile isspace = 34 :: (t ++ c :: rest))
    (ht : ∀ x ∈ t, x ≠ 34 ∧ x ≠ 92) (hlen : t.length = 511) (hc : isspace c = true) :
    utils_parse_token input 512 = (c :: rest, t) := by
  have hc34 : c ≠ 34 := by
    intro h
    rw [h] at hc
    revert hc
    decide
  unfold utils_parse_token
  rw [if_neg (by decide)]
  simp only [skip_spaces_eq, hquote, if_true]
  rw [parse_quoted_verbatim 512 t (c :: rest) [] ht (by simp; omega),
    parse_quoted_stop 512 c rest _ (Or.inr (by simp; omega))]
  simp [hc34, skip_token, hc]

theorem long_name_length : long_name.length = 509 := List.length_replicate 509 120

theorem long_name_mem (c : Byte) (h : c ∈ long_name) : c = 120 := (List.mem_replicate.mp h).2

theorem long_quoted_line_cursor :
    cstr (long_quoted_line.drop 10)
      = 32 :: 34 :: ((97 :: 47 :: long_name)
          ++ 32 :: (bytes "y\" \"b/" ++ long_name ++ bytes " y\"\n")) := by
  have h0 : long_quoted_line
      = diff_git ++ (32 :: 34 :: ((97 :: 47 :: long_name)
          ++ 32 :: (bytes "y\" \"b/" ++ long_name ++ bytes " y\"\n"))) := by
    simp [long_quoted_line, diff_git, bytes]
  have hn : ∀ c ∈ long_name, c ≠ 0 := by
    intro c hc
    rw [long_name_mem c hc]
    decide
  rw [h0, List.drop_left' (by decide)]
  apply cstr_eq_self
  simp only [bytes, List.forall_mem_append, List.forall_mem_cons]
  refine ⟨by decide, by decide, ⟨by decide, by decide, hn⟩, by decide, ⟨by decide, hn⟩,
    by decide⟩

theorem long_quoted_line_tokens :
    utils_parse_token (cstr (long_quoted_line.drop 10)) 512
      = (32 :: (bytes "y\" \"b/" ++ long_name ++ bytes " y\"\n"), bytes "a/" ++ long_name) ∧
    (utils_parse_token (32 :: (bytes "y\" \"b/" ++ long_name ++ bytes " y\"\n")) 512).2
      = bytes "y\"" := by
  constructor
  · rw [long_quoted_line_cursor]
    have h := utils_parse_token_quoted_overlong
      (32 :: 34 :: ((97 :: 47 :: long_name)
          ++ 32 :: (bytes "y\" \"b/" ++ long_name ++ bytes " y\"\n")))
      (97 :: 47 :: long_name) (bytes "y\" \"b/" ++ long_name ++ bytes " y\"\n") 32
      (by simp [List.dropWhile, isspace])
      (by
        intro x hx
        rcases List.mem_cons.mp hx with h | hx
        · rw [h]; decide
        · rcases List.mem_cons.mp hx with h | hx
          · rw [h]; decide
          · rw [long_name_mem x hx]; decide)
      (by simp [long_name_length]) (by decide)
    rw [h, bytes_a]
    rfl
  · have hq : bytes "y\" \"b/" = [121, 34, 32, 34, 98, 47] := by decide
    rw [utils_parse_token_plain _ 512 (by simp [hq, List.dropWhile, isspace])
      (by simp [hq, plain_token, List.dropWhile, List.takeWhile, isspace])]
    simp [hq, plain_token, List.dropWhile, List.takeWhile, isspace, bytes]

theorem getlines_line :
    ∀ (l rest : List Byte), (∀ c ∈ l, c ≠ 10) →
      getlines (l ++ 10 :: rest) = (l ++ [10]) :: getlines rest := by
  intro l
  induction l with
  | nil => intro rest _; simp [getlines]
  | cons c cs ih =>
    intro rest h
    rw [List.cons_append, getlines, if_neg (h c (List.mem_cons_self _ _)),
      ih rest (fun x hx => h x (List.mem_cons_of_mem _ hx))]
    simp

theorem long_quoted_line_lines :
    getlines (long_quoted_line ++ bytes "+x\n") = [long_quoted_line, bytes "+x\n"] := by
  have hn : ∀ c ∈ long_name, c ≠ 10 := by
    intro c hc
    rw [long_name_mem c hc]
    decide
  have h0 : long_quoted_line
      = (bytes "diff --git \"a/" ++ long_name ++ bytes " y\" \"b/" ++ long_name ++ bytes " y\"")
          ++ [10] := by
    simp [long_quoted_line, bytes]
  have h1 : long_quoted_line ++ bytes "+x\n"
      = (bytes "diff --git \"a/" ++ long_name ++ bytes " y\" \"b/" ++ long_name ++ bytes " y\"")
          ++ 10 :: bytes "+x\n" := by
    rw [h0]
    simp
  rw [h1, getlines_line, ← h0]
  · have : getlines (bytes "+x\n") = [bytes "+x\n"] := by decide
    rw [this]
  · simp only [List.forall_mem_append]
    exact ⟨⟨⟨⟨by decide, hn⟩, by decide⟩, hn⟩, by decide⟩

theorem is_boundary_marker (l : List Byte) : is_boundary (diff_git ++ l) = true := by
  simp [is_boundary, strncmp_eq, diff_git, bytes, cstr]

theorem long_quoted_line_boundary : is_boundary long_quoted_line = true := by
  have h0 : long_quoted_line
      = diff_git ++ (32 :: 34 :: ((97 :: 47 :: long_name)
          ++ 32 :: (bytes "y\" \"b/" ++ long_name ++ bytes " y\"\n"))) := by
    simp [long_quoted_line, diff_git, bytes]
  rw [h0]
  exact is_boundary_marker _

/-- Claim C23 fails on the code for a quoted token with a blank behind the cut. On the
boundary line with the tokens `"a/x...x y"` and `"b/x...x y"` (509 bytes `x`), the
first token is cut to its first 511 bytes, the cursor stays at the blank inside the
quotes, and the rest of the first token, `y"`, is read as the second token: the
section gets the path `y"`, which is not a prefix of the real path. -/
theorem long_quoted_token_tail_is_next_token :
    (utils_parse_token (cstr (long_quoted_line.drop 10)) 512).2 = bytes "a/" ++ long_name ∧
    (utils_parse_token (utils_parse_token (cstr (long_quoted_line.drop 10)) 512).1 512).2
      = bytes "y\"" ∧
    section_target long_quoted_line = bytes "y\"" ∧
    patch_parse ⟨long_quoted_line ++ bytes "+x\n", false⟩ collect_sections_callback []
      = (true, [⟨some (bytes "y\""), long_quoted_line ++ bytes "+x\n"⟩]) ∧
    ¬ (bytes "y\"" <+: long_name ++ bytes " y") := by
  have htok := long_quoted_line_tokens
  have hsecond : (utils_parse_token
      (utils_parse_token (cstr (long_quoted_line.drop 10)) 512).1 512).2 = bytes "y\"" := by
    rw [htok.1]
    exact htok.2
  have htarget : section_target long_quoted_line = bytes "y\"" := by
    unfold section_target
    simp only [hsecond]
    decide
  refine ⟨by rw [htok.1], hsecond, htarget, ?_, ?_⟩
  · rw [patch_parse_collects _ false long_quoted_line [bytes "+x\n"] long_quoted_line_lines
      long_quoted_line_boundary, htarget]
    have hx : is_boundary (bytes "+x\n") = false := by decide
    simp [open_sections, hx, patch_section_append, patch_section_init, utils_append_bytes]
  · rintro ⟨t, ht⟩
    have hl : long_name = 120 :: List.replicate 508 120 := rfl
    have hq : bytes "y\"" = [121, 34] := by decide
    rw [hl, hq] at ht
    simp only [List.cons_append] at ht
    injection ht with h1 _
    exact absurd h1 (by decide)

/-! ## The record of callback calls is faithful -/

theorem loop_traced_faithful {σ : Type} (cb : patch_section → σ → Bool × σ) :
    ∀ (lines : List (List Byte)) (current : patch_section) (u : σ)
      (log : List (patch_section × σ)),
      (patch_parse_loop (traced cb) lines current (u, log)).1
        = (patch_parse_loop cb lines current u).1 ∧
      (patch_parse_loop (traced cb) lines current (u, log)).2.1
        = (patch_parse_loop cb lines current u).2.1 ∧
      (patch_parse_loop (traced cb) lines current (u, log)).2.2.1
        = (patch_parse_loop cb lines current u).2.2 := by
  intro lines
  induction lines with
  | nil => intro current u log; simp [patch_parse_loop]
  | cons line rest ih =>
    intro current u log
    have ht : traced cb current (u, log)
        = ((cb current u).1, ((cb current u).2, log ++ [(current, u)])) := rfl
    rw [patch_parse_loop, patch_parse_loop, ht]
    by_cases hb : strncmp_eq line diff_git 10 = true
    · rw [if_pos hb, if_pos hb]
      by_cases hp : current.path.isSome = true
      · rw [if_pos hp, if_pos hp]
        by_cases hc : (cb current u).1 = true
        · rw [if_pos hc, if_pos hc]
          exact ih _ _ _
        · rw [if_neg hc, if_neg hc]
          exact ⟨rfl, rfl, rfl⟩
      · rw [if_neg hp, if_neg hp]
        exact ih _ _ _
    · rw [if_neg hb, if_neg hb]
      by_cases hp : current.path.isSome = true
      · rw [if_pos hp, if_pos hp]
        exact ih _ _ _
      · rw [if_neg hp, if_neg hp]
        exact ih _ _ _

theorem patch_parse_traced_faithful {σ : Type} (cb : patch_section → σ → Bool × σ)
    (input : FILE) (userdata : σ) :
    (patch_parse input (traced cb) (userdata, [])).1 = (patch_parse input cb userdata).1 ∧
    (patch_parse input (traced cb) (userdata, [])).2.1 = (patch_parse input cb userdata).2 := by
  obtain ⟨h1, h2, h3⟩ :=
    loop_traced_faithful cb (getlines input.content) patch_section.zero userdata []
  unfold patch_parse
  simp only [h1, h2]
  split
  · simp only [traced, h3]
    exact ⟨trivial, trivial⟩
  · exact ⟨rfl, h3⟩

theorem loop_flag {σ : Type} (cb : patch_section → σ → Bool × σ) :
    ∀ (lines : List (List Byte)) (current : patch_section) (u : σ)
      (log : List (patch_section × σ)),
      (∀ c ∈ log, (cb c.1 c.2).1 = true) →
      ((patch_parse_loop (traced cb) lines current (u, log)).1 = true ↔
        ∀ c ∈ (patch_parse_loop (traced cb) lines current (u, log)).2.2.2,
          (cb c.1 c.2).1 = true) := by
  intro lines
  induction lines with
  | nil =>
    intro current u log hlog
    simp only [patch_parse_loop, true_iff]
    exact hlog
  | cons line rest ih =>
    intro current u log hlog
    have ht : traced cb current (u, log)
        = ((cb current u).1, ((cb current u).2, log ++ [(current, u)])) := rfl
    rw [patch_parse_loop, ht]
    by_cases hb : strncmp_eq line diff_git 10 = true
    · rw [if_pos hb]
      by_cases hp : current.path.isSome = true
      · rw [if_pos hp]
        by_cases hc : (cb current u).1 = true
        · rw [if_pos hc]
          apply ih
          intro c hmem
          rcases List.mem_append.mp hmem with h | h
          · exact hlog c h
          · rw [List.mem_singleton.mp h]
            exact hc
        · rw [if_neg hc]
          constructor
          · intro h
            cases h
          · intro h
            exact absurd (h (current, u) (by simp)) hc
      · rw [if_neg hp]
        exact ih _ _ _ hlog
    · rw [if_neg hb]
      by_cases hp : current.path.isSome = true
      · rw [if_pos hp]
        exact ih _ _ _ hlog
      · rw [if_neg hp]
        exact ih _ _ _ hlog

/-- The traced run succeeds exactly when every callback call made succeeds. -/
theorem patch_parse_flag {σ : Type} (cb : patch_section → σ → Bool × σ)
    (input : FILE) (userdata : σ) :
    (patch_parse input (traced cb) (userdata, [])).1 = true ↔
      ∀ c ∈ (patch_parse input (traced cb) (userdata, [])).2.2, (cb c.1 c.2).1 = true := by
  have hloop := loop_flag cb (getlines input.content) patch_section.zero userdata []
    (by simp)
  unfold patch_parse
  simp only []
  split
  · next h =>
    simp only [Bool.and_eq_true] at h
    have hall := hloop.mp h.1
    simp only [traced]
    constructor
    · intro hc c hmem
      rcases List.mem_append.mp hmem with h1 | h1
      · exact hall c h1
      · rw [List.mem_singleton.mp h1]
        exact hc
    · intro hc
      exact hc (_, _) (List.mem_append_right _ (List.mem_singleton.mpr rfl))
  · next h =>
    simp only [Bool.and_eq_true, not_and] at h
    constructor
    · intro hone
      exact hloop.mp hone
    · intro hall
      exact hloop.mpr hall

/-! ## Read errors -/

/-- Claim C9, amended: `patch_parse` does not tell a read error from the end of the
stream. For every callback, on a stream where a read fails it returns what it returns
for the stream that ends after the same bytes and makes the same callback calls; it
returns failure exactly when a callback call fails, so it returns success when every
call made succeeds; when the loop is left without a failed call and a block is open,
that block is delivered as the last section; and when every call made succeeds and
the first line is a boundary, the sections delivered add up to the bytes read. -/
theorem patch_parse_read_error_as_end {σ : Type} (cb : patch_section → σ → Bool × σ)
    (content : List Byte) (userdata : σ) :
    patch_parse ⟨content, true⟩ cb userdata = patch_parse ⟨content, false⟩ cb userdata ∧
    patch_parse ⟨content, true⟩ (traced cb) (userdata, [])
      = patch_parse ⟨content, false⟩ (traced cb) (userdata, []) ∧
    ((patch_parse ⟨content, true⟩ cb userdata).1 = false ↔
      ∃ c ∈ (patch_parse ⟨content, true⟩ (traced cb) (userdata, [])).2.2,
        (cb c.1 c.2).1 = false) ∧
    ((∀ c ∈ (patch_parse ⟨content, true⟩ (traced cb) (userdata, [])).2.2,
        (cb c.1 c.2).1 = true) →
      (patch_parse ⟨content, true⟩ cb userdata).1 = true) ∧
    ((patch_parse_loop (traced cb) (getlines content) patch_section.zero (userdata, [])).1
        = true →
      (patch_parse_loop (traced cb) (getlines content) patch_section.zero
        (userdata, [])).2.1.path.isSome = true →
      (patch_parse ⟨content, true⟩ (traced cb) (userdata, [])).2.2
        = (patch_parse_loop (traced cb) (getlines content) patch_section.zero
            (userdata, [])).2.2.2
          ++ [((patch_parse_loop (traced cb) (getlines content) patch_section.zero
                (userdata, [])).2.1,
               (patch_parse_loop (traced cb) (getlines content) patch_section.zero
                (userdata, [])).2.2.1)]) ∧
    ((∀ c ∈ (patch_parse ⟨content, true⟩ (traced cb) (userdata, [])).2.2,
        (cb c.1 c.2).1 = true) →
      (∀ l, (getlines content).head? = some l → strncmp_eq l diff_git 10 = true) →
      delivered_bytes (patch_parse ⟨content, true⟩ (traced cb) (userdata, [])).2.2
        = content) := by
  refine ⟨rfl, rfl, ?_, fun hall => ?_, fun h1 h2 => ?_, fun hcalls hfirst => ?_⟩
  · rw [← (patch_parse_traced_faithful cb ⟨content, true⟩ userdata).1]
    have hflag := patch_parse_flag cb ⟨content, true⟩ userdata
    constructor
    · intro hfalse
      by_contra hno
      have hall : ∀ c ∈ (patch_parse ⟨content, true⟩ (traced cb) (userdata, [])).2.2,
          (cb c.1 c.2).1 = true := by
        intro c hc
        by_contra hcf
        exact hno ⟨c, hc, by simpa using hcf⟩
      rw [hflag.mpr hall] at hfalse
      cases hfalse
    · rintro ⟨c, hc, hcf⟩
      by_contra hne
      have htrue : (patch_parse ⟨content, true⟩ (traced cb) (userdata, [])).1 = true := by
        simpa using hne
      rw [hflag.mp htrue c hc] at hcf
      cases hcf
  · rw [← (patch_parse_traced_faithful cb ⟨content, true⟩ userdata).1]
    exact (patch_parse_flag cb ⟨content, true⟩ userdata).mpr hall
  · unfold patch_parse
    simp only [h1, h2, Bool.and_self, if_true, traced]
  · exact (patch_parse_traced_flatten cb ⟨content, true⟩ userdata hfirst hcalls).2

theorem patch_parse_read_error_as_end_witness :
    (patch_parse ⟨bytes "diff --git a/f b/f\n+x\n", true⟩
        (fun _ (n : Nat) => (false, n + 1)) 0).1 = false ∧
    delivered_bytes (patch_parse ⟨bytes "diff --git a/f b/f\n+x\n", true⟩
        (traced collect_sections_callback) ([], [])).2.2
      = bytes "diff --git a/f b/f\n+x\n" :=
  ⟨(patch_parse_read_error_as_end (fun _ (n : Nat) => (false, n + 1))
      (bytes "diff --git a/f b/f\n+x\n") 0).2.2.1.mpr
      ⟨(⟨some (bytes "f"), bytes "diff --git a/f b/f\n+x\n"⟩, 0), by decide, rfl⟩,
   (patch_parse_read_error_as_end collect_sections_callback
      (bytes "diff --git a/f b/f\n+x\n") []).2.2.2.2.2 (fun _ _ => rfl)
      (by
        intro l h
        have h2 : (getlines (bytes "diff --git a/f b/f\n+x\n")).head?
            = some (bytes "diff --git a/f b/f\n") := by decide
        rw [h2] at h
        cases h
        decide)⟩

/-! ## The finalizer on a buffered stream -/

theorem world_flushed_all (w : world) :
    w.flushed (fun staged => ⟨0, staged⟩) = w.call event.fflush := by
  obtain ⟨target, staging, log⟩ := w
  cases staging <;> rfl

/-- When every flush succeeds, `write_final_patch_buffered` is `write_final_patch`. -/
theorem write_final_patch_buffered_flushed (env : Env) (patch_path : List Byte)
    (entries : List patch_entry) (w : world) :
    write_final_patch_buffered env (fun staged => ⟨0, staged⟩) patch_path entries w
      = write_final_patch env patch_path entries w := by
  unfold write_final_patch_buffered write_final_patch
  simp only [world_flushed_all]

/-- On a buffered stream a successful `write_final_patch` leaves in the target what
the flush let through of the entries' contributions. -/
theorem write_final_patch_buffered_target (env : Env) (fflush : List Byte → flush_result)
    (patch_path : List Byte) (entries : List patch_entry) (w : world)
    (h3 : ∀ p, (env.write_diff p).three_way)
    (hok : (write_final_patch_buffered env fflush patch_path entries w).rc = 0) :
    (write_final_patch_buffered env fflush patch_path entries w).after.target
      = (fflush (entries.map (contribution env)).flatten).file := by
  unfold write_final_patch_buffered at hok ⊢
  split
  · next h => rw [if_pos h] at hok; simp at hok
  · next hlen =>
    rw [if_neg hlen] at hok
    split
    · next ht => simp [ht] at hok
    · next template ht =>
      simp only [ht] at hok ⊢
      split
      · next h => rw [if_pos h] at hok; simp at hok
      · next hmk =>
        rw [if_neg hmk] at hok
        split
        · next h => rw [if_pos h] at hok; simp at hok
        · next hfd =>
          rw [if_neg hfd] at hok
          split
          · next msg w3 hloop => simp [hloop] at hok
          · next n k w3 hloop =>
            simp only [hloop] at hok ⊢
            have hst := write_entries_staged env entries 0 0 _ [] n k w3
              (fun e _ _ => h3 e.path) (by simp [world.call]) hloop
            split
            · next h => rw [if_pos h] at hok; simp at hok
            · next hfc =>
              rw [if_neg hfc] at hok
              split
              · next h => rw [if_pos h] at hok; simp at hok
              · next hn =>
                rw [if_neg hn] at hok
                split
                · next h => rw [if_pos h] at hok; simp at hok
                · simp [world.renamed, world.call, world.flushed, hst]

/-- Whatever the flush does, `write_final_patch_buffered` returns the code, shows the
message and makes the calls of `write_final_patch`, and when the run fails it leaves
the same world: the flush bears on the bytes of the target of a successful run only. -/
theorem write_final_patch_buffered_same (env : Env) (fflush : List Byte → flush_result)
    (patch_path : List Byte) (entries : List patch_entry) (w : world) :
    (write_final_patch_buffered env fflush patch_path entries w).rc
      = (write_final_patch env patch_path entries w).rc ∧
    (write_final_patch_buffered env fflush patch_path entries w).message
      = (write_final_patch env patch_path entries w).message ∧
    (write_final_patch_buffered env fflush patch_path entries w).after.log
      = (write_final_patch env patch_path entries w).after.log ∧
    ((write_final_patch env patch_path entries w).rc ≠ 0 →
      (write_final_patch_buffered env fflush patch_path entries w).after
        = (write_final_patch env patch_path entries w).after) := by
  unfold write_final_patch_buffered write_final_patch
  split
  · exact ⟨rfl, rfl, rfl, fun _ => rfl⟩
  · split
    · exact ⟨rfl, rfl, rfl, fun _ => rfl⟩
    · simp only []
      split
      · exact ⟨rfl, rfl, rfl, fun _ => rfl⟩
      · split
        · exact ⟨rfl, rfl, rfl, fun _ => rfl⟩
        · split
          · exact ⟨rfl, rfl, rfl, fun _ => rfl⟩
          · split
            · exact ⟨rfl, rfl, rfl, fun _ => by simp [world.unlink, world.call, world.flushed]⟩
            · split
              · exact ⟨rfl, rfl, rfl,
                  fun _ => by simp [world.unlink, world.call, world.flushed]⟩
              · split
                · exact ⟨rfl, rfl, rfl,
                    fun _ => by simp [world.unlink, world.call, world.flushed]⟩
                · exact ⟨rfl, rfl, rfl, fun h => absurd rfl h⟩

/-- Claim C2 fails on the code when the flush fails. The stream takes the 26 stored
bytes of the one entry, `fflush` returns `EOF` and nothing reaches the staging file,
`fclose` returns 0 and `rename` succeeds: `write_final_patch` returns 0 with the
message for a full update, and the target is empty, not the entry's contribution. -/
theorem write_final_patch_ignores_flush_failure :
    (write_final_patch_buffered (Env.reliable sample_inspector) (fun _ => ⟨-1, []⟩)
        (bytes "dir/x.patch")
        [original_entry (bytes "a.c") (bytes "diff --git a/a.c b/a.c\n+a\n") false]
        ⟨bytes "old", none, []⟩).rc = 0 ∧
    (write_final_patch_buffered (Env.reliable sample_inspector) (fun _ => ⟨-1, []⟩)
        (bytes "dir/x.patch")
        [original_entry (bytes "a.c") (bytes "diff --git a/a.c b/a.c\n+a\n") false]
        ⟨bytes "old", none, []⟩).message = ui_message.updated ∧
    (write_final_patch_buffered (Env.reliable sample_inspector) (fun _ => ⟨-1, []⟩)
        (bytes "dir/x.patch")
        [original_entry (bytes "a.c") (bytes "diff --git a/a.c b/a.c\n+a\n") false]
        ⟨bytes "old", none, []⟩).after.target = [] ∧
    ([original_entry (bytes "a.c") (bytes "diff --git a/a.c b/a.c\n+a\n") false].map
        (contribution (Env.reliable sample_inspector))).flatten
      = bytes "diff --git a/a.c b/a.c\n+a\n" ∧
    (write_final_patch_buffered (Env.reliable sample_inspector) (fun _ => ⟨-1, []⟩)
        (bytes "dir/x.patch")
        [original_entry (bytes "a.c") (bytes "diff --git a/a.c b/a.c\n+a\n") false]
        ⟨bytes "old", none, []⟩).after.log
      = [event.mkstemp (bytes "dir/.patchutilsXXXXXX"), event.fdopen,
         event.fwrite (bytes "diff --git a/a.c b/a.c\n+a\n"), event.fflush, event.fclose,
         event.rename] := by
  decide

/-! ## The path of a boundary line in the words of the claim -/

theorem after_quote_quote (cs : List Byte) : after_quote (34 :: cs) = cs := by
  unfold after_quote; simp

theorem after_quote_escape (d : Byte) (ds : List Byte) :
    after_quote (92 :: d :: ds) = after_quote ds := by
  rw [after_quote.eq_def]; simp

theorem after_quote_backslash_end : after_quote [92] = [] := by
  rw [after_quote.eq_def]; simp

theorem after_quote_other (c : Byte) (cs : List Byte) (h1 : c ≠ 34) (h2 : c ≠ 92) :
    after_quote (c :: cs) = after_quote cs := by
  rw [after_quote.eq_def]; simp [h1, h2]

theorem parse_quoted_cursor (size : Nat) :
    ∀ (n : Nat) (cs buf : List Byte), cs.length ≤ n →
      buf.length + (quoted_text cs).length < size →
      ((parse_quoted size cs buf).2 = [] ∧ after_quote cs = []) ∨
        (parse_quoted size cs buf).2 = 34 :: after_quote cs := by
  intro n
  induction n with
  | zero =>
    intro cs buf hlen _
    have : cs = [] := List.length_eq_zero.mp (Nat.le_zero.mp hlen)
    subst this
    exact Or.inl ⟨by simp [parse_quoted], by simp [after_quote]⟩
  | succ n ih =>
    intro cs buf hlen hfit
    cases cs with
    | nil => exact Or.inl ⟨by simp [parse_quoted], by simp [after_quote]⟩
    | cons c rest =>
      by_cases hq : c = 34
      · subst hq
        rw [parse_quoted_stop _ _ _ _ (Or.inl rfl), after_quote_quote]
        exact Or.inr rfl
      · by_cases hbs : c = 92
        · subst hbs
          cases rest with
          | nil =>
            rw [quoted_text_backslash_end] at hfit
            rw [parse_quoted_backslash_end _ _ (by simpa using hfit), after_quote_backslash_end]
            exact Or.inl ⟨rfl, rfl⟩
          | cons d ds =>
            rw [quoted_text_escape] at hfit
            simp only [List.length_cons] at hfit hlen
            rw [parse_quoted_escape _ _ _ _ (by omega), after_quote_escape]
            exact ih ds (buf ++ [d]) (by omega) (by simp; omega)
        · rw [quoted_text_other c rest hq hbs] at hfit
          simp only [List.length_cons] at hfit hlen
          rw [parse_quoted_other _ _ _ _ hq hbs (by omega), after_quote_other c rest hq hbs]
          exact ih rest (buf ++ [c]) (by omega) (by simp; omega)

/-- A token that fits the 512-byte buffer is the token of the specification, and the
cursor is left where the next token is looked for. -/
theorem utils_parse_token_fits (input : List Byte)
    (hfit : (token_text input).length ≤ 511) :
    utils_parse_token input 512 = (token_rest input, token_text input) := by
  unfold token_text at hfit ⊢
  unfold token_rest
  cases hd : input.dropWhile isspace with
  | nil =>
    rw [hd] at hfit
    simp only [List.head?_nil, reduceCtorEq, if_false] at hfit ⊢
    rw [utils_parse_token_plain input 512 (by simp [hd]) (by omega), hd]
  | cons c cs =>
    rw [hd] at hfit
    by_cases hc : c = 34
    · subst hc
      simp only [List.head?_cons, if_true, List.tail_cons] at hfit ⊢
      have h1 := parse_quoted_eq 512 cs.length cs [] (Nat.le_refl _) (by simp; omega)
      have h2 := parse_quoted_cursor 512 cs.length cs [] (Nat.le_refl _) (by simp; omega)
      unfold utils_parse_token
      rw [if_neg (by decide)]
      simp only [skip_spaces_eq, hd, if_true, skip_token_eq]
      rw [h1]
      rcases h2 with ⟨h2, h3⟩ | h2
      · rw [h2, h3]
        simp
      · rw [h2]
        simp
    · have hne : (some c : Option Byte) ≠ some 34 := by
        intro h
        exact hc (Option.some.inj h)
      simp only [List.head?_cons, if_neg hne] at hfit ⊢
      rw [utils_parse_token_plain input 512 (by simp [hd, hc]) (by omega), hd]

/-- On a boundary line without a NUL byte whose two tokens fit the buffer, the path
`patch_parse` gives the section is the path in the words of the claim. -/
theorem section_target_claimed (line : List Byte)
    (hnul : ∀ c ∈ line, c ≠ 0)
    (hfirst : (token_text (line.drop 10)).length ≤ 511)
    (hsecond : (token_text (token_rest (line.drop 10))).length ≤ 511) :
    section_target line = claimed_path line := by
  have hc : cstr (line.drop 10) = line.drop 10 :=
    cstr_eq_self _ (fun c h => hnul c (List.mem_of_mem_drop h))
  rw [section_target_eq]
  unfold derived_path claimed_path
  rw [hc, utils_parse_token_fits _ hfirst]
  simp only []
  rw [utils_parse_token_fits _ hsecond]

theorem longer_name_length : longer_name.length = 600 := List.length_replicate 600 120

theorem longer_name_mem (c : Byte) (h : c ∈ longer_name) : c = 120 :=
  (List.mem_replicate.mp h).2

/-- The plain token of a text that opens with a blank and a byte that is not
whitespace, and the text behind that token. -/
theorem plain_token_bare (s c e : Byte) (t rest : List Byte)
    (hs : isspace s = true) (hc : isspace c = false) (he : isspace e = true)
    (ht : ∀ x ∈ t, isspace x = false) :
    (s :: c :: (t ++ e :: rest)).dropWhile isspace = c :: (t ++ e :: rest) ∧
    plain_token (s :: c :: (t ++ e :: rest)) = c :: t ∧
    ((s :: c :: (t ++ e :: rest)).dropWhile isspace).dropWhile (fun b => !isspace b)
      = e :: rest := by
  have h1 : (s :: c :: (t ++ e :: rest)).dropWhile isspace = c :: (t ++ e :: rest) := by
    simp [List.dropWhile_cons, hs, hc]
  have ht2 : ∀ x ∈ t, (!isspace x) = true := by
    intro x hx
    simp [ht x hx]
  refine ⟨h1, ?_, ?_⟩
  · unfold plain_token
    rw [h1, List.takeWhile_cons]
    simp only [hc, Bool.not_false, if_true]
    rw [List.takeWhile_append_of_pos ht2, List.takeWhile_cons]
    simp [he]
  · rw [h1, List.dropWhile_cons]
    simp only [hc, Bool.not_false, if_true]
    rw [List.dropWhile_append_of_pos ht2, List.dropWhile_cons]
    simp [he]

theorem long_bare_line_eq :
    long_bare_line
      = diff_git ++ (32 :: 97 :: ((47 :: longer_name) ++ 32 :: 98 ::
          ((47 :: longer_name) ++ 10 :: []))) := by
  simp [long_bare_line, diff_git, bytes]

theorem long_bare_line_paths :
    section_target long_bare_line = longer_name.take 509 ∧
    claimed_path long_bare_line = longer_name := by
  have hsp : ∀ x ∈ (47 :: longer_name), isspace x = false := by
    intro x hx
    rcases List.mem_cons.mp hx with h | h
    · rw [h]; decide
    · rw [longer_name_mem x h]; decide
  have hnul : ∀ c ∈ (32 :: 97 :: ((47 :: longer_name) ++ 32 :: 98 ::
      ((47 :: longer_name) ++ 10 :: []))), c ≠ 0 := by
    have hn : ∀ c ∈ longer_name, c ≠ 0 := by
      intro c hc
      rw [longer_name_mem c hc]
      decide
    simp only [List.forall_mem_append, List.forall_mem_cons]
    exact ⟨by decide, by decide, ⟨by decide, hn⟩, by decide, by decide,
      ⟨by decide, hn⟩, by decide, by simp⟩
  obtain ⟨a1, a2, a3⟩ := plain_token_bare 32 97 32 (47 :: longer_name)
    (98 :: ((47 :: longer_name) ++ 10 :: [])) (by decide) (by decide) (by decide) hsp
  obtain ⟨b1, b2, b3⟩ := plain_token_bare 32 98 10 (47 :: longer_name) []
    (by decide) (by decide) (by decide) hsp
  have hdrop : long_bare_line.drop 10
      = 32 :: 97 :: ((47 :: longer_name) ++ 32 :: 98 ::
          ((47 :: longer_name) ++ 10 :: [])) := by
    rw [long_bare_line_eq, List.drop_left' (by decide)]
  have hstrip : strip_leading (98 :: 47 :: longer_name) = longer_name := by
    simp [strip_leading, bytes_a, bytes_b]
  have hstrip2 : strip_leading (98 :: 47 :: longer_name.take 509) = longer_name.take 509 := by
    simp [strip_leading, bytes_a, bytes_b]
  have htake : (98 :: 47 :: longer_name).take 511 = 98 :: 47 :: longer_name.take 509 := rfl
  have hq1 : ((32 :: 97 :: ((47 :: longer_name) ++ 32 :: 98 ::
      ((47 :: longer_name) ++ 10 :: []))).dropWhile isspace).head? ≠ some 34 := by
    rw [a1]
    exact fun h => absurd (Option.some.inj h) (by decide)
  have hq2 : ((32 :: 98 :: ((47 :: longer_name) ++ 10 :: [])).dropWhile isspace).head?
      ≠ some 34 := by
    rw [b1]
    exact fun h => absurd (Option.some.inj h) (by decide)
  have t1 : utils_parse_token (32 :: 97 :: ((47 :: longer_name) ++ 32 :: 98 ::
      ((47 :: longer_name) ++ 10 :: []))) 512
      = (32 :: 98 :: ((47 :: longer_name) ++ 10 :: []), (97 :: 47 :: longer_name).take 511) := by
    rw [utils_parse_token_bare_cut _ 512 (by decide) hq1, a3, a2]
  have t2 : utils_parse_token (32 :: 98 :: ((47 :: longer_name) ++ 10 :: [])) 512
      = ([10], (98 :: 47 :: longer_name).take 511) := by
    rw [utils_parse_token_bare_cut _ 512 (by decide) hq2, b3, b2]
  have c1 : token_text (32 :: 97 :: ((47 :: longer_name) ++ 32 :: 98 ::
      ((47 :: longer_name) ++ 10 :: []))) = 97 :: 47 :: longer_name := by
    unfold token_text
    rw [if_neg hq1, a2]
  have c2 : token_rest (32 :: 97 :: ((47 :: longer_name) ++ 32 :: 98 ::
      ((47 :: longer_name) ++ 10 :: []))) = 32 :: 98 :: ((47 :: longer_name) ++ 10 :: []) := by
    unfold token_rest
    rw [if_neg hq1, a3]
  have c3 : token_text (32 :: 98 :: ((47 :: longer_name) ++ 10 :: []))
      = 98 :: 47 :: longer_name := by
    unfold token_text
    rw [if_neg hq2, b2]
  constructor
  · rw [section_target_eq]
    unfold derived_path
    rw [hdrop, cstr_eq_self _ hnul, t1]
    simp only []
    rw [t2, htake]
    simp only []
    rw [if_pos (by simp), hstrip2]
  · unfold claimed_path
    rw [hdrop, c2, c3, if_pos (by simp), hstrip]

theorem long_bare_line_lines :
    getlines (long_bare_line ++ bytes "+x\n") = [long_bare_line, bytes "+x\n"] := by
  have hn : ∀ c ∈ longer_name, c ≠ 10 := by
    intro c hc
    rw [longer_name_mem c hc]
    decide
  have h0 : long_bare_line
      = (bytes "diff --git a/" ++ longer_name ++ bytes " b/" ++ longer_name) ++ [10] := by
    simp [long_bare_line, bytes]
  have h1 : long_bare_line ++ bytes "+x\n"
      = (bytes "diff --git a/" ++ longer_name ++ bytes " b/" ++ longer_name)
          ++ 10 :: bytes "+x\n" := by
    rw [h0]
    simp
  rw [h1, getlines_line, ← h0]
  · have : getlines (bytes "+x\n") = [bytes "+x\n"] := by decide
    rw [this]
  · simp only [List.forall_mem_append]
    exact ⟨⟨⟨by decide, hn⟩, by decide⟩, hn⟩

theorem long_bare_line_boundary : is_boundary long_bare_line = true := by
  rw [long_bare_line_eq]
  exact is_boundary_marker _

/-- Claim C11 as stated fails. On the stream whose boundary line has the bare tokens
`a/x...x` and `b/x...x` with 600 bytes `x`, the path in the words of the claim has the
600 bytes, and the section `patch_parse` delivers has the first 509 of them. On a
boundary line with a NUL byte in its tokens the path stops at the NUL byte. -/
theorem patch_parse_paths_long_token :
    (patch_parse ⟨long_bare_line ++ bytes "+x\n", false⟩
        (traced collect_sections_callback) ([], [])).2.2.map (fun c => c.1.path)
      = [some (longer_name.take 509)] ∧
    ((getlines (long_bare_line ++ bytes "+x\n")).filter is_boundary).map
        (fun l => some (claimed_path l))
      = [some longer_name] ∧
    (patch_parse ⟨long_bare_line ++ bytes "+x\n", false⟩
        (traced collect_sections_callback) ([], [])).2.2.map (fun c => c.1.path)
      ≠ ((getlines (long_bare_line ++ bytes "+x\n")).filter is_boundary).map
          (fun l => some (claimed_path l)) ∧
    section_target (bytes "diff --git a/f" ++ 0 :: bytes "g b/f" ++ 0 :: bytes "g\n")
      = bytes "f" ∧
    claimed_path (bytes "diff --git a/f" ++ 0 :: bytes "g b/f" ++ 0 :: bytes "g\n")
      = [102, 0, 103] := by
  have hx : is_boundary (bytes "+x\n") = false := by decide
  have hfilter : (getlines (long_bare_line ++ bytes "+x\n")).filter is_boundary
      = [long_bare_line] := by
    rw [long_bare_line_lines]
    simp [List.filter_cons, long_bare_line_boundary, hx]
  have hcode : (patch_parse ⟨long_bare_line ++ bytes "+x\n", false⟩
        (traced collect_sections_callback) ([], [])).2.2.map (fun c => c.1.path)
      = [some (longer_name.take 509)] := by
    rw [patch_parse_section_targets collect_sections_callback _ [] (fun _ _ => rfl)]
    simp only [hfilter, List.map_cons, List.map_nil, long_bare_line_paths.1]
  have hclaim : ((getlines (long_bare_line ++ bytes "+x\n")).filter is_boundary).map
        (fun l => some (claimed_path l)) = [some longer_name] := by
    simp only [hfilter, List.map_cons, List.map_nil, long_bare_line_paths.2]
  refine ⟨hcode, hclaim, ?_, by decide, by decide⟩
  rw [hcode, hclaim]
  intro h
  have hlen := congrArg List.length (Option.some.inj (List.cons.inj h).1)
  rw [List.length_take, longer_name_length] at hlen
  exact absurd hlen (by decide)

/-- Claim C11, amended: on a stream whose boundary lines hold no NUL byte and have two
path tokens of at most 511 bytes each, when every callback call succeeds, the paths
of the sections `patch_parse` delivers are, in stream order, the paths derived from
the boundary lines: of the two whitespace-separated tokens after the marker the second
if it is not empty, otherwise the first, with one leading `a/` or `b/` removed. The
stream with blocks for `a/foo.c b/foo.c` and `a/bar.txt b/bar.txt` gives the two paths
`foo.c` and `bar.txt`, in that order. -/
theorem patch_parse_paths {σ : Type} (cb : patch_section → σ → Bool × σ)
    (input : FILE) (userdata : σ)
    (hcalls : ∀ c ∈ (patch_parse input (traced cb) (userdata, [])).2.2,
      (cb c.1 c.2).1 = true)
    (hlines : ∀ l ∈ getlines input.content, is_boundary l = true →
      (∀ c ∈ l, c ≠ 0) ∧ (token_text (l.drop 10)).length ≤ 511 ∧
        (token_text (token_rest (l.drop 10))).length ≤ 511) :
    (patch_parse input (traced cb) (userdata, [])).2.2.map (fun c => c.1.path)
      = ((getlines input.content).filter is_boundary).map (fun l => some (claimed_path l)) ∧
    (patch_parse
        ⟨bytes "diff --git a/foo.c b/foo.c\n+f\ndiff --git a/bar.txt b/bar.txt\n+b\n", false⟩
        (traced collect_sections_callback) ([], [])).2.2.map (fun c => c.1.path)
      = [some (bytes "foo.c"), some (bytes "bar.txt")] := by
  refine ⟨?_, by decide⟩
  rw [patch_parse_section_targets cb input userdata hcalls]
  apply List.map_congr_left
  intro l hl
  obtain ⟨hmem, hb⟩ := List.mem_filter.mp hl
  obtain ⟨hnul, h1, h2⟩ := hlines l hmem hb
  rw [section_target_claimed l hnul h1 h2]

theorem patch_parse_paths_witness :
    (patch_parse
        ⟨bytes "junk\ndiff --git a/f b/f\n+x\ndiff --git  x/g\n-y\ndiff --git \"a/my file.c\" \"b/my file.c\"\n", false⟩
        (traced collect_sections_callback) ([], [])).2.2.map (fun c => c.1.path)
      = [some (bytes "f"), some (bytes "x/g"), some (bytes "my file.c")] :=
  (patch_parse_paths collect_sections_callback
    ⟨bytes "junk\ndiff --git a/f b/f\n+x\ndiff --git  x/g\n-y\ndiff --git \"a/my file.c\" \"b/my file.c\"\n", false⟩
    [] (fun _ _ => rfl) (by decide)).1.trans (by decide)

end PatchUtils
